import Mathlib

/-!
# CPU scheduling simulator (`Project_CSE325.c`): shallow embedding and properties

The C program simulates four scheduling policies (FCFS, non-preemptive SJF,
non-preemptive priority, Round-Robin) over an array of `Process` records and
records the CPU occupation in a `GanttChart`.

Conventions of the embedding.

* C `int` values are `Int`.  Signed overflow is undefined behaviour in C, so the
  embedding describes the program on the runs where no `int` computation
  overflows; the sentinel `INT_MAX` used by the scans is kept as it is written.
* The process array `Process p[]` with its length `n` is a `List Process`;
  `p[i]` is `p.getD i default` and the assignment to `p[i]` is `p.set i _`.
* A `GanttChart` is the list of its first `count` events, so `count` is the
  length of the list.
* `for` loops over `0 .. n-1` are structural recursions over the array carrying
  the running index.  `while` loops are `while_loop` with an explicit fuel (the
  number of times the loop condition may be evaluated); `none` means that the
  fuel ran out.
* Printing is not modelled.  The `double` averages are exact rationals.
-/

namespace Sched

/-! ## Constants and records -/

/-- The C constant `INT_MAX` for a 32-bit `int`. -/
def INT_MAX : Int := 2147483647

/-- The C constant `INT_MIN` for a 32-bit `int`. -/
def INT_MIN : Int := -2147483648

/-- Capacity of the process array and of the Round-Robin queue, `#define MAXP 100`. -/
def MAXP : Nat := 100

/-- Capacity of the Gantt chart, `#define MAXG 10000`. -/
def MAXG : Nat := 10000

/-- The record `Process` of the source, field for field. -/
structure Process where
  pid : Int
  arrival : Int
  burst : Int
  priority : Int
  remaining : Int
  start_time : Int
  completion_time : Int
  waiting_time : Int
  turnaround_time : Int
  started : Int
deriving DecidableEq, Inhabited

/-- The record `GanttEvent` of the source; the field `end` is written `end_`. -/
structure GanttEvent where
  pid : Int
  start : Int
  end_ : Int
deriving DecidableEq, Inhabited

/-- The chart `GanttChart`: the events `events[0 .. count-1]`, `count` being the length. -/
abbrev GanttChart := List GanttEvent

/-- The record `Averages`; the two `double` fields are exact rationals here. -/
structure Averages where
  avg_wait : ℚ
  avg_turn : ℚ
deriving DecidableEq

/-- What a policy hands back: the process array as it leaves it, the chart, the averages. -/
structure RunResult where
  procs : List Process
  chart : GanttChart
  avg : Averages
deriving DecidableEq

/-- The input fields of a process, the ones no policy writes: pid, arrival, burst, priority. -/
def Process.static (x : Process) : Int × Int × Int × Int :=
  (x.pid, x.arrival, x.burst, x.priority)

/-- A process freshly entered by `take_input`: the run-state fields as lines 470-475 set them. -/
def mkProcess (pid arrival burst priority : Int) : Process :=
  { pid := pid, arrival := arrival, burst := burst, priority := priority,
    remaining := burst, start_time := -1, completion_time := -1,
    waiting_time := 0, turnaround_time := 0, started := 0 }

/-! ## Generic loop -/

/-- The loop `while (cond) body` run with `fuel` evaluations of the condition at most. -/
def while_loop {σ : Type} (cond : σ → Bool) (body : σ → σ) : Nat → σ → Option σ
  | 0, _ => none
  | fuel + 1, s => if cond s then while_loop cond body fuel (body s) else some s

/-! ## Helpers of the source -/

/-- The function `reset_stats`: every process gets its run-state fields reset. -/
def reset_stats (p : List Process) : List Process :=
  p.map fun x =>
    { x with remaining := x.burst, start_time := -1, completion_time := -1,
             waiting_time := 0, turnaround_time := 0, started := 0 }

/-- The function `all_done`: no process has `remaining > 0`. -/
def all_done (p : List Process) : Bool :=
  p.all fun x => !decide (x.remaining > 0)

/-- The scan of `next_arrival_time` from index `i` on: `min_arr` becomes the arrival of an
unfinished process that arrives after `current_time` whenever that arrival is smaller. -/
def next_arrival_scan (current_time : Int) : List Process → Int → Int
  | [], min_arr => min_arr
  | x :: rest, min_arr =>
    next_arrival_scan current_time rest
      (if x.remaining > 0 ∧ x.arrival > current_time then
        (if x.arrival < min_arr then x.arrival else min_arr)
      else min_arr)

/-- The function `next_arrival_time`: the scan from `INT_MAX`, and `current_time` itself
when the scan ends at `INT_MAX`. -/
def next_arrival_time (p : List Process) (current_time : Int) : Int :=
  let min_arr := next_arrival_scan current_time p INT_MAX
  if min_arr = INT_MAX then current_time else min_arr

/-- The function `push_event`: append to an empty chart; extend the last event when it has
the same pid and ends where the new slice starts; else append while `count < MAXG`. -/
def push_event (g : GanttChart) (pid start end_ : Int) : GanttChart :=
  if g.length = 0 then
    g ++ [⟨pid, start, end_⟩]
  else
    let last := g.getD (g.length - 1) default
    if last.pid = pid ∧ last.end_ = start then
      g.set (g.length - 1) { last with end_ := end_ }
    else if g.length < MAXG then
      g ++ [⟨pid, start, end_⟩]
    else
      g

/-- One row of `compute_and_print_table`: turnaround and waiting time of a process. -/
def table_row (x : Process) : Process :=
  let tat := x.completion_time - x.arrival
  { x with turnaround_time := tat, waiting_time := tat - x.burst }

/-- The function `compute_and_print_table` without the printing: the rows and the means. -/
def compute_and_print_table (p : List Process) : List Process × Averages :=
  let p1 := p.map table_row
  let sum_w : ℚ := p1.foldl (fun s x => s + (x.waiting_time : ℚ)) 0
  let sum_t : ℚ := p1.foldl (fun s x => s + (x.turnaround_time : ℚ)) 0
  (p1, { avg_wait := sum_w / (p.length : ℚ), avg_turn := sum_t / (p.length : ℚ) })

/-! ## FCFS -/

/-- The swap test of the sort in `fcfs`: `pj` goes before `pi` (arrival, then pid). -/
def fcfs_before (pj pi : Process) : Prop :=
  pj.arrival < pi.arrival ∨ (pj.arrival = pi.arrival ∧ pj.pid < pi.pid)

instance (a b : Process) : Decidable (fcfs_before a b) :=
  inferInstanceAs (Decidable (a.arrival < b.arrival ∨ (a.arrival = b.arrival ∧ a.pid < b.pid)))

/-- The three assignments `tmp = p[i]; p[i] = p[j]; p[j] = tmp`. -/
def swap_cells (p : List Process) (i j : Nat) : List Process :=
  let tmp := p.getD i default
  (p.set i (p.getD j default)).set j tmp

/-- The inner loop `for (j = ..; j < n; j++)` of the sort in `fcfs` for a fixed `i`, from
index `j` on, with `m = n - j` iterations left: `p[i]` and `p[j]` are swapped whenever
`p[j]` goes before `p[i]`. -/
def fcfs_sort_inner (i : Nat) : Nat → Nat → List Process → List Process
  | 0, _, p => p
  | m + 1, j, p =>
    fcfs_sort_inner i m (j + 1)
      (if fcfs_before (p.getD j default) (p.getD i default) then swap_cells p i j else p)

/-- The outer loop `for (i = ..; i < n; i++)` of the sort in `fcfs`, from index `i` on, with
`m = n - i` iterations left; the inner loop starts at `j = i + 1`. -/
def fcfs_sort_outer : Nat → Nat → List Process → List Process
  | 0, _, p => p
  | m + 1, i, p => fcfs_sort_outer m (i + 1) (fcfs_sort_inner i (p.length - (i + 1)) (i + 1) p)

/-- The dispatch loop of `fcfs` from index `i` on: the list is `p[i..n-1]`.  Returns the
processes as written, the final clock and the chart. -/
def fcfs_run : List Process → Int → GanttChart → List Process × Int × GanttChart
  | [], time, g => ([], time, g)
  | x :: rest, time, g =>
    let time1 := if time < x.arrival then x.arrival else time
    let time2 := time1 + x.burst
    let x1 := { x with start_time := time1, remaining := 0, completion_time := time2 }
    let r := fcfs_run rest time2 (push_event g x1.pid x1.start_time x1.completion_time)
    (x1 :: r.1, r.2.1, r.2.2)

/-- The function `fcfs`. -/
def fcfs (p : List Process) : RunResult :=
  let p1 := reset_stats p
  let p2 := fcfs_sort_outer p1.length 0 p1
  let r := fcfs_run p2 0 []
  let t := compute_and_print_table r.1
  { procs := t.1, chart := r.2.2, avg := t.2 }

/-! ## SJF and priority, both non-preemptive

`sjf_np` and `priority_np` are the same text in the source except for the field the
selection compares (`burst` in one, `priority` in the other); the shared text is
embedded once, with that field as the parameter `key`. -/

/-- State of the main loop of `sjf_np` / `priority_np`. -/
structure NPState where
  p : List Process
  time : Int
  completed : Nat
  g : GanttChart
deriving DecidableEq

/-- The scan `for i: if (p[i].arrival < earliest) earliest = p[i].arrival` from index `i` on. -/
def earliest_scan : List Process → Int → Int
  | [], earliest => earliest
  | x :: rest, earliest => earliest_scan rest (if x.arrival < earliest then x.arrival else earliest)

/-- The earliest arrival as the policies compute it: the scan from `INT_MAX`. -/
def earliest_arrival (p : List Process) : Int := earliest_scan p INT_MAX

/-- The selection scan from index `i` on; the accumulator is `(idx, best, best_pid)` and
`idx = -1` is `none`. -/
def np_scan (key : Process → Int) (time : Int) :
    List Process → Nat → Option Nat × Int × Int → Option Nat × Int × Int
  | [], _, acc => acc
  | x :: rest, i, acc =>
    if x.remaining > 0 ∧ x.arrival ≤ time then
      if key x < acc.2.1 ∨ (key x = acc.2.1 ∧ x.pid < acc.2.2) then
        np_scan key time rest (i + 1) (some i, key x, x.pid)
      else
        np_scan key time rest (i + 1) acc
    else
      np_scan key time rest (i + 1) acc

/-- The index the selection scan ends with, `none` for `idx == -1`. -/
def np_select (key : Process → Int) (p : List Process) (time : Int) : Option Nat :=
  (np_scan key time p 0 (none, INT_MAX, INT_MAX)).1

/-- The state before the main loop: statistics reset, empty chart, clock at the earliest
arrival (0 when the scan left `INT_MAX`). -/
def np_init (p : List Process) : NPState :=
  let p1 := reset_stats p
  let earliest := earliest_arrival p1
  { p := p1, time := if earliest ≠ INT_MAX then earliest else 0, completed := 0, g := [] }

/-- One iteration of the main loop: jump to the next arrival when nothing was selected,
else run the selected process to completion. -/
def np_body (key : Process → Int) (s : NPState) : NPState :=
  match np_select key s.p s.time with
  | none => { s with time := next_arrival_time s.p s.time }
  | some idx =>
    let x := s.p.getD idx default
    let time2 := s.time + x.burst
    let x1 := { x with start_time := s.time, remaining := 0, completion_time := time2 }
    { p := s.p.set idx x1
      time := time2
      completed := s.completed + 1
      g := push_event s.g x1.pid x1.start_time x1.completion_time }

/-- The loop condition `completed < n`. -/
def np_cond (s : NPState) : Bool := decide (s.completed < s.p.length)

/-- The main loop with fuel. -/
def np_loop (key : Process → Int) (fuel : Nat) (s : NPState) : Option NPState :=
  while_loop np_cond (np_body key) fuel s

/-- What both functions return from the final loop state. -/
def np_result (s : NPState) : RunResult :=
  let t := compute_and_print_table s.p
  { procs := t.1, chart := s.g, avg := t.2 }

/-- The function `sjf_np`: the selection compares `burst`. -/
def sjf_np (fuel : Nat) (p : List Process) : Option RunResult :=
  (np_loop Process.burst fuel (np_init p)).map np_result

/-- The function `priority_np`: the selection compares `priority`. -/
def priority_np (fuel : Nat) (p : List Process) : Option RunResult :=
  (np_loop Process.priority fuel (np_init p)).map np_result

/-! ## Round-Robin -/

/-- The circular buffer `Queue`: storage `q[MAXP]` and the two running counters.  In the
source `front` and `back` are `int` and only ever grow; here they are natural numbers, so
a state is a state of the source as long as `back` is at most `INT_MAX` (beyond that the
source's `back++` is a signed overflow). -/
structure Queue where
  q : List Nat
  front : Nat
  back : Nat
deriving DecidableEq

/-- The function `q_init`; the storage, which C leaves uninitialised, starts as zeros. -/
def q_init : Queue := { q := List.replicate MAXP 0, front := 0, back := 0 }

/-- The function `q_empty`. -/
def q_empty (Q : Queue) : Bool := Q.front == Q.back

/-- The function `q_push`: `q[back++ % MAXP] = v` (defined in the source while
`back < INT_MAX`). -/
def q_push (Q : Queue) (v : Nat) : Queue :=
  { Q with q := Q.q.set (Q.back % MAXP) v, back := Q.back + 1 }

/-- The function `q_pop`: `q[front++ % MAXP]`, with the queue left behind (defined in the
source while `front < INT_MAX`). -/
def q_pop (Q : Queue) : Nat × Queue :=
  (Q.q.getD (Q.front % MAXP) 0, { Q with front := Q.front + 1 })

/-- The live entries of the buffer, front first: `q[front % MAXP], .., q[(back-1) % MAXP]`. -/
def Queue.toList (Q : Queue) : List Nat :=
  (List.range (Q.back - Q.front)).map fun k => Q.q.getD ((Q.front + k) % MAXP) 0

/-- The loops `for i: if (c p[i]) q_push(&q, i)` from index `i` on. -/
def enqueue_where (c : Process → Bool) : List Process → Nat → Queue → Queue
  | [], _, Q => Q
  | x :: rest, i, Q => enqueue_where c rest (i + 1) (if c x then q_push Q i else Q)

/-- State of the main loop of `rr`.  The locals `last_pid` and `slice_start` are written
but never read in the source and are left out.  `slices` is a ghost field: the arguments
of the calls of `push_event`, in call order (the slices before merging). -/
structure RRState where
  p : List Process
  time : Int
  q : Queue
  completed : Nat
  g : GanttChart
  slices : List GanttEvent
deriving DecidableEq

/-- The state before the main loop of `rr`. -/
def rr_init (p : List Process) : RRState :=
  let p1 := reset_stats p
  let time := earliest_arrival p1
  { p := p1
    time := time
    q := enqueue_where (fun x => decide (x.arrival = time)) p1 0 q_init
    completed := 0
    g := []
    slices := [] }

/-- The test of the arrival loop inside a dispatch: unfinished and arrived in `(before, time]`. -/
def rr_arrived (before time : Int) (x : Process) : Bool :=
  decide (x.remaining > 0 ∧ x.arrival > before ∧ x.arrival ≤ time)

/-- One iteration of the main loop of `rr`. -/
def rr_body (quantum : Int) (s : RRState) : RRState :=
  if q_empty s.q then
    let next_t := next_arrival_time s.p s.time
    { s with
      time := next_t
      q := enqueue_where (fun x => decide (x.arrival = next_t ∧ x.remaining > 0)) s.p 0 s.q }
  else
    let i := (q_pop s.q).1
    let Q1 := (q_pop s.q).2
    let x := s.p.getD i default
    if x.remaining ≤ 0 then
      { s with q := Q1 }
    else
      let x1 := if x.started = 0 then { x with started := 1, start_time := s.time } else x
      let run := if x1.remaining < quantum then x1.remaining else quantum
      let before := s.time
      let time := s.time + run
      let x2 := { x1 with remaining := x1.remaining - run }
      let p2 := s.p.set i x2
      let Q2 := enqueue_where (rr_arrived before time) p2 0 Q1
      let g2 := push_event s.g x2.pid before time
      let sl := s.slices ++ [⟨x2.pid, before, time⟩]
      if x2.remaining = 0 then
        { p := p2.set i { x2 with completion_time := time }
          time := time
          q := Q2
          completed := s.completed + 1
          g := g2
          slices := sl }
      else
        { p := p2, time := time, q := q_push Q2 i, completed := s.completed, g := g2,
          slices := sl }

/-- The loop condition `completed < n` of `rr`. -/
def rr_cond (s : RRState) : Bool := decide (s.completed < s.p.length)

/-- The main loop of `rr` with fuel. -/
def rr_loop (quantum : Int) (fuel : Nat) (s : RRState) : Option RRState :=
  while_loop rr_cond (rr_body quantum) fuel s

/-- The function `rr`. -/
def rr (fuel : Nat) (p : List Process) (quantum : Int) : Option RunResult :=
  (rr_loop quantum fuel (rr_init p)).map fun s =>
    let t := compute_and_print_table s.p
    { procs := t.1, chart := s.g, avg := t.2 }

/-! ## Comparison (`run_algorithm_menu`, case 5) -/

/-- The three `if (a_k.avg_wait < best)` updates after `best = a1.avg_wait; best_id = 1`.
The averages are rationals: every finite `double` is a rational and `<` on finite
doubles is `<` on their values, so the comparisons are those of the source. -/
def best_id (a1 a2 a3 a4 : ℚ) : Nat :=
  let s1 : ℚ × Nat := (a1, 1)
  let s2 : ℚ × Nat := if a2 < s1.1 then (a2, 2) else s1
  let s3 : ℚ × Nat := if a3 < s2.1 then (a3, 3) else s2
  let s4 : ℚ × Nat := if a4 < s3.1 then (a4, 4) else s3
  s4.2

/-! ## Workloads -/

/-- The input fields of a process as the policies take them: arrival at least 0, burst at
least 1, and arrival, burst and priority below `INT_MAX`, the value the scans start from.
`take_input` admits less: arrival and burst up to `INT_MAX / 2`, priority between
`INT_MIN / 2` and `INT_MAX / 2`. -/
def InputRange (x : Process) : Prop :=
  0 ≤ x.arrival ∧ x.arrival < INT_MAX ∧ 1 ≤ x.burst ∧ x.burst < INT_MAX ∧
    x.priority < INT_MAX

instance (x : Process) : Decidable (InputRange x) :=
  inferInstanceAs (Decidable (0 ≤ x.arrival ∧ x.arrival < INT_MAX ∧ 1 ≤ x.burst ∧
    x.burst < INT_MAX ∧ x.priority < INT_MAX))

/-- A valid workload: between 1 and `MAXP` processes, pairwise distinct pids, every
process with its input fields in range.  Times are `Int`, so no run overflows. -/
def ValidWorkload (p : List Process) : Prop :=
  1 ≤ p.length ∧ p.length ≤ MAXP ∧ (p.map Process.pid).Nodup ∧ ∀ x ∈ p, InputRange x

instance (p : List Process) : Decidable (ValidWorkload p) :=
  inferInstanceAs (Decidable (1 ≤ p.length ∧ p.length ≤ MAXP ∧ (p.map Process.pid).Nodup ∧
    ∀ x ∈ p, InputRange x))

/-- The workload of the examples: P1 (0, 5), P2 (1, 3), P3 (2, 1), all of priority 1. -/
def example_workload : List Process :=
  [mkProcess 1 0 5 1, mkProcess 2 1 3 1, mkProcess 3 2 1 1]


/-! ## Notions used by the statements and the proofs -/

/-- The inner loop of the sort read off the list: `pi` is the current `p[i]`, the list is
`p[j..n-1]`; whenever `p[j]` goes before `p[i]` the two are swapped.  Returns the final
`p[i]` and the final `p[j..n-1]`.  Equal to `fcfs_sort_inner` by `fcfs_sort_inner_eq`. -/
def fcfs_inner (pi : Process) : List Process → Process × List Process
  | [] => (pi, [])
  | pj :: rest =>
    if fcfs_before pj pi then
      let r := fcfs_inner pj rest
      (r.1, pi :: r.2)
    else
      let r := fcfs_inner pi rest
      (r.1, pj :: r.2)

/-- The outer loop of the sort read off the list, with `k = n - i` rounds left; the list is
`p[i..n-1]` (the rounds from `i` on never touch `p[0..i-1]`).  Equal to `fcfs_sort_outer`
by `fcfs_sort_outer_eq`. -/
def fcfs_sort : Nat → List Process → List Process
  | 0, p => p
  | _ + 1, [] => []
  | k + 1, pi :: rest =>
    let r := fcfs_inner pi rest
    r.1 :: fcfs_sort k r.2

/-- The ledger invariant: no two adjacent events have the same pid with the earlier one
ending where the later one starts. -/
def Merged (g : GanttChart) : Prop :=
  List.Chain' (fun a b : GanttEvent => ¬ (a.pid = b.pid ∧ a.end_ = b.start)) g

instance (g : GanttChart) : Decidable (Merged g) :=
  inferInstanceAs (Decidable
    (List.Chain' (fun a b : GanttEvent => ¬ (a.pid = b.pid ∧ a.end_ = b.start)) g))

/-- The ledger after a sequence of calls of `push_event`, one per element of `calls`. -/
def push_all (g : GanttChart) (calls : List GanttEvent) : GanttChart :=
  calls.foldl (fun g c => push_event g c.pid c.start c.end_) g

/-- A chart with `MAXG` events, each `(1, 0, 1)`: no two adjacent ones touch. -/
def full_chart : GanttChart := List.replicate MAXG ⟨1, 0, 1⟩

/-- The average waiting time of policy number `k` (1 FCFS, 2 SJF, 3 priority, 4 RR). -/
def avg_of (a1 a2 a3 a4 : ℚ) (k : Nat) : ℚ :=
  if k = 1 then a1 else if k = 2 then a2 else if k = 3 then a3 else a4

/-- A process is ready at `time`: unfinished and arrived. -/
def eligible (time : Int) (x : Process) : Prop := x.remaining > 0 ∧ x.arrival ≤ time

instance (time : Int) (x : Process) : Decidable (eligible time x) :=
  inferInstanceAs (Decidable (x.remaining > 0 ∧ x.arrival ≤ time))

/-- The pair `(a, b)` is lexicographically at most `(c, d)`. -/
def lex_le (a b c d : Int) : Prop := a < c ∨ (a = c ∧ b ≤ d)

instance (a b c d : Int) : Decidable (lex_le a b c d) :=
  inferInstanceAs (Decidable (a < c ∨ (a = c ∧ b ≤ d)))

/-- The state of `sjf_np` / `priority_np` after `k` iterations of the loop body. -/
def np_state (key : Process → Int) (p : List Process) (k : Nat) : NPState :=
  (np_body key)^[k] (np_init p)

/-- What the accumulator of the selection scan says after the processes `pre` were seen. -/
def ScanInv (key : Process → Int) (time : Int) (pre : List Process)
    (acc : Option Nat × Int × Int) : Prop :=
  (∀ x ∈ pre, eligible time x → lex_le acc.2.1 acc.2.2 (key x) x.pid) ∧
  (match acc.1 with
    | none => acc.2.1 = INT_MAX ∧ acc.2.2 = INT_MAX
    | some j => ∃ x, pre[j]? = some x ∧ eligible time x ∧ acc.2.1 = key x ∧ acc.2.2 = x.pid)


/-- A process has finished: nothing remains of its burst. -/
def finished (x : Process) : Bool := decide (x.remaining = 0)

/-- The event a non-preemptive policy records for a finished process. -/
def slice_of (x : Process) : GanttEvent := ⟨x.pid, x.start_time, x.completion_time⟩

/-- The invariant of the main loop of `sjf_np` / `priority_np` on the workload `p0`. -/
structure NPInv (p0 : List Process) (s : NPState) : Prop where
  static : s.p.map Process.static = p0.map Process.static
  run : ∀ x ∈ s.p, x.remaining = x.burst ∨
    (x.remaining = 0 ∧ x.arrival ≤ x.start_time ∧
      x.completion_time = x.start_time + x.burst ∧ x.completion_time ≤ s.time)
  count : s.completed = s.p.countP finished
  glen : s.g.length = s.completed
  gev : ∀ e ∈ s.g, ∃ x ∈ s.p, x.remaining = 0 ∧ e = slice_of x
  gchain : List.Pairwise (fun a b : GanttEvent => a.end_ ≤ b.start) s.g
  gend : ∀ e ∈ s.g, e.end_ ≤ s.time
  gnodup : (s.g.map GanttEvent.pid).Nodup

/-- The measure that decreases along the main loop of `sjf_np` / `priority_np`. -/
def np_measure (key : Process → Int) (s : NPState) : Nat :=
  2 * (s.p.length - s.completed) + (if np_select key s.p s.time = none then 1 else 0)

/-- The record a non-preemptive dispatch at `time` writes back for the process `x`. -/
def np_finish (time : Int) (x : Process) : Process :=
  { x with start_time := time, remaining := 0, completion_time := time + x.burst }

/-- The dispatch of `sjf_np` / `priority_np` in state `s`: whenever the selection scan ends
with an index, the process there is ready, its `(key, pid)` is lexicographically least
among the ready processes, and the body runs exactly that process to completion. -/
def SelectsMinimal (key : Process → Int) (s : NPState) : Prop :=
  ∀ idx, np_select key s.p s.time = some idx →
    ∃ x, s.p[idx]? = some x ∧ x.remaining > 0 ∧ x.arrival ≤ s.time ∧
      (∀ y ∈ s.p, y.remaining > 0 → y.arrival ≤ s.time →
        key x < key y ∨ (key x = key y ∧ x.pid ≤ y.pid)) ∧
      np_body key s =
        { p := s.p.set idx (np_finish s.time x)
          time := s.time + x.burst
          completed := s.completed + 1
          g := push_event s.g x.pid s.time (s.time + x.burst) }

/-- The idle branch in state `s`: the body moves the clock to `next_arrival_time` (and does
nothing else) only when no process is ready. -/
def IdleOnlyWhenNoneReady (key : Process → Int) (s : NPState) : Prop :=
  np_body key s = { s with time := next_arrival_time s.p s.time } →
    (∀ y ∈ s.p, ¬ (y.remaining > 0 ∧ y.arrival ≤ s.time))

/-- The ledger of a non-preemptive run: its pids are the pids of the processes, each once;
every slice is `[start_time, completion_time]` of its process, `burst` long; and every
slice ends before any later slice starts. -/
def OneSlicePerProcess (r : RunResult) : Prop :=
  (r.chart.map GanttEvent.pid).Perm (r.procs.map Process.pid) ∧
  (∀ e ∈ r.chart, ∃ x ∈ r.procs, e = slice_of x ∧
    x.completion_time = x.start_time + x.burst) ∧
  List.Pairwise (fun a b : GanttEvent => a.end_ ≤ b.start) r.chart

/-- The indices `j ≥ i` the loop `enqueue_where c` pushes, in the order of the pushes:
the array is scanned upwards from index `i`. -/
def where_idx (c : Process → Bool) : List Process → Nat → List Nat
  | [], _ => []
  | x :: rest, i => if c x then i :: where_idx c rest (i + 1) else where_idx c rest (i + 1)

/-- The buffer is well formed: the storage has `MAXP` cells and `front ≤ back`. -/
def QWF (Q : Queue) : Prop := Q.q.length = MAXP ∧ Q.front ≤ Q.back

/-- The length of one Round-Robin dispatch of `x`: `min(remaining, quantum)`. -/
def rr_run (quantum : Int) (x : Process) : Int :=
  if x.remaining < quantum then x.remaining else quantum

/-- The record of `x` after a Round-Robin dispatch at `time`, before `completion_time` is
written: start recorded on the first dispatch, `remaining` reduced by the run. -/
def rr_ran (quantum time : Int) (x : Process) : Process :=
  let x1 := if x.started = 0 then { x with started := 1, start_time := time } else x
  { x1 with remaining := x1.remaining - rr_run quantum x }

/-- The record of `x` that a Round-Robin dispatch at `time` leaves in the array. -/
def rr_after (quantum time : Int) (x : Process) : Process :=
  if x.remaining - rr_run quantum x = 0 then
    { rr_ran quantum time x with completion_time := time + rr_run quantum x }
  else rr_ran quantum time x

/-- Total duration of the slices of process `pid` in a list of slices. -/
def slice_total (pid : Int) (sl : List GanttEvent) : Int :=
  ((sl.filter fun e => decide (e.pid = pid)).map fun e => e.end_ - e.start).sum

/-- The invariant of the main loop of `rr` on the workload `p0` with the given quantum. -/
structure RRInv (p0 : List Process) (quantum : Int) (s : RRState) : Prop where
  static : s.p.map Process.static = p0.map Process.static
  qwf : QWF s.q
  qnodup : s.q.toList.Nodup
  qready : ∀ i ∈ s.q.toList, ∃ x, s.p[i]? = some x ∧ x.remaining > 0 ∧ x.arrival ≤ s.time
  qall : ∀ i x, s.p[i]? = some x → x.remaining > 0 → x.arrival ≤ s.time → i ∈ s.q.toList
  run : ∀ x ∈ s.p, 0 ≤ x.remaining ∧ x.remaining ≤ x.burst ∧
    (x.remaining < x.burst → x.arrival + (x.burst - x.remaining) ≤ s.time) ∧
    (x.remaining = 0 → x.arrival + x.burst ≤ x.completion_time)
  count : s.completed = s.p.countP finished
  slen : ∀ e ∈ s.slices, 1 ≤ e.end_ - e.start ∧ e.end_ - e.start ≤ quantum
  ssum : ∀ x ∈ s.p, slice_total x.pid s.slices = x.burst - x.remaining

/-- What one dispatch of `rr` does to the state `s`: the front entry `i` of the queue, the
process `x` at that index, leaves the queue as `rest`; the result is `t`. -/
structure DispatchPost (quantum : Int) (s t : RRState) (i : Nat) (rest : List Nat)
    (x : Process) : Prop where
  time : t.time = s.time + rr_run quantum x
  procs : t.p = s.p.set i (rr_after quantum s.time x)
  qwf : QWF t.q
  qnodup : t.q.toList.Nodup
  queue : t.q.toList = rest ++ where_idx (rr_arrived s.time t.time) t.p 0 ++
    (if x.remaining - rr_run quantum x = 0 then [] else [i])
  completed : t.completed = s.completed + (if x.remaining - rr_run quantum x = 0 then 1 else 0)
  slices : t.slices = s.slices ++ [⟨x.pid, s.time, t.time⟩]
  chart : t.g = push_event s.g x.pid s.time t.time

/-- The measure that decreases along the main loop of `rr`. -/
def rr_measure (s : RRState) : Nat :=
  2 * (s.p.map fun x => x.remaining.toNat).sum + (if q_empty s.q = true then 1 else 0)

/-- The state of `rr` after `k` iterations of the loop body. -/
def rr_state (quantum : Int) (p : List Process) (k : Nat) : RRState :=
  (rr_body quantum)^[k] (rr_init p)

/-- The fuel that suffices for `rr` on `p`: twice the total burst, and two. -/
def rr_fuel (p : List Process) : Nat :=
  2 * (p.map fun x => x.burst.toNat).sum + 2

/-- A process ends a run well: completion no earlier than arrival plus burst, turnaround
at least the burst, waiting time not negative. -/
def Met (x : Process) : Prop :=
  x.arrival + x.burst ≤ x.completion_time ∧ x.burst ≤ x.turnaround_time ∧ 0 ≤ x.waiting_time

instance (x : Process) : Decidable (Met x) :=
  inferInstanceAs (Decidable (x.arrival + x.burst ≤ x.completion_time ∧
    x.burst ≤ x.turnaround_time ∧ 0 ≤ x.waiting_time))

/-- The dispatch of `rr` in state `s`: when the queue is not empty, its front entry is an
unfinished process `x`, which runs for `min(remaining, quantum)` time units, between 1
and `quantum`; the clock advances by as much, `remaining` drops by as much, and the slice
handed to `push_event` is `(pid, clock, clock + run)`. -/
def DispatchRuns (quantum : Int) (s : RRState) : Prop :=
  q_empty s.q = false →
    ∃ x x2, s.p[(q_pop s.q).1]? = some x ∧ 0 < x.remaining ∧
      1 ≤ min x.remaining quantum ∧ min x.remaining quantum ≤ quantum ∧
      (rr_body quantum s).time = s.time + min x.remaining quantum ∧
      (rr_body quantum s).p[(q_pop s.q).1]? = some x2 ∧
      x2.remaining = x.remaining - min x.remaining quantum ∧
      (rr_body quantum s).slices =
        s.slices ++ [⟨x.pid, s.time, s.time + min x.remaining quantum⟩] ∧
      (rr_body quantum s).g =
        push_event s.g x.pid s.time (s.time + min x.remaining quantum)

/-- The queue after a dispatch of `rr` in state `s`: the front entry `i` is removed, the
entries behind it stay in order, then come the indices `A` of the unfinished processes
that arrived in `(old clock, new clock]`, in ascending index order, then `i` itself
exactly when it is still unfinished.  When the array is stored in ascending pid order,
`A` is in ascending pid order as well. -/
def DispatchEnqueues (quantum : Int) (s : RRState) : Prop :=
  q_empty s.q = false →
    ∃ i rest x x2 A, s.q.toList = i :: rest ∧ s.p[i]? = some x ∧ 0 < x.remaining ∧
      (rr_body quantum s).p[i]? = some x2 ∧
      (rr_body quantum s).q.toList = rest ++ A ++ (if 0 < x2.remaining then [i] else []) ∧
      A.Pairwise (· < ·) ∧
      (∀ j, j ∈ A ↔ ∃ y, (rr_body quantum s).p[j]? = some y ∧ 0 < y.remaining ∧
        s.time < y.arrival ∧ y.arrival ≤ (rr_body quantum s).time) ∧
      (s.p.Pairwise (fun a b => a.pid < b.pid) →
        (A.map fun j => ((rr_body quantum s).p.getD j default).pid).Pairwise (· < ·))

/-- A workload that is not stored in pid order: pids 2, 9, 3. -/
def unordered_workload : List Process :=
  [mkProcess 2 0 5 1, mkProcess 9 1 1 1, mkProcess 3 1 1 1]

/-- A lone process whose burst and pid are both `INT_MAX`, outside the input range. -/
def sentinel_workload : List Process := [mkProcess INT_MAX 0 INT_MAX 1]

/-! ## Further notions used by the statements -/

/-- A lone unfinished process that arrives at `INT_MAX`. -/
def late_workload : List Process := [mkProcess 1 INT_MAX 1 1]

/-- The ready queue of `rr` in state `s` is sound: its live entries are pairwise distinct
indices of unfinished processes that have arrived; there are at most `n ≤ MAXP` of them,
between `front` and `back`; the entry a dispatch pops is never a finished process (the
guard `p[i].remaining <= 0` is not taken); and the body keeps the entries behind the
front in place, in order, at the front of the new queue. -/
def QueueSound (quantum : Int) (s : RRState) : Prop :=
  s.q.toList.Nodup ∧
  (∀ i ∈ s.q.toList, ∃ x, s.p[i]? = some x ∧ 0 < x.remaining ∧ x.arrival ≤ s.time) ∧
  s.q.q.length = MAXP ∧ s.q.front ≤ s.q.back ∧
  s.q.back - s.q.front ≤ s.p.length ∧ s.p.length ≤ MAXP ∧
  (q_empty s.q = false → ¬ (s.p.getD (q_pop s.q).1 default).remaining ≤ 0) ∧
  (∃ added, (rr_body quantum s).q.toList = s.q.toList.tail ++ added)

/-- The sum of the waiting times of the processes of a table. -/
def total_waiting (l : List Process) : Int := (l.map Process.waiting_time).sum

/-- The total remaining work of a process array. -/
def total_remaining (p : List Process) : Int := (p.map Process.remaining).sum

/-- Every process of the array is done: nothing remains and its completion time is
written, no earlier than arrival plus burst (so it is no longer the initial -1). -/
def AllDone (p : List Process) : Prop :=
  ∀ x ∈ p, x.remaining = 0 ∧ x.arrival + x.burst ≤ x.completion_time ∧
    x.completion_time ≠ -1

/-- Progress of one iteration of `sjf_np` / `priority_np` in state `s`: a dispatch strictly
decreases the total remaining work; and while the loop runs (`completed < n`), the idle
branch moves the clock strictly forward, to the arrival of an unfinished process, so
`next_arrival_time` does not return the unchanged clock there. -/
def NPProgress (key : Process → Int) (s : NPState) : Prop :=
  (∀ idx, np_select key s.p s.time = some idx →
    total_remaining (np_body key s).p < total_remaining s.p) ∧
  (np_cond s = true → np_select key s.p s.time = none →
    (np_body key s).time = next_arrival_time s.p s.time ∧
    s.time < (np_body key s).time ∧
    ∃ x ∈ s.p, 0 < x.remaining ∧ x.arrival = (np_body key s).time)

/-- Progress of one iteration of `rr` in state `s`: with a non-empty queue the body
dispatches and strictly decreases the total remaining work; and while the loop runs, with
an empty queue the body moves the clock strictly forward, to the arrival of an unfinished
process. -/
def RRProgress (quantum : Int) (s : RRState) : Prop :=
  (q_empty s.q = false →
    total_remaining (rr_body quantum s).p < total_remaining s.p) ∧
  (rr_cond s = true → q_empty s.q = true →
    (rr_body quantum s).time = next_arrival_time s.p s.time ∧
    s.time < (rr_body quantum s).time ∧
    ∃ x ∈ s.p, 0 < x.remaining ∧ x.arrival = (rr_body quantum s).time)

/-- The total duration of the slices of a ledger. -/
def chart_total (g : List GanttEvent) : Int := (g.map fun e => e.end_ - e.start).sum

/-- The sum of the bursts of a workload. -/
def total_burst (p : List Process) : Int := (p.map Process.burst).sum

/-- The clock `time` of `fcfs` when its dispatch loop ends. -/
def fcfs_clock (p : List Process) : Int :=
  (fcfs_run (fcfs_sort_outer (reset_stats p).length 0 (reset_stats p)) 0 []).2.1

/-- The slices of a ledger never overlap and lie between 0 and `clock`. -/
def Disjoint_slices (g : List GanttEvent) (clock : Int) : Prop :=
  g.Pairwise (fun a b => a.end_ ≤ b.start) ∧
  ∀ e ∈ g, 0 ≤ e.start ∧ e.start ≤ e.end_ ∧ e.end_ ≤ clock

/-- A ledger accounts for a run that ends at `clock` with `total` units of work: its last
slice ends at `clock`, the durations of its slices add up to `total`, and the slices
never overlap and lie between 0 and `clock` (so the idle time before `clock` is
`clock - total`). -/
def LedgerAccounts (g : List GanttEvent) (clock total : Int) : Prop :=
  g.getLast?.map GanttEvent.end_ = some clock ∧ chart_total g = total ∧
  Disjoint_slices g clock

/-- Bookkeeping of a loop state with ledger `g`, clock `time`, process array `p` and
`completed` finished processes, on a workload of total burst `total`: recorded work and
remaining work add up to `total`, the slices are disjoint and end by `time`, and the last
slice ends at `time` unless the loop is still running. -/
def Accounted (total : Int) (g : List GanttEvent) (time : Int) (p : List Process)
    (completed : Nat) : Prop :=
  chart_total g + total_remaining p = total ∧ Disjoint_slices g time ∧ 0 ≤ time ∧
  (g.getLast?.map GanttEvent.end_ = some time ∨ completed < p.length)

/-- Bookkeeping of a loop state of `rr`: the slices as dispatched are accounted; the ledger
is what `push_event` makes of them; and when the total burst is at most `MAXG`, the
ledger has at most as many entries as units of work done and is accounted too. -/
def RRAccounted (total : Int) (s : RRState) : Prop :=
  Accounted total s.slices s.time s.p s.completed ∧
  s.g = push_all [] s.slices ∧
  (total ≤ MAXG → (s.g.length : Int) + total_remaining s.p ≤ total ∧
    Accounted total s.g s.time s.p s.completed)

/-- A valid workload whose Round-Robin run with quantum 1 dispatches 10002 slices of
length 1, alternating between the two processes: more than `MAXG` ledger entries. -/
def capped_workload : List Process := [mkProcess 1 0 5001 1, mkProcess 2 0 5001 1]

/-- The states of `rr` on `capped_workload` with quantum 1: the two processes alternate
(the queue is `[0, 1]` at even clock values and `[1, 0]` at odd ones) until both have one
unit left at time 10000; the ledger holds one entry per time unit up to `MAXG` entries. -/
def CappedInv (s : RRState) : Prop :=
  ∃ x0 x1, s.p = [x0, x1] ∧ (x0.pid = 1 ∧ x0.arrival = 0) ∧ (x1.pid = 2 ∧ x1.arrival = 0) ∧
    0 ≤ s.time ∧ s.time + x0.remaining + x1.remaining = 10002 ∧
    ((s.q.toList = [0, 1] ∧ x0.remaining = x1.remaining ∧ 1 ≤ x0.remaining ∧
        ∀ l ∈ s.g.getLast?, l.pid = 2) ∨
     (s.q.toList = [1, 0] ∧ x1.remaining = x0.remaining + 1 ∧ 1 ≤ x0.remaining ∧
        ∀ l ∈ s.g.getLast?, l.pid = 1) ∨
     (s.q.toList = [1] ∧ x0.remaining = 0 ∧ x1.remaining = 1) ∨
     (s.q.toList = [] ∧ x0.remaining = 0 ∧ x1.remaining = 0)) ∧
    (s.g.length : Int) = min s.time 10000 ∧
    ∀ e ∈ s.g, e.end_ - e.start = 1 ∧ e.end_ ≤ min s.time 10000

/-- The order of the pids agrees with the order of the arrivals: of two processes, the one
with the smaller pid arrives no later. -/
def PidOrderIsArrivalOrder (p : List Process) : Prop :=
  ∀ x ∈ p, ∀ y ∈ p, x.pid < y.pid → x.arrival ≤ y.arrival

instance (p : List Process) : Decidable (PidOrderIsArrivalOrder p) :=
  inferInstanceAs (Decidable (∀ x ∈ p, ∀ y ∈ p, x.pid < y.pid → x.arrival ≤ y.arrival))

/-- The array `fcfs` dispatches from: the reset workload after the sort. -/
def fcfs_order (p : List Process) : List Process :=
  fcfs_sort_outer (reset_stats p).length 0 (reset_stats p)

/-- What relates the sorted array `L` of `fcfs` to the workload `p0`. -/
structure SimCtx (p0 L : List Process) : Prop where
  perm : (L.map Process.static).Perm (p0.map Process.static)
  sorted : L.Pairwise (fun a b => a.arrival ≤ b.arrival ∧ a.pid < b.pid)
  nodup : (p0.map Process.pid).Nodup
  range : ∀ x ∈ p0, InputRange x

/-- A loop state with process array `p`, clock `time` and ledger `g` simulates `fcfs` on the
sorted array `L`: the finished processes are those of a prefix `pre` of `L`, and the
dispatch loop of `fcfs`, continued on the rest of `L` from `time` and `g`, ends with the
ledger `target`. -/
def SimFcfs (L : List Process) (target : GanttChart) (p : List Process) (time : Int)
    (g : GanttChart) : Prop :=
  ∃ pre suf, L = pre ++ suf ∧ (∀ x ∈ p, x.remaining = 0 ↔ x.pid ∈ pre.map Process.pid) ∧
    (fcfs_run suf time g).2.2 = target

/-- The dispatch of `priority_np` in state `s`: whenever the selection scan ends with an
index, the process there is ready, its pid is the least among the ready processes, and
the body runs exactly that process to completion. -/
def PicksSmallestPid (s : NPState) : Prop :=
  ∀ idx, np_select Process.priority s.p s.time = some idx →
    ∃ x, s.p[idx]? = some x ∧ x.remaining > 0 ∧ x.arrival ≤ s.time ∧
      (∀ y ∈ s.p, y.remaining > 0 → y.arrival ≤ s.time → x.pid ≤ y.pid) ∧
      np_body Process.priority s =
        { p := s.p.set idx (np_finish s.time x)
          time := s.time + x.burst
          completed := s.completed + 1
          g := push_event s.g x.pid s.time (s.time + x.burst) }

/-- Three processes of equal priority where the larger pid arrives earlier. -/
def crossed_workload : List Process :=
  [mkProcess 1 0 5 1, mkProcess 2 2 1 1, mkProcess 3 1 1 1]

/-- The array is stored in ascending pid order and the arrivals do not decrease along it. -/
def StoredInOrder (p : List Process) : Prop :=
  p.Pairwise (fun a b => a.pid < b.pid ∧ a.arrival ≤ b.arrival)

/-- The schedule of one process: its pid, its start time and its completion time. -/
def Process.times (x : Process) : Int × Int × Int := (x.pid, x.start_time, x.completion_time)

/-- A loop state of `rr` in a run without preemption simulates `fcfs` on the sorted array
`L`, whose dispatch loop returns the records `recs` and the ledger `target`: the queue is
in ascending index order, an unfinished process has not started, the finished processes
are those of a prefix `pre` of `L`, the loop of `fcfs` continued on the rest of `L` from
the clock and the ledger of the state ends with `target` and with the records that
`recs` has after `done`, and each finished process has the times of its record in
`done`. -/
def RRSim (L recs : List Process) (target : GanttChart) (s : RRState) : Prop :=
  s.q.toList.Pairwise (fun a b => a < b) ∧
  (∀ x ∈ s.p, (x.remaining = x.burst ∧ x.started = 0) ∨ x.remaining = 0) ∧
  ∃ pre suf done, L = pre ++ suf ∧
    (∀ x ∈ s.p, x.remaining = 0 ↔ x.pid ∈ pre.map Process.pid) ∧
    (fcfs_run suf s.time s.g).2.2 = target ∧
    recs = done ++ (fcfs_run suf s.time s.g).1 ∧
    (∀ x ∈ s.p, x.remaining = 0 → ∃ d ∈ done, d.times = x.times)

/-- The sum, over the pairs of entries of a list of bursts, of the smaller burst of the pair:
the least total waiting time of processes that are all ready from the start. -/
def pairmin : List Int → Int
  | [] => 0
  | x :: rest => (rest.map (min x)).sum + pairmin rest

/-- The total waiting time of processes run back to back in list order, the first one after
a wait of `c`: each waits for `c` and the bursts before it. -/
def wait_from (c : Int) : List Int → Int
  | [] => 0
  | b :: rest => c + wait_from (c + b) rest

/-- The bursts of the finished processes of an array. -/
def done_bursts (p : List Process) : List Int := (p.filter finished).map Process.burst

/-- The times the finished processes of an array waited before they started, when all arrive
at `a`. -/
def done_waits (a : Int) (p : List Process) : List Int :=
  (p.filter finished).map fun x => x.start_time - a

/-- A loop state of `sjf_np` / `priority_np` on a workload whose processes all arrive at `a`:
the clock is `a` plus the work done, and the finished processes have waited at least
`pairmin` of their bursts in total. -/
def NPWait (a : Int) (s : NPState) : Prop :=
  s.time = a + (done_bursts s.p).sum ∧ pairmin (done_bursts s.p) ≤ (done_waits a s.p).sum

/-- A loop state of `sjf_np` on a workload whose processes all arrive at `a`: the clock is
`a` plus the work done, the finished processes have waited exactly `pairmin` of their
bursts in total, and no finished process has a longer burst than an unfinished one. -/
def SJFWait (a : Int) (s : NPState) : Prop :=
  s.time = a + (done_bursts s.p).sum ∧ pairmin (done_bursts s.p) = (done_waits a s.p).sum ∧
  ∀ y ∈ s.p, ∀ x ∈ s.p, y.remaining = 0 → 0 < x.remaining → y.burst ≤ x.burst

/-! ## Input (`read_int_safe`, `take_input`) -/

/-- The function `read_int_safe` on the lines that are left on standard input.  A line is
`none` when `fgets` fails or `strtol` does not accept it as an integer, and `some val`
when `strtol` returns `val`; a line is passed over when it is `none` or when `val` lies
outside `[min_allowed, max_allowed]`.  The result is the accepted value with the lines
left after it, and `none` when the input ends before a value is accepted (the source
then asks again for ever). -/
def read_int_safe (min_allowed max_allowed : Int) :
    List (Option Int) → Option (Int × List (Option Int))
  | [] => none
  | none :: rest => read_int_safe min_allowed max_allowed rest
  | some val :: rest =>
    if val < min_allowed ∨ val > max_allowed then read_int_safe min_allowed max_allowed rest
    else some (val, rest)

/-- The loop `for (i = ..; i < n; i++)` of `take_input` from index `i` on, with `m = n - i`
processes left to read: `pid = i + 1`, then arrival, burst and priority are read. -/
def take_processes : Nat → Nat → List (Option Int) → Option (List Process × List (Option Int))
  | 0, _, lines => some ([], lines)
  | m + 1, i, lines =>
    match read_int_safe 0 (INT_MAX / 2) lines with
    | none => none
    | some (arrival, l1) =>
      match read_int_safe 1 (INT_MAX / 2) l1 with
      | none => none
      | some (burst, l2) =>
        match read_int_safe (INT_MIN / 2) (INT_MAX / 2) l2 with
        | none => none
        | some (priority, l3) =>
          match take_processes m (i + 1) l3 with
          | none => none
          | some (rest, l4) =>
            some (mkProcess ((i : Int) + 1) arrival burst priority :: rest, l4)

/-- The function `take_input`: the number of processes, the processes, the quantum. -/
def take_input (lines : List (Option Int)) : Option (List Process × Int) :=
  match read_int_safe 1 (MAXP : Int) lines with
  | none => none
  | some (n, l1) =>
    match take_processes n.toNat 0 l1 with
    | none => none
    | some (p, l2) =>
      match read_int_safe 1 (INT_MAX / 2) l2 with
      | none => none
      | some (quantum, _) => some (p, quantum)

/-- The array is stored in ascending pid order, as `take_input` stores it (`pid = i + 1`). -/
def AscendingPids (p : List Process) : Prop := p.Pairwise (fun a b => a.pid < b.pid)

/-- The queue after a dispatch of `rr` in state `s`: the front entry `i` is removed, the
entries behind it stay in order, then come the indices `A` of exactly the unfinished
processes that arrived in `(old clock, new clock]`, in ascending pid order, then `i`
itself exactly when it is still unfinished. -/
def EnqueuesInIdOrder (quantum : Int) (s : RRState) : Prop :=
  q_empty s.q = false →
    ∃ i rest x x2 A, s.q.toList = i :: rest ∧ s.p[i]? = some x ∧ 0 < x.remaining ∧
      (rr_body quantum s).p[i]? = some x2 ∧
      (rr_body quantum s).q.toList = rest ++ A ++ (if 0 < x2.remaining then [i] else []) ∧
      (∀ j, j ∈ A ↔ ∃ y, (rr_body quantum s).p[j]? = some y ∧ 0 < y.remaining ∧
        s.time < y.arrival ∧ y.arrival ≤ (rr_body quantum s).time) ∧
      (A.map fun j => ((rr_body quantum s).p.getD j default).pid).Pairwise (· < ·)

/-- What `next_arrival_time` returns at `current_time` on the array `p`: the least arrival
among the unfinished processes that arrive later when there is one, which is then the
arrival of such a process, and `current_time` when there is none. -/
def NextArrivalSpec (p : List Process) (current_time : Int) : Prop :=
  ((∃ x ∈ p, 0 < x.remaining ∧ current_time < x.arrival) →
    (∃ x ∈ p, 0 < x.remaining ∧ current_time < x.arrival ∧
      next_arrival_time p current_time = x.arrival) ∧
    ∀ y ∈ p, 0 < y.remaining → current_time < y.arrival →
      next_arrival_time p current_time ≤ y.arrival) ∧
  ((¬ ∃ x ∈ p, 0 < x.remaining ∧ current_time < x.arrival) →
    next_arrival_time p current_time = current_time)

/-- The call `push_event(g, c.pid, c.start, c.end_)` keeps the slice `c`: it is merged into
the last entry or there is room to append it (it is not dropped for `count >= MAXG`). -/
def Kept (g : GanttChart) (c : GanttEvent) : Prop :=
  g.length < MAXG ∨ ∃ l ∈ g.getLast?, l.pid = c.pid ∧ l.end_ = c.start

/-- No call of `push_event` in the sequence `calls`, made one after the other from the
ledger `g` on, drops its slice. -/
def NoSliceDropped : GanttChart → List GanttEvent → Prop
  | _, [] => True
  | g, c :: rest => Kept g c ∧ NoSliceDropped (push_event g c.pid c.start c.end_) rest

/-- Bookkeeping of a loop state of `rr`, for a run in which no slice is dropped: the state is
accounted as in `RRAccounted`, and when no call of `push_event` so far has dropped its
slice, the ledger itself is accounted. -/
def RRKept (total : Int) (s : RRState) : Prop :=
  RRAccounted total s ∧
  (NoSliceDropped [] s.slices → Accounted total s.g s.time s.p s.completed)

/-- Two processes that arrive at 0 with a burst of 6000 each: a total burst above `MAXG`
that `rr` with quantum 3000 runs in four slices. -/
def long_workload : List Process := [mkProcess 1 0 6000 1, mkProcess 2 0 6000 1]

theorem push_event_nil (pid s e : Int) : push_event [] pid s e = [⟨pid, s, e⟩] := by
  simp [push_event]

theorem push_event_concat (g : GanttChart) (l : GanttEvent) (pid s e : Int) :
    push_event (g ++ [l]) pid s e =
      if l.pid = pid ∧ l.end_ = s then g ++ [{ l with end_ := e }]
      else if g.length + 1 < MAXG then g ++ [l, ⟨pid, s, e⟩]
      else g ++ [l] := by
  simp [push_event, List.getD_eq_getElem?_getD]

theorem full_chart_eq : full_chart = List.replicate 9999 ⟨1, 0, 1⟩ ++ [⟨1, 0, 1⟩] := by
  have h : MAXG = 9999 + 1 := rfl
  rw [full_chart, h, List.replicate_succ']

theorem push_event_replicate (k : Nat) (hk : k < MAXG) :
    push_event (List.replicate k ⟨1, 0, 1⟩) 1 0 1 = List.replicate (k + 1) ⟨1, 0, 1⟩ := by
  cases k with
  | zero => rfl
  | succ k =>
    rw [List.replicate_succ', push_event_concat, if_neg (by decide), List.length_replicate,
      if_pos hk, List.replicate_succ' (k + 1), List.replicate_succ']
    simp

theorem push_all_replicate (m : Nat) :
    ∀ k, k + m ≤ MAXG →
      push_all (List.replicate k ⟨1, 0, 1⟩) (List.replicate m ⟨1, 0, 1⟩) =
        List.replicate (k + m) ⟨1, 0, 1⟩ := by
  induction m with
  | zero => intro k _; rfl
  | succ m ih =>
    intro k hk
    have h1 : k < MAXG := by omega
    rw [List.replicate_succ]
    show push_all (push_event (List.replicate k ⟨1, 0, 1⟩) 1 0 1) _ = _
    rw [push_event_replicate k h1, ih (k + 1) (by omega)]
    congr 1
    omega

/-- C9, as stated, fails on a full chart: the chart (built from the empty chart by `MAXG`
calls of `push_event`) is non-empty, its last event has pid 1 and not pid 2, and
`push_event` with pid 2 leaves the chart as it is instead of appending. -/
theorem push_event_full_chart_unchanged :
    push_all [] (List.replicate MAXG ⟨1, 0, 1⟩) = full_chart ∧
      full_chart ≠ [] ∧ full_chart.getLast? = some ⟨1, 0, 1⟩ ∧
      push_event full_chart 2 5 6 = full_chart ∧
      push_event full_chart 2 5 6 ≠ full_chart ++ [⟨2, 5, 6⟩] ∧
      (push_event full_chart 2 5 6).length ≠ full_chart.length + 1 := by
  have h : push_event full_chart 2 5 6 = full_chart := by
    rw [full_chart_eq, push_event_concat, if_neg (by decide), List.length_replicate,
      if_neg (by decide)]
  have hlen : full_chart.length = MAXG := List.length_replicate _ _
  have hbuilt : push_all [] (List.replicate MAXG ⟨1, 0, 1⟩) = full_chart := by
    have := push_all_replicate MAXG 0 (by omega)
    rw [Nat.zero_add] at this
    exact this
  refine ⟨hbuilt, ?_, ?_, h, ?_, ?_⟩
  · intro h0
    rw [h0] at hlen
    exact absurd hlen (by decide)
  · rw [full_chart_eq, List.getLast?_append]
    rfl
  · rw [h]
    intro h0
    have := congrArg List.length h0
    rw [List.length_append] at this
    simp only [List.length_singleton] at this
    omega
  · rw [h]
    omega

/-- C9 (amended): on the empty chart `push_event` stores the one event; on a chart ending
in `l`, it only replaces the end of `l` when `l` has the same pid and ends at `start`;
otherwise it appends the event when `count < MAXG` and leaves the chart unchanged when
`count ≥ MAXG`. -/
theorem push_event_cases (g : GanttChart) (pid start end_ : Int) :
    (g = [] → push_event g pid start end_ = [⟨pid, start, end_⟩]) ∧
    (∀ g1 l, g = g1 ++ [l] →
      ((l.pid = pid ∧ l.end_ = start) →
        push_event g pid start end_ = g1 ++ [{ l with end_ := end_ }] ∧
        (push_event g pid start end_).length = g.length) ∧
      (¬ (l.pid = pid ∧ l.end_ = start) → g.length < MAXG →
        push_event g pid start end_ = g ++ [⟨pid, start, end_⟩] ∧
        (push_event g pid start end_).length = g.length + 1) ∧
      (¬ (l.pid = pid ∧ l.end_ = start) → MAXG ≤ g.length →
        push_event g pid start end_ = g)) := by
  refine ⟨fun h => by rw [h, push_event_nil], ?_⟩
  intro g1 l hg
  subst hg
  rw [push_event_concat]
  refine ⟨fun h => ?_, fun h hl => ?_, fun h hl => ?_⟩
  · rw [if_pos h]; simp
  · have hl1 : g1.length + 1 < MAXG := by simpa using hl
    rw [if_neg h, if_pos hl1]; simp
  · have hl1 : ¬ g1.length + 1 < MAXG := by
      have : MAXG ≤ g1.length + 1 := by simpa using hl
      omega
    rw [if_neg h, if_neg hl1]

theorem merged_push_event (g : GanttChart) (pid s e : Int) (h : Merged g) :
    Merged (push_event g pid s e) := by
  rcases List.eq_nil_or_concat g with rfl | ⟨g1, l, rfl⟩
  · rw [push_event_nil]; exact List.chain'_singleton _
  · rw [List.concat_eq_append] at h ⊢
    rw [push_event_concat]
    unfold Merged at h ⊢
    rw [List.chain'_append] at h
    obtain ⟨h1, -, h3⟩ := h
    split_ifs with hm hl
    · rw [List.chain'_append]
      refine ⟨h1, List.chain'_singleton _, ?_⟩
      intro x hx y hy
      have := h3 x hx l (by simp)
      simp only [List.head?_cons, Option.mem_def, Option.some.injEq] at hy
      subst hy
      exact this
    · rw [List.chain'_append]
      refine ⟨h1, ?_, ?_⟩
      · rw [List.chain'_cons]
        exact ⟨hm, List.chain'_singleton _⟩
      · intro x hx y hy
        have := h3 x hx l (by simp)
        simp only [List.head?_cons, Option.mem_def, Option.some.injEq] at hy
        subst hy
        exact this
    · rw [List.chain'_append]
      exact ⟨h1, List.chain'_singleton _, h3⟩

theorem merged_push_all (calls : List GanttEvent) :
    ∀ g : GanttChart, Merged g → Merged (push_all g calls) := by
  induction calls with
  | nil => intro g h; exact h
  | cons c rest ih =>
    intro g h
    exact ih _ (merged_push_event g c.pid c.start c.end_ h)

/-- C10: `push_event` preserves the ledger invariant `Merged` (no two adjacent events of
one pid with touching boundaries); so does any sequence of calls, and every ledger built
from the empty ledger by `push_event` alone has it. -/
theorem push_event_preserves_merged (g : GanttChart) (pid start end_ : Int)
    (calls : List GanttEvent) (h : Merged g) :
    Merged (push_event g pid start end_) ∧ Merged (push_all g calls) ∧
      Merged (push_all [] calls) :=
  ⟨merged_push_event g pid start end_ h, merged_push_all calls g h,
    merged_push_all calls [] List.chain'_nil⟩

/-- C10 at a concrete ledger: the slice (1, 4, 6) is merged into the last event. -/
theorem push_event_preserves_merged_witness :
    Merged [⟨2, 0, 3⟩, ⟨1, 3, 4⟩] ∧
      Merged (push_event [⟨2, 0, 3⟩, ⟨1, 3, 4⟩] 1 4 6) ∧
      Merged (push_all [⟨2, 0, 3⟩, ⟨1, 3, 4⟩] [⟨1, 4, 6⟩, ⟨2, 6, 7⟩]) ∧
      Merged (push_all [] [⟨1, 4, 6⟩, ⟨2, 6, 7⟩]) :=
  ⟨by simp [Merged],
    push_event_preserves_merged [⟨2, 0, 3⟩, ⟨1, 3, 4⟩] 1 4 6 [⟨1, 4, 6⟩, ⟨2, 6, 7⟩]
      (by simp [Merged])⟩

/-! ## The comparison -/

/-- C8: `best_id` is one of 1..4, its average waiting time is at most each of the four,
and every policy earlier in the order FCFS, SJF-NP, Priority-NP, RR has a strictly
larger one: it is the smallest index attaining the minimum. -/
theorem best_id_least_argmin (a1 a2 a3 a4 : ℚ) :
    best_id a1 a2 a3 a4 ∈ [1, 2, 3, 4] ∧
    (∀ j ∈ [1, 2, 3, 4],
      avg_of a1 a2 a3 a4 (best_id a1 a2 a3 a4) ≤ avg_of a1 a2 a3 a4 j) ∧
    (∀ j ∈ [1, 2, 3, 4], j < best_id a1 a2 a3 a4 →
      avg_of a1 a2 a3 a4 (best_id a1 a2 a3 a4) < avg_of a1 a2 a3 a4 j) := by
  unfold best_id
  simp only [List.mem_cons, List.mem_singleton, List.not_mem_nil, or_false, forall_eq_or_imp,
    forall_eq]
  split_ifs <;> simp [avg_of] <;> (try constructor) <;> (try constructor) <;>
    (try constructor) <;> linarith

/-! ## FCFS -/

theorem static_reset_stats (p : List Process) :
    (reset_stats p).map Process.static = p.map Process.static := by
  simp [reset_stats, Process.static, Function.comp_def]

theorem length_reset_stats (p : List Process) : (reset_stats p).length = p.length := by
  simp [reset_stats]

theorem static_table_row (x : Process) : (table_row x).static = x.static := rfl

theorem static_map_table_row (p : List Process) :
    (p.map table_row).map Process.static = p.map Process.static := by
  simp [Function.comp_def, static_table_row]

theorem fcfs_inner_perm (xs : List Process) :
    ∀ pi : Process, ((fcfs_inner pi xs).1 :: (fcfs_inner pi xs).2).Perm (pi :: xs) := by
  induction xs with
  | nil => intro pi; simp [fcfs_inner]
  | cons pj rest ih =>
    intro pi
    unfold fcfs_inner
    split_ifs with h
    · exact (List.Perm.swap _ _ _).trans (List.Perm.cons pi (ih pj))
    · exact (List.Perm.swap _ _ _).trans (List.Perm.cons pj (ih pi)) |>.trans
        (List.Perm.swap _ _ _)

theorem fcfs_inner_least (xs : List Process) :
    ∀ pi : Process, ¬ fcfs_before pi (fcfs_inner pi xs).1 ∧
      ∀ y ∈ (fcfs_inner pi xs).2, ¬ fcfs_before y (fcfs_inner pi xs).1 := by
  induction xs with
  | nil =>
    intro pi
    simp only [fcfs_inner, List.not_mem_nil, false_implies, implies_true, and_true]
    unfold fcfs_before; omega
  | cons pj rest ih =>
    intro pi
    unfold fcfs_inner
    split_ifs with h
    all_goals dsimp only
    · obtain ⟨h1, h2⟩ := ih pj
      refine ⟨?_, ?_⟩
      · unfold fcfs_before at h h1 ⊢; omega
      · intro y hy
        rcases List.mem_cons.mp hy with rfl | hy
        · unfold fcfs_before at h h1 ⊢; omega
        · exact h2 y hy
    · obtain ⟨h1, h2⟩ := ih pi
      refine ⟨h1, ?_⟩
      intro y hy
      rcases List.mem_cons.mp hy with rfl | hy
      · unfold fcfs_before at h h1 ⊢; omega
      · exact h2 y hy

theorem fcfs_sort_perm (k : Nat) : ∀ p : List Process, (fcfs_sort k p).Perm p := by
  induction k with
  | zero => intro p; simp [fcfs_sort]
  | succ k ih =>
    intro p
    cases p with
    | nil => simp [fcfs_sort]
    | cons pi rest =>
      simp only [fcfs_sort]
      exact (List.Perm.cons _ (ih _)).trans (fcfs_inner_perm rest pi)

theorem fcfs_sort_sorted (k : Nat) :
    ∀ p : List Process, p.length ≤ k →
      (fcfs_sort k p).Pairwise (fun a b => ¬ fcfs_before b a) := by
  induction k with
  | zero =>
    intro p hp
    have : p = [] := List.length_eq_zero.mp (by omega)
    subst this
    simp [fcfs_sort]
  | succ k ih =>
    intro p hp
    cases p with
    | nil => simp [fcfs_sort]
    | cons pi rest =>
      simp only [fcfs_sort]
      have hlen : (fcfs_inner pi rest).2.length = rest.length := by
        have := (fcfs_inner_perm rest pi).length_eq
        simpa using this
      refine List.Pairwise.cons ?_ (ih _ (by simp at hp; omega))
      intro y hy
      exact (fcfs_inner_least rest pi).2 y ((fcfs_sort_perm k _).mem_iff.mp hy)

theorem fcfs_run_static (l : List Process) :
    ∀ (t : Int) (g : GanttChart), (fcfs_run l t g).1.map Process.static = l.map Process.static := by
  induction l with
  | nil => intro t g; rfl
  | cons x rest ih =>
    intro t g
    simp only [fcfs_run, List.map_cons, ih]
    rfl

theorem fcfs_run_completion (l : List Process) (hb : ∀ x ∈ l, 1 ≤ x.burst) :
    ∀ (t : Int) (g : GanttChart),
      (∀ y ∈ (fcfs_run l t g).1, t < y.completion_time ∧
        y.arrival + y.burst ≤ y.completion_time) ∧
      (fcfs_run l t g).1.Pairwise (fun a b => a.completion_time < b.completion_time) := by
  induction l with
  | nil => intro t g; simp [fcfs_run]
  | cons x rest ih =>
    intro t g
    have hx : 1 ≤ x.burst := hb x (by simp)
    have ih1 := ih (fun y hy => hb y (List.mem_cons_of_mem _ hy))
    simp only [fcfs_run]
    split_ifs with ht
    · obtain ⟨h1, h2⟩ := ih1 (x.arrival + x.burst)
        (push_event g x.pid x.arrival (x.arrival + x.burst))
      refine ⟨?_, List.Pairwise.cons ?_ h2⟩
      · intro y hy
        rcases List.mem_cons.mp hy with rfl | hy
        · simp only; omega
        · have := h1 y hy; omega
      · intro y hy
        have := h1 y hy
        simp only; omega
    · obtain ⟨h1, h2⟩ := ih1 (t + x.burst) (push_event g x.pid t (t + x.burst))
      refine ⟨?_, List.Pairwise.cons ?_ h2⟩
      · intro y hy
        rcases List.mem_cons.mp hy with rfl | hy
        · simp only; omega
        · have := h1 y hy; omega
      · intro y hy
        have := h1 y hy
        simp only; omega

/-- A property of the input fields that holds for every process of `p` holds for every
process of a list with the same input fields up to order. -/
theorem forall_of_static_perm {l p : List Process} (P : Int × Int × Int × Int → Prop)
    (h : (l.map Process.static).Perm (p.map Process.static))
    (hp : ∀ x ∈ p, P x.static) : ∀ x ∈ l, P x.static := by
  intro x hx
  have : x.static ∈ p.map Process.static :=
    h.mem_iff.mp (List.mem_map_of_mem _ hx)
  obtain ⟨y, hy, hxy⟩ := List.mem_map.mp this
  rw [← hxy]
  exact hp y hy

theorem fcfs_sorted_static (p : List Process) :
    ((fcfs_sort (reset_stats p).length (reset_stats p)).map Process.static).Perm
      (p.map Process.static) := by
  rw [← static_reset_stats p]
  exact (fcfs_sort_perm _ _).map _

theorem getD_append_mid {α : Type} (pre post : List α) (a d : α) :
    (pre ++ a :: post).getD pre.length d = a := by
  have h : (pre ++ a :: post)[pre.length]? = some a := by
    rw [List.getElem?_append_right (le_refl _)]
    simp
  simp [List.getD_eq_getElem?_getD, h]

theorem set_append_mid {α : Type} (pre post : List α) (a b : α) :
    (pre ++ a :: post).set pre.length b = pre ++ b :: post := by
  simp

/-- The inner loop on the array is the inner loop read off the list: with `p[0..i-1] = pre`,
`p[i] = pi`, the cells `done` already passed and the cells `todo` from `j` on. -/
theorem fcfs_sort_inner_eq (todo : List Process) :
    ∀ (pre : List Process) (pi : Process) (done : List Process),
      fcfs_sort_inner pre.length todo.length (pre.length + 1 + done.length)
          (pre ++ pi :: (done ++ todo)) =
        pre ++ (fcfs_inner pi todo).1 :: (done ++ (fcfs_inner pi todo).2) := by
  induction todo with
  | nil => intro pre pi done; simp [fcfs_sort_inner, fcfs_inner]
  | cons pj rest ih =>
    intro pre pi done
    have hj : pre.length + 1 + done.length = (pre ++ pi :: done).length := by
      simp only [List.length_append, List.length_cons]; omega
    have hsplit : pre ++ pi :: (done ++ pj :: rest) = (pre ++ pi :: done) ++ pj :: rest := by
      simp
    have hgj : (pre ++ pi :: (done ++ pj :: rest)).getD (pre.length + 1 + done.length) default
        = pj := by
      rw [hsplit, hj, getD_append_mid]
    have hgi : (pre ++ pi :: (done ++ pj :: rest)).getD pre.length default = pi :=
      getD_append_mid pre _ pi default
    simp only [List.length_cons, fcfs_sort_inner, hgj, hgi]
    have hnext : pre.length + 1 + done.length + 1 = pre.length + 1 + (done ++ [pi]).length := by
      simp only [List.length_append, List.length_singleton]; omega
    have hnext2 : pre.length + 1 + done.length + 1 = pre.length + 1 + (done ++ [pj]).length := by
      simp only [List.length_append, List.length_singleton]; omega
    by_cases hb : fcfs_before pj pi
    · rw [if_pos hb]
      have hswap : swap_cells (pre ++ pi :: (done ++ pj :: rest)) pre.length
          (pre.length + 1 + done.length) = pre ++ pj :: ((done ++ [pi]) ++ rest) := by
        unfold swap_cells
        simp only [hgj, hgi]
        rw [set_append_mid]
        have h2 : pre ++ pj :: (done ++ pj :: rest) = (pre ++ pj :: done) ++ pj :: rest := by
          simp
        have hj2 : pre.length + 1 + done.length = (pre ++ pj :: done).length := by
          simp only [List.length_append, List.length_cons]; omega
        rw [h2, hj2, set_append_mid]
        simp
      rw [hswap, hnext, ih pre pj (done ++ [pi])]
      simp [fcfs_inner, hb]
    · rw [if_neg hb]
      have hsame : pre ++ pi :: (done ++ pj :: rest) = pre ++ pi :: ((done ++ [pj]) ++ rest) := by
        simp
      rw [hsame, hnext2, ih pre pi (done ++ [pj])]
      simp [fcfs_inner, hb]

theorem fcfs_inner_length (xs : List Process) (pi : Process) :
    (fcfs_inner pi xs).2.length = xs.length := by
  have := (fcfs_inner_perm xs pi).length_eq
  simpa using this

/-- The two loops on the array are the two loops read off the list. -/
theorem fcfs_sort_outer_eq (n : Nat) :
    ∀ (rest pre : List Process), rest.length = n →
      fcfs_sort_outer n pre.length (pre ++ rest) = pre ++ fcfs_sort n rest := by
  induction n with
  | zero =>
    intro rest pre h
    simp [fcfs_sort_outer, fcfs_sort]
  | succ n ih =>
    intro rest pre h
    cases rest with
    | nil => simp at h
    | cons pi tl =>
      simp only [List.length_cons, Nat.add_right_cancel_iff] at h
      have hlen : (pre ++ pi :: tl).length - (pre.length + 1) = tl.length := by
        simp only [List.length_append, List.length_cons]; omega
      have hinner := fcfs_sort_inner_eq tl pre pi []
      simp only [List.length_nil, Nat.add_zero, List.nil_append] at hinner
      simp only [fcfs_sort_outer, fcfs_sort, hlen, hinner]
      have h1 : pre ++ (fcfs_inner pi tl).1 :: (fcfs_inner pi tl).2 =
          (pre ++ [(fcfs_inner pi tl).1]) ++ (fcfs_inner pi tl).2 := by simp
      have h2 : pre.length + 1 = (pre ++ [(fcfs_inner pi tl).1]).length := by simp
      rw [h1, h2, ih _ _ (by rw [fcfs_inner_length]; exact h)]
      simp

theorem fcfs_sort_loops_eq (p : List Process) :
    fcfs_sort_outer p.length 0 p = fcfs_sort p.length p := by
  have := fcfs_sort_outer_eq p.length p [] rfl
  simpa using this

theorem fcfs_procs_eq (p : List Process) :
    (fcfs p).procs =
      (fcfs_run (fcfs_sort (reset_stats p).length (reset_stats p)) 0 []).1.map table_row := by
  rw [← fcfs_sort_loops_eq]
  rfl

theorem fcfs_procs_static (p : List Process) :
    (fcfs p).procs.map Process.static =
      (fcfs_sort (reset_stats p).length (reset_stats p)).map Process.static := by
  rw [fcfs_procs_eq, static_map_table_row, fcfs_run_static]

/-- C7: with distinct pids and bursts of at least 1, `fcfs` leaves the process array as a
permutation of the input (in its input fields) that is sorted by (arrival, pid), strictly,
and the completion times increase strictly along the array. -/
theorem fcfs_sorted_completion_order (p : List Process)
    (hpid : (p.map Process.pid).Nodup) (hb : ∀ x ∈ p, 1 ≤ x.burst) :
    (fcfs p).procs.length = p.length ∧
    ((fcfs p).procs.map Process.static).Perm (p.map Process.static) ∧
    (fcfs p).procs.Pairwise
      (fun a b => a.arrival < b.arrival ∨ (a.arrival = b.arrival ∧ a.pid < b.pid)) ∧
    (fcfs p).procs.Pairwise (fun a b => a.completion_time < b.completion_time) := by
  have hperm : ((fcfs p).procs.map Process.static).Perm (p.map Process.static) := by
    rw [fcfs_procs_static]; exact fcfs_sorted_static p
  have hlen : (fcfs p).procs.length = p.length := by
    have := hperm.length_eq
    simpa using this
  refine ⟨hlen, hperm, ?_, ?_⟩
  · -- sortedness is a property of the input fields
    have hs := fcfs_sort_sorted (reset_stats p).length (reset_stats p) le_rfl
    have hnd : ((fcfs_sort (reset_stats p).length (reset_stats p)).map Process.pid).Nodup := by
      have h1 : ((fcfs_sort (reset_stats p).length (reset_stats p)).map Process.static).map
          (fun s => s.1) = (fcfs_sort (reset_stats p).length (reset_stats p)).map Process.pid := by
        simp [Function.comp_def, Process.static]
      have h2 : (p.map Process.static).map (fun s => s.1) = p.map Process.pid := by
        simp [Function.comp_def, Process.static]
      rw [← h1]
      exact ((fcfs_sorted_static p).map _).nodup_iff.mpr (h2 ▸ hpid)
    have hstrict : (fcfs_sort (reset_stats p).length (reset_stats p)).Pairwise
        (fun a b => a.arrival < b.arrival ∨ (a.arrival = b.arrival ∧ a.pid < b.pid)) := by
      have hne := List.pairwise_map.mp hnd
      refine (hs.and hne).imp ?_
      intro a b hab
      obtain ⟨h1, h2⟩ := hab
      unfold fcfs_before at h1
      omega
    have key : ∀ l : List Process,
        l.Pairwise (fun a b => a.arrival < b.arrival ∨ (a.arrival = b.arrival ∧ a.pid < b.pid)) ↔
        (l.map Process.static).Pairwise
          (fun s t => s.2.1 < t.2.1 ∨ (s.2.1 = t.2.1 ∧ s.1 < t.1)) := by
      intro l
      rw [List.pairwise_map]
      rfl
    rw [key, fcfs_procs_static, ← key]
    exact hstrict
  · rw [fcfs_procs_eq, List.pairwise_map]
    have hb2 : ∀ x ∈ fcfs_sort (reset_stats p).length (reset_stats p), 1 ≤ x.burst :=
      forall_of_static_perm (fun s => 1 ≤ s.2.2.1) (fcfs_sorted_static p) hb
    exact (fcfs_run_completion _ hb2 0 []).2

/-- C7 at a concrete workload: three processes entered out of arrival order. -/
theorem fcfs_sorted_completion_order_witness :
    (fcfs [mkProcess 1 4 2 1, mkProcess 2 0 3 1, mkProcess 3 0 1 1]).procs.map
        (fun x => (x.pid, x.completion_time)) = [(2, 3), (3, 4), (1, 6)] ∧
    (fcfs [mkProcess 1 4 2 1, mkProcess 2 0 3 1, mkProcess 3 0 1 1]).procs.Pairwise
      (fun a b => a.completion_time < b.completion_time) :=
  ⟨by decide,
    (fcfs_sorted_completion_order [mkProcess 1 4 2 1, mkProcess 2 0 3 1, mkProcess 3 0 1 1]
      (by decide) (by decide)).2.2.2⟩

/-! ## The generic loop -/

theorem while_loop_mono {σ : Type} (cond : σ → Bool) (body : σ → σ) :
    ∀ (fuel : Nat) (s r : σ), while_loop cond body fuel s = some r →
      ∀ fuel2, fuel ≤ fuel2 → while_loop cond body fuel2 s = some r := by
  intro fuel
  induction fuel with
  | zero => intro s r h; simp [while_loop] at h
  | succ f ih =>
    intro s r h fuel2 hle
    obtain ⟨f2, rfl⟩ : ∃ f2, fuel2 = f2 + 1 := ⟨fuel2 - 1, by omega⟩
    simp only [while_loop] at h ⊢
    split_ifs at h ⊢ with hc
    · exact ih _ _ h f2 (by omega)
    · exact h

/-- A loop whose body keeps an invariant and decreases a measure ends within `μ s + 1`
evaluations of its condition, in a state with the invariant and the condition false,
reached by iterating the body. -/
theorem while_loop_terminates {σ : Type} (cond : σ → Bool) (body : σ → σ)
    (Inv : σ → Prop) (μ : σ → Nat)
    (hstep : ∀ s, Inv s → cond s = true → Inv (body s) ∧ μ (body s) < μ s) :
    ∀ (fuel : Nat) (s : σ), Inv s → μ s < fuel →
      ∃ r, while_loop cond body fuel s = some r ∧ Inv r ∧ cond r = false ∧
        ∃ k, r = body^[k] s ∧ k ≤ μ s ∧ ∀ j < k, cond (body^[j] s) = true := by
  intro fuel
  induction fuel with
  | zero => intro s _ h; omega
  | succ f ih =>
    intro s hs hμ
    simp only [while_loop]
    by_cases hc : cond s = true
    · rw [if_pos hc]
      obtain ⟨h1, h2⟩ := hstep s hs hc
      obtain ⟨r, hr, hinv, hcr, k, hk, hkle, hall⟩ := ih (body s) h1 (by omega)
      refine ⟨r, hr, hinv, hcr, k + 1, ?_, by omega, ?_⟩
      · rw [Function.iterate_succ_apply]; exact hk
      · intro j hj
        cases j with
        | zero => exact hc
        | succ j =>
          rw [Function.iterate_succ_apply]
          exact hall j (by omega)
    · rw [if_neg hc]
      refine ⟨s, rfl, hs, by simpa using hc, 0, rfl, by omega, ?_⟩
      intro j hj; omega

/-- An invariant of the body holds after any number of iterations of it. -/
theorem iterate_invariant {σ : Type} (body : σ → σ) (Inv : σ → Prop)
    (hstep : ∀ s, Inv s → Inv (body s)) (s : σ) (hs : Inv s) :
    ∀ k, Inv (body^[k] s) := by
  intro k
  induction k with
  | zero => exact hs
  | succ k ih =>
    rw [Function.iterate_succ_apply']
    exact hstep _ ih

/-- A loop whose body leaves a state unchanged in which the condition holds never ends. -/
theorem while_loop_stuck {σ : Type} (cond : σ → Bool) (body : σ → σ) (s : σ)
    (hc : cond s = true) (hb : body s = s) : ∀ fuel, while_loop cond body fuel s = none := by
  intro fuel
  induction fuel with
  | zero => rfl
  | succ f ih =>
    simp only [while_loop]
    rw [if_pos hc, hb]
    exact ih

/-! ## Arrays: reading and writing one cell -/

theorem getD_of_getElem? {α : Type} {l : List α} {i : Nat} {x d : α} (h : l[i]? = some x) :
    l.getD i d = x := by
  simp [List.getD_eq_getElem?_getD, h]

theorem getElem?_of_lt_getD {α : Type} (l : List α) (i : Nat) (d : α) (h : i < l.length) :
    l[i]? = some (l.getD i d) := by
  simp [List.getD_eq_getElem?_getD, List.getElem?_eq_getElem h]

theorem getD_set_self {α : Type} (l : List α) (i : Nat) (a d : α) (h : i < l.length) :
    (l.set i a).getD i d = a := by
  simp [List.getD_eq_getElem?_getD, List.getElem?_set, h]

theorem getD_set_ne {α : Type} (l : List α) (i j : Nat) (a d : α) (h : i ≠ j) :
    (l.set i a).getD j d = l.getD j d := by
  simp [List.getD_eq_getElem?_getD, List.getElem?_set, h]

theorem mem_getD {α : Type} (l : List α) (i : Nat) (d : α) (h : i < l.length) :
    l.getD i d ∈ l := by
  have := getElem?_of_lt_getD l i d h
  exact List.getElem?_mem this

theorem mem_set_cases {α : Type} {l : List α} {i : Nat} {a y : α} (h : y ∈ l.set i a) :
    y = a ∨ (y ∈ l ∧ ∃ j, j ≠ i ∧ l[j]? = some y) := by
  obtain ⟨j, hj, hy⟩ := List.mem_iff_getElem.mp h
  rw [List.getElem_set] at hy
  split_ifs at hy with hij
  · exact Or.inl hy.symm
  · rw [List.length_set] at hj
    refine Or.inr ⟨?_, j, fun h' => hij h'.symm, ?_⟩
    · rw [← hy]; exact List.getElem_mem _
    · rw [List.getElem?_eq_getElem hj, hy]

theorem mem_set_of_ne {α : Type} {l : List α} {i j : Nat} {a y : α} (hj : l[j]? = some y)
    (hij : j ≠ i) : y ∈ l.set i a := by
  have : (l.set i a)[j]? = some y := by
    rw [List.getElem?_set, if_neg (fun h => hij h.symm)]; exact hj
  exact List.getElem?_mem this

theorem map_static_set (l : List Process) (i : Nat) (a : Process)
    (h : ∀ x, l[i]? = some x → a.static = x.static) :
    (l.set i a).map Process.static = l.map Process.static := by
  apply List.ext_getElem?
  intro j
  rw [List.getElem?_map, List.getElem?_map, List.getElem?_set]
  split_ifs with hij hi
  · subst hij
    have := h _ (List.getElem?_eq_getElem hi)
    simp [List.getElem?_eq_getElem hi, this]
  · subst hij
    simp [List.getElem?_eq_none (Nat.le_of_not_lt hi)]
  · rfl

theorem countP_set_finish (l : List Process) (i : Nat) (x a : Process)
    (hx : l[i]? = some x) (h1 : finished x = false) (h2 : finished a = true) :
    (l.set i a).countP finished = l.countP finished + 1 := by
  induction l generalizing i with
  | nil => simp at hx
  | cons y rest ih =>
    cases i with
    | zero =>
      simp only [List.getElem?_cons_zero, Option.some.injEq] at hx
      subst hx
      simp [List.countP_cons, h1, h2]
    | succ i =>
      simp only [List.getElem?_cons_succ] at hx
      simp only [List.set_cons_succ, List.countP_cons, ih i hx]
      omega

theorem countP_set_same (l : List Process) (i : Nat) (x a : Process)
    (hx : l[i]? = some x) (h : finished a = finished x) :
    (l.set i a).countP finished = l.countP finished := by
  induction l generalizing i with
  | nil => simp at hx
  | cons y rest ih =>
    cases i with
    | zero =>
      simp only [List.getElem?_cons_zero, Option.some.injEq] at hx
      subst hx
      simp [List.countP_cons, h]
    | succ i =>
      simp only [List.getElem?_cons_succ] at hx
      simp only [List.set_cons_succ, List.countP_cons, ih i hx]

/-- With distinct pids, two processes of the array with the same pid are the same. -/
theorem eq_of_pid_eq {l : List Process} (hnd : (l.map Process.pid).Nodup) {x y : Process}
    (hx : x ∈ l) (hy : y ∈ l) (h : x.pid = y.pid) : x = y :=
  List.inj_on_of_nodup_map hnd hx hy h

theorem pid_nodup_of_static {l p : List Process}
    (h : l.map Process.static = p.map Process.static) (hnd : (p.map Process.pid).Nodup) :
    (l.map Process.pid).Nodup := by
  have h1 : l.map Process.pid = (l.map Process.static).map (fun s => s.1) := by
    simp [Function.comp_def, Process.static]
  have h2 : p.map Process.pid = (p.map Process.static).map (fun s => s.1) := by
    simp [Function.comp_def, Process.static]
  rw [h1, h, ← h2]; exact hnd

theorem length_of_static {l p : List Process}
    (h : l.map Process.static = p.map Process.static) : l.length = p.length := by
  have := congrArg List.length h
  simpa using this

theorem range_of_static {l p : List Process}
    (h : l.map Process.static = p.map Process.static) (hr : ∀ x ∈ p, InputRange x) :
    ∀ x ∈ l, InputRange x := by
  have := forall_of_static_perm
    (fun s => 0 ≤ s.2.1 ∧ s.2.1 < INT_MAX ∧ 1 ≤ s.2.2.1 ∧ s.2.2.1 < INT_MAX ∧
      s.2.2.2 < INT_MAX) (List.Perm.of_eq h) hr
  exact this

/-! ## The arrival scans -/

theorem next_arrival_scan_spec (t : Int) (l : List Process) :
    ∀ m0 : Int, next_arrival_scan t l m0 ≤ m0 ∧
      (∀ x ∈ l, x.remaining > 0 → x.arrival > t → next_arrival_scan t l m0 ≤ x.arrival) ∧
      (next_arrival_scan t l m0 = m0 ∨
        ∃ x ∈ l, x.remaining > 0 ∧ x.arrival > t ∧ next_arrival_scan t l m0 = x.arrival) := by
  induction l with
  | nil => intro m0; simp [next_arrival_scan]
  | cons y rest ih =>
    intro m0
    simp only [next_arrival_scan]
    split_ifs with hc hlt
    · obtain ⟨h1, h2, h3⟩ := ih y.arrival
      refine ⟨by omega, ?_, ?_⟩
      · intro x hx hr ha
        rcases List.mem_cons.mp hx with rfl | hx
        · exact h1
        · exact h2 x hx hr ha
      · right
        rcases h3 with h3 | ⟨x, hx, hr, ha, he⟩
        · exact ⟨y, by simp, hc.1, hc.2, h3⟩
        · exact ⟨x, List.mem_cons_of_mem _ hx, hr, ha, he⟩
    · obtain ⟨h1, h2, h3⟩ := ih m0
      refine ⟨h1, ?_, ?_⟩
      · intro x hx hr ha
        rcases List.mem_cons.mp hx with rfl | hx
        · omega
        · exact h2 x hx hr ha
      · rcases h3 with h3 | ⟨x, hx, hr, ha, he⟩
        · exact Or.inl h3
        · exact Or.inr ⟨x, List.mem_cons_of_mem _ hx, hr, ha, he⟩
    · obtain ⟨h1, h2, h3⟩ := ih m0
      refine ⟨h1, ?_, ?_⟩
      · intro x hx hr ha
        rcases List.mem_cons.mp hx with rfl | hx
        · exact absurd ⟨hr, ha⟩ hc
        · exact h2 x hx hr ha
      · rcases h3 with h3 | ⟨x, hx, hr, ha, he⟩
        · exact Or.inl h3
        · exact Or.inr ⟨x, List.mem_cons_of_mem _ hx, hr, ha, he⟩

/-- The value of `next_arrival_time` is never earlier than the current time. -/
theorem next_arrival_time_ge (p : List Process) (t : Int) : t ≤ next_arrival_time p t := by
  unfold next_arrival_time
  dsimp only
  split_ifs with h
  · exact le_rfl
  · obtain ⟨-, -, h3⟩ := next_arrival_scan_spec t p INT_MAX
    rcases h3 with h3 | ⟨x, -, -, ha, he⟩
    · exact absurd h3 h
    · omega

/-- When some unfinished process arrives after `t`, and the arrivals are below `INT_MAX`,
`next_arrival_time` is the least such arrival. -/
theorem next_arrival_time_least (p : List Process) (t : Int)
    (hr : ∀ x ∈ p, x.arrival < INT_MAX)
    (hex : ∃ x ∈ p, x.remaining > 0 ∧ x.arrival > t) :
    t < next_arrival_time p t ∧
      (∃ x ∈ p, x.remaining > 0 ∧ x.arrival = next_arrival_time p t) ∧
      ∀ x ∈ p, x.remaining > 0 → x.arrival > t → next_arrival_time p t ≤ x.arrival := by
  obtain ⟨h1, h2, h3⟩ := next_arrival_scan_spec t p INT_MAX
  obtain ⟨z, hz, hzr, hza⟩ := hex
  have hlt : next_arrival_scan t p INT_MAX < INT_MAX :=
    lt_of_le_of_lt (h2 z hz hzr hza) (hr z hz)
  have hne : next_arrival_scan t p INT_MAX ≠ INT_MAX := ne_of_lt hlt
  have heq : next_arrival_time p t = next_arrival_scan t p INT_MAX := by
    unfold next_arrival_time
    dsimp only
    rw [if_neg hne]
  rw [heq]
  rcases h3 with h3 | ⟨x, hx, hxr, hxa, he⟩
  · exact absurd h3 hne
  · exact ⟨by omega, ⟨x, hx, hxr, he.symm⟩, h2⟩

theorem earliest_scan_spec (l : List Process) :
    ∀ e0 : Int, earliest_scan l e0 ≤ e0 ∧
      (∀ x ∈ l, earliest_scan l e0 ≤ x.arrival) ∧
      (earliest_scan l e0 = e0 ∨ ∃ x ∈ l, earliest_scan l e0 = x.arrival) := by
  induction l with
  | nil => intro e0; simp [earliest_scan]
  | cons y rest ih =>
    intro e0
    simp only [earliest_scan]
    split_ifs with hlt
    · obtain ⟨h1, h2, h3⟩ := ih y.arrival
      refine ⟨by omega, ?_, ?_⟩
      · intro x hx
        rcases List.mem_cons.mp hx with rfl | hx
        · exact h1
        · exact h2 x hx
      · right
        rcases h3 with h3 | ⟨x, hx, he⟩
        · exact ⟨y, by simp, h3⟩
        · exact ⟨x, List.mem_cons_of_mem _ hx, he⟩
    · obtain ⟨h1, h2, h3⟩ := ih e0
      refine ⟨h1, ?_, ?_⟩
      · intro x hx
        rcases List.mem_cons.mp hx with rfl | hx
        · omega
        · exact h2 x hx
      · rcases h3 with h3 | ⟨x, hx, he⟩
        · exact Or.inl h3
        · exact Or.inr ⟨x, List.mem_cons_of_mem _ hx, he⟩

/-- On a non-empty array with arrivals below `INT_MAX` the earliest arrival is the least
arrival, attained by some process. -/
theorem earliest_arrival_least (p : List Process) (hne : p ≠ [])
    (hr : ∀ x ∈ p, x.arrival < INT_MAX) :
    (∃ x ∈ p, x.arrival = earliest_arrival p) ∧ (∀ x ∈ p, earliest_arrival p ≤ x.arrival) ∧
      earliest_arrival p ≠ INT_MAX := by
  obtain ⟨h1, h2, h3⟩ := earliest_scan_spec p INT_MAX
  obtain ⟨z, hz⟩ := List.exists_mem_of_ne_nil p hne
  have hlt : earliest_scan p INT_MAX < INT_MAX := lt_of_le_of_lt (h2 z hz) (hr z hz)
  unfold earliest_arrival
  rcases h3 with h3 | ⟨x, hx, he⟩
  · omega
  · exact ⟨⟨x, hx, he.symm⟩, h2, ne_of_lt hlt⟩

/-! ## SJF and priority: the selection scan -/

theorem np_scan_inv (key : Process → Int) (time : Int) (l : List Process) :
    ∀ (pre : List Process) (acc : Option Nat × Int × Int), ScanInv key time pre acc →
      ScanInv key time (pre ++ l) (np_scan key time l pre.length acc) := by
  induction l with
  | nil => intro pre acc h; simpa [np_scan] using h
  | cons x rest ih =>
    intro pre acc h
    have hstep : ∀ acc2, ScanInv key time (pre ++ [x]) acc2 →
        ScanInv key time (pre ++ x :: rest) (np_scan key time rest (pre.length + 1) acc2) := by
      intro acc2 h2
      have := ih (pre ++ [x]) acc2 h2
      simpa using this
    -- the accumulator is kept when `x` is not taken
    have hkeep : (eligible time x → ¬ (key x < acc.2.1 ∨ (key x = acc.2.1 ∧ x.pid < acc.2.2))) →
        ScanInv key time (pre ++ [x]) acc := by
      intro hx
      obtain ⟨h1, h2⟩ := h
      refine ⟨?_, ?_⟩
      · intro y hy he
        rcases List.mem_append.mp hy with hy | hy
        · exact h1 y hy he
        · simp only [List.mem_singleton] at hy
          subst hy
          have := hx he
          unfold lex_le; omega
      · cases hacc : acc.1 with
        | none => rw [hacc] at h2; exact h2
        | some j =>
          rw [hacc] at h2
          obtain ⟨y, hy, hrest⟩ := h2
          refine ⟨y, ?_, hrest⟩
          rw [List.getElem?_append_left (List.getElem?_eq_some.mp hy).1]
          exact hy
    unfold np_scan
    split_ifs with he hlt
    · apply hstep
      obtain ⟨h1, h2⟩ := h
      refine ⟨?_, ?_⟩
      · intro y hy hey
        rcases List.mem_append.mp hy with hy | hy
        · have := h1 y hy hey
          unfold lex_le at this ⊢
          dsimp only
          omega
        · simp only [List.mem_singleton] at hy
          subst hy
          unfold lex_le; dsimp only; omega
      · exact ⟨x, by simp, he, rfl, rfl⟩
    · exact hstep acc (hkeep fun _ => hlt)
    · exact hstep acc (hkeep fun h0 => absurd h0 he)

theorem np_select_spec (key : Process → Int) (p : List Process) (time : Int) :
    match np_select key p time with
    | none => ∀ x ∈ p, eligible time x → lex_le INT_MAX INT_MAX (key x) x.pid
    | some j => ∃ x, p[j]? = some x ∧ eligible time x ∧
        ∀ y ∈ p, eligible time y → lex_le (key x) x.pid (key y) y.pid := by
  have h := np_scan_inv key time p [] (none, INT_MAX, INT_MAX)
    ⟨by simp, by simp⟩
  simp only [List.nil_append, List.length_nil] at h
  unfold np_select
  obtain ⟨h1, h2⟩ := h
  cases hacc : (np_scan key time p 0 (none, INT_MAX, INT_MAX)).1 with
  | none =>
    rw [hacc] at h2
    dsimp only at h2 ⊢
    intro x hx he
    have := h1 x hx he
    rw [h2.1, h2.2] at this
    exact this
  | some j =>
    rw [hacc] at h2
    dsimp only at h2 ⊢
    obtain ⟨x, hx, he, hk, hp⟩ := h2
    refine ⟨x, hx, he, ?_⟩
    intro y hy hey
    have := h1 y hy hey
    rw [hk, hp] at this
    exact this

/-! ## SJF and priority: the main loop -/

theorem push_event_append (g : GanttChart) (pid s e : Int)
    (hlast : ∀ l ∈ g.getLast?, ¬ (l.pid = pid ∧ l.end_ = s)) (hlen : g.length < MAXG) :
    push_event g pid s e = g ++ [⟨pid, s, e⟩] := by
  rcases List.eq_nil_or_concat g with rfl | ⟨g1, l, rfl⟩
  · rw [push_event_nil]; rfl
  · rw [List.concat_eq_append] at hlast hlen ⊢
    have h1 : ¬ (l.pid = pid ∧ l.end_ = s) := hlast l (by simp)
    have h2 : g1.length + 1 < MAXG := by simpa using hlen
    rw [push_event_concat, if_neg h1, if_pos h2]
    simp

theorem np_body_none {key : Process → Int} {s : NPState}
    (hs : np_select key s.p s.time = none) :
    np_body key s = { s with time := next_arrival_time s.p s.time } := by
  unfold np_body; rw [hs]

theorem np_body_some {key : Process → Int} {s : NPState} {idx : Nat} {x : Process}
    (hs : np_select key s.p s.time = some idx) (hx : s.p[idx]? = some x) :
    np_body key s =
      { p := s.p.set idx (np_finish s.time x)
        time := s.time + x.burst
        completed := s.completed + 1
        g := push_event s.g x.pid s.time (s.time + x.burst) } := by
  unfold np_body; rw [hs]; simp only [getD_of_getElem? hx]; rfl

theorem finished_iff (x : Process) : finished x = true ↔ x.remaining = 0 := by
  simp [finished]

theorem np_inv_init (p0 : List Process) (hb : ∀ x ∈ p0, 1 ≤ x.burst) :
    NPInv p0 (np_init p0) := by
  have hrun : ∀ x ∈ reset_stats p0, x.remaining = x.burst ∧ 1 ≤ x.burst := by
    intro x hx
    unfold reset_stats at hx
    obtain ⟨y, hy, rfl⟩ := List.mem_map.mp hx
    exact ⟨rfl, hb y hy⟩
  refine
    { static := static_reset_stats p0
      run := fun x hx => Or.inl (hrun x hx).1
      count := ?_
      glen := rfl
      gev := fun e he => absurd he (List.not_mem_nil e)
      gchain := List.Pairwise.nil
      gend := fun e he => absurd he (List.not_mem_nil e)
      gnodup := List.nodup_nil }
  show 0 = (reset_stats p0).countP finished
  symm
  rw [List.countP_eq_zero]
  intro x hx hf
  have := hrun x hx
  rw [finished_iff] at hf
  omega

theorem np_inv_step (key : Process → Int) (p0 : List Process)
    (hnd : (p0.map Process.pid).Nodup) (hlen : p0.length ≤ MAXP)
    (s : NPState) (h : NPInv p0 s) (hc : np_cond s = true) :
    NPInv p0 (np_body key s) := by
  have hsel := np_select_spec key s.p s.time
  cases hs : np_select key s.p s.time with
  | none =>
    rw [np_body_none hs]
    have hge := next_arrival_time_ge s.p s.time
    refine
      { static := h.static
        run := ?_
        count := h.count
        glen := h.glen
        gev := h.gev
        gchain := h.gchain
        gend := fun e he => le_trans (h.gend e he) hge
        gnodup := h.gnodup }
    intro x hx
    rcases h.run x hx with h1 | ⟨h1, h2, h3, h4⟩
    · exact Or.inl h1
    · exact Or.inr ⟨h1, h2, h3, le_trans h4 hge⟩
  | some idx =>
    rw [hs] at hsel
    obtain ⟨x, hx, he, -⟩ := hsel
    rw [np_body_some hs hx]
    have hxm : x ∈ s.p := List.getElem?_mem hx
    have hidx : idx < s.p.length := (List.getElem?_eq_some.mp hx).1
    have hxb : x.remaining = x.burst := by
      rcases h.run x hxm with h1 | ⟨h1, -⟩
      · exact h1
      · have := he.1; omega
    have hxpos : 0 < x.burst := by have := he.1; omega
    have hnd2 : (s.p.map Process.pid).Nodup := pid_nodup_of_static h.static hnd
    have hfresh : ∀ e ∈ s.g, e.pid ≠ x.pid := by
      intro e hemem hpid
      obtain ⟨y, hy, hyr, hey⟩ := h.gev e hemem
      have : y = x := eq_of_pid_eq hnd2 hy hxm (by rw [← hpid, hey]; rfl)
      subst this
      have := he.1; omega
    have hcap : s.g.length < MAXG := by
      have h1 : s.completed < s.p.length := by simpa [np_cond] using hc
      have h2 := length_of_static h.static
      rw [h.glen]
      have : MAXP < MAXG := by decide
      omega
    have hpush : push_event s.g x.pid s.time (s.time + x.burst) =
        s.g ++ [⟨x.pid, s.time, s.time + x.burst⟩] := by
      apply push_event_append _ _ _ _ _ hcap
      intro l hl hl2
      exact hfresh l (List.mem_of_mem_getLast? hl) hl2.1
    rw [hpush]
    have hnew : np_finish s.time x ∈ s.p.set idx (np_finish s.time x) := by
      have hat : (s.p.set idx (np_finish s.time x))[idx]? = some (np_finish s.time x) := by
        rw [List.getElem?_set, if_pos rfl, if_pos hidx]
      exact List.getElem?_mem hat
    refine
      { static := ?_
        run := ?_
        count := ?_
        glen := ?_
        gev := ?_
        gchain := ?_
        gend := ?_
        gnodup := ?_ }
    · rw [← h.static]
      apply map_static_set
      intro x2 hx2
      rw [hx] at hx2
      cases hx2
      rfl
    · intro y hy
      rcases mem_set_cases hy with rfl | ⟨hy2, -⟩
      · exact Or.inr ⟨rfl, he.2, rfl, le_rfl⟩
      · rcases h.run y hy2 with h1 | ⟨h1, h2, h3, h4⟩
        · exact Or.inl h1
        · refine Or.inr ⟨h1, h2, h3, ?_⟩
          show y.completion_time ≤ s.time + x.burst
          omega
    · show s.completed + 1 = _
      rw [countP_set_finish s.p idx x _ hx (by simp [finished]; have := he.1; omega)
        (by simp [finished, np_finish]), h.count]
    · show (s.g ++ _).length = s.completed + 1
      rw [List.length_append, h.glen]; rfl
    · intro e hemem
      rcases List.mem_append.mp hemem with hemem | hemem
      · obtain ⟨y, hy, hyr, hey⟩ := h.gev e hemem
        obtain ⟨j, hj⟩ := List.mem_iff_getElem?.mp hy
        have hji : j ≠ idx := by
          intro hji
          rw [hji, hx] at hj
          cases hj
          have := he.1; omega
        exact ⟨y, mem_set_of_ne hj hji, hyr, hey⟩
      · simp only [List.mem_singleton] at hemem
        exact ⟨_, hnew, rfl, hemem⟩
    · show List.Pairwise _ (s.g ++ _)
      rw [List.pairwise_append]
      refine ⟨h.gchain, List.pairwise_singleton _ _, ?_⟩
      intro a ha b hb
      simp only [List.mem_singleton] at hb
      subst hb
      exact h.gend a ha
    · intro e hemem
      show e.end_ ≤ s.time + x.burst
      rcases List.mem_append.mp hemem with hemem | hemem
      · have := h.gend e hemem; omega
      · simp only [List.mem_singleton] at hemem
        subst hemem
        exact le_rfl
    · show ((s.g ++ _).map GanttEvent.pid).Nodup
      rw [List.map_append, List.nodup_append]
      refine ⟨h.gnodup, by simp, ?_⟩
      intro a ha hb
      simp only [List.map_cons, List.map_nil, List.mem_singleton] at hb
      obtain ⟨e, hemem, rfl⟩ := List.mem_map.mp ha
      exact hfresh e hemem hb

theorem input_range_bounds {x : Process} (h : InputRange x) :
    0 ≤ x.arrival ∧ x.arrival < INT_MAX ∧ 1 ≤ x.burst ∧ x.burst < INT_MAX ∧
      x.priority < INT_MAX := h

/-- While some process is unfinished, one of the array is unfinished with `remaining > 0`. -/
theorem np_exists_unfinished (p0 : List Process) (hr : ∀ x ∈ p0, InputRange x)
    (s : NPState) (h : NPInv p0 s) (hc : np_cond s = true) :
    ∃ z ∈ s.p, z.remaining > 0 := by
  have h1 : s.completed < s.p.length := by simpa [np_cond] using hc
  by_contra hcon
  push_neg at hcon
  have hall : ∀ z ∈ s.p, finished z = true := by
    intro z hz
    rcases h.run z hz with h2 | ⟨h2, -⟩
    · have := (input_range_bounds (range_of_static h.static hr z hz)).2.2.1
      have := hcon z hz
      omega
    · rw [finished_iff]; exact h2
  have := List.countP_eq_length.mpr hall
  rw [← h.count] at this
  omega

theorem np_select_none_no_eligible (key : Process → Int)
    (hkey : ∀ x, InputRange x → key x < INT_MAX) (p : List Process)
    (hr : ∀ x ∈ p, InputRange x) (t : Int) (hs : np_select key p t = none) :
    ∀ x ∈ p, ¬ eligible t x := by
  have hsel := np_select_spec key p t
  rw [hs] at hsel
  intro x hx he
  have h1 := hsel x hx he
  have h2 := hkey x (hr x hx)
  unfold lex_le at h1
  omega

theorem np_measure_step (key : Process → Int) (hkey : ∀ x, InputRange x → key x < INT_MAX)
    (p0 : List Process) (hr : ∀ x ∈ p0, InputRange x)
    (s : NPState) (h : NPInv p0 s) (hc : np_cond s = true) :
    np_measure key (np_body key s) < np_measure key s := by
  have hsel := np_select_spec key s.p s.time
  have h1 : s.completed < s.p.length := by simpa [np_cond] using hc
  cases hs : np_select key s.p s.time with
  | none =>
    have hr2 := range_of_static h.static hr
    obtain ⟨z, hz, hzr⟩ := np_exists_unfinished p0 hr s h hc
    have hne := np_select_none_no_eligible key hkey s.p hr2 s.time hs
    have hza : z.arrival > s.time := by
      have := hne z hz
      unfold eligible at this
      omega
    obtain ⟨-, ⟨w, hw, hwr, hwa⟩, -⟩ := next_arrival_time_least s.p s.time
      (fun x hx => (input_range_bounds (hr2 x hx)).2.1) ⟨z, hz, hzr, hza⟩
    have hsome : np_select key s.p (next_arrival_time s.p s.time) ≠ none := by
      intro hcon
      exact np_select_none_no_eligible key hkey s.p hr2 _ hcon w hw ⟨hwr, le_of_eq hwa⟩
    rw [np_body_none hs]
    unfold np_measure
    dsimp only
    rw [if_neg hsome, if_pos hs]
    omega
  | some idx =>
    rw [hs] at hsel
    obtain ⟨x, hx, -, -⟩ := hsel
    rw [np_body_some hs hx]
    unfold np_measure
    dsimp only
    rw [List.length_set]
    split_ifs <;> omega

/-- Every valid workload is run to the end by the main loop of `sjf_np` / `priority_np`:
with `2 n + 2` units of fuel or more the loop returns one and the same state, which
satisfies the invariant, has all `n` processes completed and is reached by iterating the
body. -/
theorem np_terminates (key : Process → Int) (hkey : ∀ x, InputRange x → key x < INT_MAX)
    (p0 : List Process) (hv : ValidWorkload p0) :
    ∃ r, (∀ fuel, 2 * p0.length + 2 ≤ fuel → np_loop key fuel (np_init p0) = some r) ∧
      NPInv p0 r ∧ r.completed = p0.length ∧ (∀ x ∈ r.p, x.remaining = 0) ∧
      ∃ k, r = np_state key p0 k := by
  obtain ⟨-, hlen, hnd, hr⟩ := hv
  have hinit := np_inv_init p0 (fun x hx => (input_range_bounds (hr x hx)).2.2.1)
  have hμ : np_measure key (np_init p0) < 2 * p0.length + 2 := by
    unfold np_measure
    have : (np_init p0).p.length = p0.length := length_of_static hinit.static
    rw [this]
    split_ifs <;> omega
  obtain ⟨r, hloop, hinv, hcond, k, hk, -, -⟩ :=
    while_loop_terminates np_cond (np_body key) (NPInv p0) (np_measure key)
      (fun s hs hc => ⟨np_inv_step key p0 hnd hlen s hs hc,
        np_measure_step key hkey p0 hr s hs hc⟩)
      (2 * p0.length + 2) (np_init p0) hinit hμ
  have hlenr := length_of_static hinv.static
  have hle : r.p.countP finished ≤ r.p.length := List.countP_le_length _
  have hcomp : r.completed = r.p.length := by
    have : ¬ r.completed < r.p.length := by simpa [np_cond] using hcond
    have := hinv.count
    omega
  refine ⟨r, ?_, hinv, by omega, ?_, k, hk⟩
  · intro fuel hf
    exact while_loop_mono _ _ _ _ _ hloop fuel hf
  · intro x hx
    have hall := List.countP_eq_length.mp (by rw [← hinv.count]; exact hcomp)
    exact (finished_iff x).mp (hall x hx)

/-! ## SJF and priority: dispatch order and ledger -/

theorem np_body_static (key : Process → Int) (s : NPState) :
    (np_body key s).p.map Process.static = s.p.map Process.static := by
  have hsel := np_select_spec key s.p s.time
  cases hs : np_select key s.p s.time with
  | none => rw [np_body_none hs]
  | some idx =>
    rw [hs] at hsel
    obtain ⟨x, hx, -, -⟩ := hsel
    rw [np_body_some hs hx]
    apply map_static_set
    intro x2 hx2
    rw [hx] at hx2
    cases hx2
    rfl

theorem np_state_static (key : Process → Int) (p : List Process) (k : Nat) :
    (np_state key p k).p.map Process.static = p.map Process.static := by
  unfold np_state
  exact iterate_invariant (np_body key)
    (fun s => s.p.map Process.static = p.map Process.static)
    (fun s hs => (np_body_static key s).trans hs) (np_init p) (static_reset_stats p) k

theorem selects_minimal (key : Process → Int) (s : NPState) : SelectsMinimal key s := by
  intro idx hs
  have hsel := np_select_spec key s.p s.time
  rw [hs] at hsel
  obtain ⟨x, hx, he, hmin⟩ := hsel
  refine ⟨x, hx, he.1, he.2, ?_, np_body_some hs hx⟩
  intro y hy hyr hya
  have := hmin y hy ⟨hyr, hya⟩
  unfold lex_le at this
  exact this

theorem idle_only_when_none_ready (key : Process → Int)
    (hkey : ∀ x, InputRange x → key x < INT_MAX) (s : NPState)
    (hr : ∀ x ∈ s.p, InputRange x) : IdleOnlyWhenNoneReady key s := by
  intro hbody
  cases hs : np_select key s.p s.time with
  | none => exact np_select_none_no_eligible key hkey s.p hr s.time hs
  | some idx =>
    obtain ⟨x, hx, -, -, -, hd⟩ := selects_minimal key s idx hs
    rw [hd] at hbody
    have := congrArg NPState.completed hbody
    simp at this

/-- C4: on a valid workload, after any number `k` of iterations of the loop of `sjf_np`,
a selection picks a ready process of lexicographically least `(burst, pid)` among the
ready ones and the body dispatches it; and the body takes the idle branch (clock moved by
`next_arrival_time`) only when no process is ready. -/
theorem sjf_np_selects_shortest_ready (p : List Process) (hv : ValidWorkload p) (k : Nat) :
    SelectsMinimal Process.burst (np_state Process.burst p k) ∧
      IdleOnlyWhenNoneReady Process.burst (np_state Process.burst p k) :=
  ⟨selects_minimal _ _,
    idle_only_when_none_ready _ (fun _ hx => (input_range_bounds hx).2.2.2.1) _
      (range_of_static (np_state_static _ p k) hv.2.2.2)⟩

/-- C4 on the example workload after one iteration (P1 has run, the clock is 5). -/
theorem sjf_np_selects_shortest_ready_witness :
    ValidWorkload example_workload ∧
      SelectsMinimal Process.burst (np_state Process.burst example_workload 1) ∧
      IdleOnlyWhenNoneReady Process.burst (np_state Process.burst example_workload 1) :=
  ⟨by decide, sjf_np_selects_shortest_ready example_workload (by decide) 1⟩

/-- C5: for every workload, whatever the priorities, after any number `k` of iterations of
the loop of `priority_np`, a selection picks a ready process of lexicographically least
`(priority, pid)` among the ready ones, and the body dispatches it. -/
theorem priority_np_selects_most_urgent_ready (p : List Process) (k : Nat) :
    SelectsMinimal Process.priority (np_state Process.priority p k) :=
  selects_minimal _ _

/-! ### The ledger of a non-preemptive run -/

theorem np_result_one_slice (p0 : List Process) (s : NPState) (h : NPInv p0 s)
    (hc : s.completed = p0.length) (hb : ∀ x ∈ p0, 1 ≤ x.burst) :
    OneSlicePerProcess (np_result s) := by
  have hlen := length_of_static h.static
  have hprocs : (np_result s).procs = s.p.map table_row := rfl
  have hchart : (np_result s).chart = s.g := rfl
  have hfin : ∀ x ∈ s.p, x.remaining = 0 := by
    have hall := List.countP_eq_length.mp (by rw [← h.count, hc, hlen])
    exact fun x hx => (finished_iff x).mp (hall x hx)
  have hpid : (s.p.map table_row).map Process.pid = s.p.map Process.pid := by
    simp [Function.comp_def, table_row]
  refine ⟨?_, ?_, ?_⟩
  · rw [hprocs, hchart, hpid]
    apply List.Subperm.perm_of_length_le
    · apply List.subperm_of_subset h.gnodup
      intro a ha
      obtain ⟨e, he, rfl⟩ := List.mem_map.mp ha
      obtain ⟨x, hx, -, hex⟩ := h.gev e he
      rw [hex]
      exact List.mem_map_of_mem _ hx
    · simp only [List.length_map]
      rw [h.glen, hc, hlen]
  · intro e he
    rw [hchart] at he
    obtain ⟨x, hx, hxr, hex⟩ := h.gev e he
    refine ⟨table_row x, ?_, ?_, ?_⟩
    · rw [hprocs]; exact List.mem_map_of_mem _ hx
    · rw [hex]; rfl
    · show x.completion_time = x.start_time + x.burst
      have hbx : 1 ≤ x.burst := by
        have := forall_of_static_perm (fun st => 1 ≤ st.2.2.1) (List.Perm.of_eq h.static) hb
        exact this x hx
      rcases h.run x hx with h1 | ⟨-, -, h3, -⟩
      · omega
      · exact h3
  · rw [hchart]; exact h.gchain

theorem np_run_one_slice (key : Process → Int) (hkey : ∀ x, InputRange x → key x < INT_MAX)
    (p : List Process) (hv : ValidWorkload p) :
    ∃ r, (∀ fuel, 2 * p.length + 2 ≤ fuel → (np_loop key fuel (np_init p)).map np_result
        = some r) ∧
      r.procs.map Process.static = p.map Process.static ∧ OneSlicePerProcess r := by
  obtain ⟨s, hloop, hinv, hc, -, -⟩ := np_terminates key hkey p hv
  refine ⟨np_result s, ?_, ?_, ?_⟩
  · intro fuel hf
    rw [hloop fuel hf]; rfl
  · show (s.p.map table_row).map Process.static = _
    rw [static_map_table_row, hinv.static]
  · exact np_result_one_slice p s hinv hc
      (fun x hx => (input_range_bounds (hv.2.2.2 x hx)).2.2.1)

/-- C6: on a valid workload both `sjf_np` and `priority_np` return (with `2 n + 2` units
of fuel or more) a result whose ledger has exactly one slice per process, the slice being
`[start_time, completion_time]` with `completion_time = start_time + burst`, and in which
every slice ends before any later slice starts. -/
theorem np_ledger_one_slice_per_process (p : List Process) (hv : ValidWorkload p) :
    (∃ r, (∀ fuel, 2 * p.length + 2 ≤ fuel → sjf_np fuel p = some r) ∧
      r.procs.map Process.static = p.map Process.static ∧ OneSlicePerProcess r) ∧
    (∃ r, (∀ fuel, 2 * p.length + 2 ≤ fuel → priority_np fuel p = some r) ∧
      r.procs.map Process.static = p.map Process.static ∧ OneSlicePerProcess r) :=
  ⟨np_run_one_slice _ (fun _ hx => (input_range_bounds hx).2.2.2.1) p hv,
    np_run_one_slice _ (fun _ hx => (input_range_bounds hx).2.2.2.2) p hv⟩

/-- C6 on the example workload. -/
theorem np_ledger_one_slice_per_process_witness :
    ValidWorkload example_workload ∧
    (∃ r, (∀ fuel, 2 * example_workload.length + 2 ≤ fuel →
        sjf_np fuel example_workload = some r) ∧
      r.procs.map Process.static = example_workload.map Process.static ∧
      OneSlicePerProcess r) ∧
    (∃ r, (∀ fuel, 2 * example_workload.length + 2 ≤ fuel →
        priority_np fuel example_workload = some r) ∧
      r.procs.map Process.static = example_workload.map Process.static ∧
      OneSlicePerProcess r) :=
  ⟨by decide, np_ledger_one_slice_per_process example_workload (by decide)⟩

/-! ### Outside the input range -/

/-- Outside the input range the start value of the selection scan shows: a lone process
with `burst = pid = INT_MAX` is never selected, the idle branch leaves the state as it is,
and the loop of `sjf_np` does not end, whatever the fuel. -/
theorem sjf_np_sentinel_never_ends (fuel : Nat) : sjf_np fuel sentinel_workload = none := by
  unfold sjf_np np_loop
  rw [while_loop_stuck np_cond (np_body Process.burst) (np_init sentinel_workload)
    (by decide) (by decide) fuel]
  rfl

/-! ## The ready queue of Round-Robin -/

theorem toList_length (Q : Queue) : Q.toList.length = Q.back - Q.front := by
  simp [Queue.toList]

theorem q_empty_iff (Q : Queue) (h : QWF Q) : q_empty Q = true ↔ Q.toList = [] := by
  rw [← List.length_eq_zero, toList_length]
  unfold q_empty
  have := h.2
  simp only [beq_iff_eq]
  omega

theorem q_push_toList (Q : Queue) (v : Nat) (h : QWF Q) (hcap : Q.toList.length < MAXP) :
    (q_push Q v).toList = Q.toList ++ [v] ∧ QWF (q_push Q v) := by
  obtain ⟨hl, hfb⟩ := h
  rw [toList_length] at hcap
  refine ⟨?_, ?_, ?_⟩
  · unfold Queue.toList q_push
    dsimp only
    have h1 : Q.back + 1 - Q.front = (Q.back - Q.front) + 1 := by omega
    rw [h1, List.range_succ, List.map_append]
    congr 1
    · apply List.map_congr_left
      intro k hk
      rw [List.mem_range] at hk
      apply getD_set_ne
      unfold MAXP at hcap ⊢
      omega
    · simp only [List.map_cons, List.map_nil]
      have h2 : Q.front + (Q.back - Q.front) = Q.back := by omega
      rw [h2, getD_set_self]
      rw [hl]
      exact Nat.mod_lt _ (by decide)
  · show (Q.q.set _ _).length = MAXP
    rw [List.length_set]; exact hl
  · show Q.front ≤ Q.back + 1
    omega

theorem q_pop_toList (Q : Queue) (h : QWF Q) (hne : Q.front < Q.back) :
    Q.toList = (q_pop Q).1 :: (q_pop Q).2.toList ∧ QWF (q_pop Q).2 := by
  obtain ⟨hl, hfb⟩ := h
  refine ⟨?_, hl, ?_⟩
  · unfold Queue.toList q_pop
    dsimp only
    have h1 : Q.back - Q.front = (Q.back - (Q.front + 1)) + 1 := by omega
    rw [h1, List.range_succ_eq_map, List.map_cons, List.map_map]
    congr 1
    apply List.map_congr_left
    intro k _
    simp only [Function.comp_apply]
    congr 2
    omega
  · show Q.front + 1 ≤ Q.back
    omega

theorem where_idx_spec (c : Process → Bool) (l : List Process) :
    ∀ i : Nat, (where_idx c l i).Pairwise (· < ·) ∧
      ∀ j, j ∈ where_idx c l i ↔ i ≤ j ∧ ∃ x, l[j - i]? = some x ∧ c x = true := by
  induction l with
  | nil => intro i; simp [where_idx]
  | cons y rest ih =>
    intro i
    obtain ⟨ih1, ih2⟩ := ih (i + 1)
    have hmem : ∀ j, (i + 1 ≤ j ∧ ∃ x, rest[j - (i + 1)]? = some x ∧ c x = true) ↔
        (i < j ∧ ∃ x, (y :: rest)[j - i]? = some x ∧ c x = true) := by
      intro j
      constructor
      · rintro ⟨h1, x, hx, hc⟩
        refine ⟨by omega, x, ?_, hc⟩
        have : j - i = (j - (i + 1)) + 1 := by omega
        rw [this, List.getElem?_cons_succ]; exact hx
      · rintro ⟨h1, x, hx, hc⟩
        refine ⟨by omega, x, ?_, hc⟩
        have : j - i = (j - (i + 1)) + 1 := by omega
        rw [this, List.getElem?_cons_succ] at hx; exact hx
    unfold where_idx
    split_ifs with hc
    · refine ⟨List.Pairwise.cons ?_ ih1, ?_⟩
      · intro j hj
        have := ((ih2 j).mp hj).1
        omega
      · intro j
        rw [List.mem_cons, ih2 j, hmem j]
        constructor
        · rintro (rfl | ⟨h1, h2⟩)
          · exact ⟨le_rfl, y, by simp, hc⟩
          · exact ⟨by omega, h2⟩
        · rintro ⟨h1, x, hx, hcx⟩
          by_cases hji : j = i
          · exact Or.inl hji
          · exact Or.inr ⟨by omega, x, hx, hcx⟩
    · refine ⟨ih1, ?_⟩
      intro j
      rw [ih2 j, hmem j]
      constructor
      · rintro ⟨h1, h2⟩
        exact ⟨by omega, h2⟩
      · rintro ⟨h1, x, hx, hcx⟩
        by_cases hji : j = i
        · subst hji
          simp only [Nat.sub_self, List.getElem?_cons_zero, Option.some.injEq] at hx
          subst hx
          exact absurd hcx hc
        · exact ⟨by omega, x, hx, hcx⟩

theorem mem_where_idx (c : Process → Bool) (p : List Process) (j : Nat) :
    j ∈ where_idx c p 0 ↔ ∃ x, p[j]? = some x ∧ c x = true := by
  have := (where_idx_spec c p 0).2 j
  simpa using this

theorem where_idx_sorted (c : Process → Bool) (p : List Process) :
    (where_idx c p 0).Pairwise (· < ·) := (where_idx_spec c p 0).1

theorem where_idx_nodup (c : Process → Bool) (p : List Process) :
    (where_idx c p 0).Nodup :=
  (where_idx_sorted c p).imp (fun h => Nat.ne_of_lt h)

theorem enqueue_where_toList (c : Process → Bool) (l : List Process) :
    ∀ (i : Nat) (Q : Queue), QWF Q → Q.toList.length + (where_idx c l i).length ≤ MAXP →
      (enqueue_where c l i Q).toList = Q.toList ++ where_idx c l i ∧
        QWF (enqueue_where c l i Q) := by
  induction l with
  | nil => intro i Q h _; simp [enqueue_where, where_idx, h]
  | cons y rest ih =>
    intro i Q h hcap
    unfold enqueue_where where_idx
    unfold where_idx at hcap
    split_ifs at hcap ⊢ with hc
    · simp only [List.length_cons] at hcap
      obtain ⟨h1, h2⟩ := q_push_toList Q i h (by omega)
      obtain ⟨h3, h4⟩ := ih (i + 1) (q_push Q i) h2 (by rw [h1]; simp; omega)
      refine ⟨?_, h4⟩
      rw [h3, h1]; simp
    · exact ih (i + 1) Q h hcap

/-- A list of distinct indices below `n` has at most `n` entries. -/
theorem length_le_of_nodup_lt (l : List Nat) (n : Nat) (hnd : l.Nodup)
    (hlt : ∀ j ∈ l, j < n) : l.length ≤ n := by
  have hsub : l ⊆ List.range n := fun j hj => List.mem_range.mpr (hlt j hj)
  have := (List.subperm_of_subset hnd hsub).length_le
  simpa using this

/-! ## Round-Robin: the loop body, case by case -/

theorem rr_body_idle {quantum : Int} {s : RRState} (he : q_empty s.q = true) :
    rr_body quantum s =
      { s with
        time := next_arrival_time s.p s.time
        q := enqueue_where
          (fun x => decide (x.arrival = next_arrival_time s.p s.time ∧ x.remaining > 0))
          s.p 0 s.q } := by
  unfold rr_body
  rw [if_pos he]

theorem rr_ran_static (quantum time : Int) (x : Process) :
    (rr_ran quantum time x).static = x.static := by
  unfold rr_ran
  split_ifs <;> rfl

theorem rr_ran_remaining (quantum time : Int) (x : Process) :
    (rr_ran quantum time x).remaining = x.remaining - rr_run quantum x := by
  unfold rr_ran
  split_ifs <;> rfl

theorem rr_ran_pid (quantum time : Int) (x : Process) :
    (rr_ran quantum time x).pid = x.pid := by
  unfold rr_ran
  split_ifs <;> rfl

theorem rr_after_static (quantum time : Int) (x : Process) :
    (rr_after quantum time x).static = x.static := by
  unfold rr_after
  split_ifs
  · exact rr_ran_static quantum time x
  · exact rr_ran_static quantum time x

theorem rr_after_remaining (quantum time : Int) (x : Process) :
    (rr_after quantum time x).remaining = x.remaining - rr_run quantum x := by
  unfold rr_after
  split_ifs
  · exact rr_ran_remaining quantum time x
  · exact rr_ran_remaining quantum time x

theorem rr_after_completion (quantum time : Int) (x : Process)
    (h : x.remaining - rr_run quantum x = 0) :
    (rr_after quantum time x).completion_time = time + rr_run quantum x := by
  unfold rr_after
  rw [if_pos h]

theorem rr_run_bounds (quantum : Int) (x : Process) (hq : 1 ≤ quantum)
    (hr : 0 < x.remaining) :
    1 ≤ rr_run quantum x ∧ rr_run quantum x ≤ quantum ∧ rr_run quantum x ≤ x.remaining := by
  unfold rr_run
  split_ifs <;> omega

/-- The body of `rr` when the queue is not empty and its front entry is an unfinished
process: the dispatch, with the two branches of the final test folded into `rr_after`. -/
theorem rr_body_dispatch {quantum : Int} {s : RRState} {x : Process}
    (he : q_empty s.q = false) (hx : s.p[(q_pop s.q).1]? = some x) (hr : 0 < x.remaining) :
    rr_body quantum s =
      { p := s.p.set (q_pop s.q).1 (rr_after quantum s.time x)
        time := s.time + rr_run quantum x
        q := if x.remaining - rr_run quantum x = 0 then
            enqueue_where (rr_arrived s.time (s.time + rr_run quantum x))
              (s.p.set (q_pop s.q).1 (rr_ran quantum s.time x)) 0 (q_pop s.q).2
          else
            q_push (enqueue_where (rr_arrived s.time (s.time + rr_run quantum x))
              (s.p.set (q_pop s.q).1 (rr_ran quantum s.time x)) 0 (q_pop s.q).2)
              (q_pop s.q).1
        completed := s.completed + (if x.remaining - rr_run quantum x = 0 then 1 else 0)
        g := push_event s.g x.pid s.time (s.time + rr_run quantum x)
        slices := s.slices ++ [⟨x.pid, s.time, s.time + rr_run quantum x⟩] } := by
  unfold rr_body
  have hne : ¬ (q_empty s.q = true) := by simp [he]
  rw [if_neg hne]
  simp only [getD_of_getElem? hx]
  have hr2 : ¬ x.remaining ≤ 0 := by omega
  rw [if_neg hr2]
  have h1 : (if x.started = 0 then { x with started := 1, start_time := s.time } else x).remaining
      = x.remaining := by split_ifs <;> rfl
  have h2 : (if x.started = 0 then { x with started := 1, start_time := s.time } else x).pid
      = x.pid := by split_ifs <;> rfl
  by_cases h0 : x.remaining - rr_run quantum x = 0
  · simp only [h0, if_true]
    unfold rr_after rr_ran rr_run at *
    simp only [h1, h2, h0, if_true, List.set_set]
  · simp only [h0, if_false]
    unfold rr_after rr_ran rr_run at *
    simp only [h1, h2, h0, if_false]
    rfl

/-! ## Round-Robin: what a dispatch does to the queue -/

theorem where_idx_congr (c : Process → Bool) (l : List Process) :
    ∀ (l2 : List Process) (i : Nat), l.map c = l2.map c →
      where_idx c l i = where_idx c l2 i := by
  induction l with
  | nil =>
    intro l2 i h
    cases l2 with
    | nil => rfl
    | cons y r => simp at h
  | cons x rest ih =>
    intro l2 i h
    cases l2 with
    | nil => simp at h
    | cons y r =>
      simp only [List.map_cons, List.cons.injEq] at h
      unfold where_idx
      rw [h.1, ih r (i + 1) h.2]

theorem where_idx_set_congr (c : Process → Bool) (l : List Process) (i : Nat) (a b : Process)
    (h : c a = c b) : where_idx c (l.set i a) 0 = where_idx c (l.set i b) 0 := by
  apply where_idx_congr
  rw [List.map_set, List.map_set, h]

theorem pid_ne_of_index_ne {l : List Process} (hnd : (l.map Process.pid).Nodup) {i j : Nat}
    {x y : Process} (hx : l[i]? = some x) (hy : l[j]? = some y) (hij : i ≠ j) :
    x.pid ≠ y.pid := by
  intro hp
  apply hij
  have hi : i < (l.map Process.pid).length := by
    rw [List.length_map]; exact (List.getElem?_eq_some.mp hx).1
  apply List.getElem?_inj hi hnd
  rw [List.getElem?_map, List.getElem?_map, hx, hy]
  simp [hp]

theorem rr_arrived_iff (before time : Int) (x : Process) :
    rr_arrived before time x = true ↔
      x.remaining > 0 ∧ before < x.arrival ∧ x.arrival ≤ time := by
  simp [rr_arrived]

/-- The dispatch step of `rr` in a state with the invariant: the front entry `i` is an
unfinished process `x` that has arrived, and the body does to the state what
`DispatchPost` describes. -/
theorem rr_dispatch_post (p0 : List Process) (hlen : p0.length ≤ MAXP) (quantum : Int)
    (hq : 1 ≤ quantum) (s : RRState) (h : RRInv p0 quantum s) (he : q_empty s.q = false) :
    ∃ i rest x, s.q.toList = i :: rest ∧ s.p[i]? = some x ∧ 0 < x.remaining ∧
      x.arrival ≤ s.time ∧ DispatchPost quantum s (rr_body quantum s) i rest x := by
  have hfb : s.q.front < s.q.back := by
    have := h.qwf.2
    unfold q_empty at he
    simp only [beq_eq_false_iff_ne, ne_eq] at he
    omega
  obtain ⟨hL, hwf1⟩ := q_pop_toList s.q h.qwf hfb
  have hiL : (q_pop s.q).1 ∈ s.q.toList := by rw [hL]; simp
  obtain ⟨x, hx, hxr, hxa⟩ := h.qready _ hiL
  have hbody := @rr_body_dispatch quantum s x he hx hxr
  have hnd := h.qnodup
  rw [hL] at hnd
  have hqready := h.qready
  rw [hL] at hqready
  generalize (q_pop s.q).1 = i at *
  generalize (q_pop s.q).2 = Q1 at *
  obtain ⟨hrun1, hrunq, hrunr⟩ := rr_run_bounds quantum x hq hxr
  obtain ⟨hi_rest, hnd_rest⟩ := List.nodup_cons.mp hnd
  have hn : s.p.length ≤ MAXP := by rw [length_of_static h.static]; exact hlen
  have hilt : i < s.p.length := (List.getElem?_eq_some.mp hx).1
  -- the arrivals of the step, read from the array the loop sees
  have hA : ∀ j, j ∈ where_idx (rr_arrived s.time (s.time + rr_run quantum x))
      (s.p.set i (rr_ran quantum s.time x)) 0 →
      j ≠ i ∧ ∃ y, s.p[j]? = some y ∧ s.time < y.arrival := by
    intro j hj
    obtain ⟨y, hy, hc⟩ := (mem_where_idx _ _ j).mp hj
    rw [rr_arrived_iff] at hc
    have hji : j ≠ i := by
      intro hji
      subst hji
      rw [List.getElem?_set, if_pos rfl, if_pos hilt] at hy
      cases hy
      have h1 : (rr_ran quantum s.time x).arrival = x.arrival :=
        congrArg (fun st => st.2.1) (rr_ran_static quantum s.time x)
      omega
    refine ⟨hji, y, ?_, hc.2.1⟩
    rw [List.getElem?_set, if_neg (fun h' => hji h'.symm)] at hy
    exact hy
  have hdisj : ∀ j, j ∈ Q1.toList → j ∉ where_idx
      (rr_arrived s.time (s.time + rr_run quantum x))
      (s.p.set i (rr_ran quantum s.time x)) 0 := by
    intro j hj hjA
    obtain ⟨-, y, hy, hya⟩ := hA j hjA
    obtain ⟨y2, hy2, -, hy2a⟩ := hqready j (List.mem_cons_of_mem _ hj)
    rw [hy] at hy2
    cases hy2
    omega
  have hall_nd : (Q1.toList ++ where_idx (rr_arrived s.time (s.time + rr_run quantum x))
      (s.p.set i (rr_ran quantum s.time x)) 0 ++ [i]).Nodup := by
    rw [List.nodup_append]
    refine ⟨?_, List.nodup_singleton i, ?_⟩
    · rw [List.nodup_append]
      exact ⟨hnd_rest, where_idx_nodup _ _, fun j hj hjA => hdisj j hj hjA⟩
    · intro j hj hji
      simp only [List.mem_singleton] at hji
      subst hji
      rcases List.mem_append.mp hj with hj | hj
      · exact hi_rest hj
      · exact (hA j hj).1 rfl
  have hall_len : (Q1.toList ++ where_idx (rr_arrived s.time (s.time + rr_run quantum x))
      (s.p.set i (rr_ran quantum s.time x)) 0 ++ [i]).length ≤ MAXP := by
    refine le_trans (length_le_of_nodup_lt _ s.p.length hall_nd ?_) hn
    intro j hj
    rcases List.mem_append.mp hj with hj | hj
    · rcases List.mem_append.mp hj with hj | hj
      · obtain ⟨y, hy, -⟩ := hqready j (List.mem_cons_of_mem _ hj)
        exact (List.getElem?_eq_some.mp hy).1
      · obtain ⟨-, y, hy, -⟩ := hA j hj
        exact (List.getElem?_eq_some.mp hy).1
    · simp only [List.mem_singleton] at hj
      subst hj
      exact hilt
  simp only [List.length_append, List.length_singleton] at hall_len
  obtain ⟨hQ2, hwf2⟩ := enqueue_where_toList
    (rr_arrived s.time (s.time + rr_run quantum x))
    (s.p.set i (rr_ran quantum s.time x)) 0 Q1 hwf1 (by omega)
  have hsame : where_idx (rr_arrived s.time (s.time + rr_run quantum x))
      (s.p.set i (rr_ran quantum s.time x)) 0 =
      where_idx (rr_arrived s.time (s.time + rr_run quantum x))
      (s.p.set i (rr_after quantum s.time x)) 0 := by
    apply where_idx_set_congr
    unfold rr_after
    split_ifs
    · rfl
    · rfl
  refine ⟨i, Q1.toList, x, hL, hx, hxr, hxa, ?_⟩
  rw [hbody]
  by_cases h0 : x.remaining - rr_run quantum x = 0
  · refine
      { time := rfl
        procs := rfl
        qwf := ?_
        qnodup := ?_
        queue := ?_
        completed := rfl
        slices := rfl
        chart := rfl }
    · simp only [h0, if_true]
      exact hwf2
    · simp only [h0, if_true]
      rw [hQ2]
      exact (List.nodup_append.mp hall_nd).1
    · simp only [h0, if_true]
      rw [hQ2, hsame]
      simp
  · obtain ⟨hQ3, hwf3⟩ := q_push_toList _ i hwf2
      (by rw [hQ2, List.length_append]; omega)
    refine
      { time := rfl
        procs := rfl
        qwf := ?_
        qnodup := ?_
        queue := ?_
        completed := rfl
        slices := rfl
        chart := rfl }
    · simp only [h0, if_false]
      exact hwf3
    · simp only [h0, if_false]
      rw [hQ3, hQ2]
      exact hall_nd
    · simp only [h0, if_false]
      rw [hQ3, hQ2, hsame]

/-! ## Round-Robin: the invariant -/

theorem static_fields {x y : Process} (h : x.static = y.static) :
    x.pid = y.pid ∧ x.arrival = y.arrival ∧ x.burst = y.burst ∧ x.priority = y.priority := by
  simpa [Process.static] using h

theorem slice_total_append (pid : Int) (sl : List GanttEvent) (e : GanttEvent) :
    slice_total pid (sl ++ [e]) =
      slice_total pid sl + (if e.pid = pid then e.end_ - e.start else 0) := by
  unfold slice_total
  rw [List.filter_append, List.map_append, List.sum_append]
  by_cases h : e.pid = pid
  · simp [h]
  · simp [h]

theorem rr_inv_of_dispatch (p0 : List Process) (hnd : (p0.map Process.pid).Nodup)
    (hb : ∀ x ∈ p0, 1 ≤ x.burst) (quantum : Int) (hq : 1 ≤ quantum) (s t : RRState)
    (h : RRInv p0 quantum s) (i : Nat) (rest : List Nat) (x : Process)
    (hL : s.q.toList = i :: rest) (hx : s.p[i]? = some x) (hxr : 0 < x.remaining)
    (hxa : x.arrival ≤ s.time) (hd : DispatchPost quantum s t i rest x) :
    RRInv p0 quantum t := by
  obtain ⟨hrun1, hrunq, hrunr⟩ := rr_run_bounds quantum x hq hxr
  have hilt : i < s.p.length := (List.getElem?_eq_some.mp hx).1
  have hxm : x ∈ s.p := List.getElem?_mem hx
  obtain ⟨hpid3, harr3, hburst3, -⟩ := static_fields (rr_after_static quantum s.time x)
  have hrem3 := rr_after_remaining quantum s.time x
  have htp : ∀ j, t.p[j]? = if i = j then some (rr_after quantum s.time x) else s.p[j]? := by
    intro j
    rw [hd.procs, List.getElem?_set]
    split_ifs
    · rfl
    · rfl
  have hmem : ∀ y ∈ t.p, y = rr_after quantum s.time x ∨
      (y ∈ s.p ∧ ∃ j, j ≠ i ∧ s.p[j]? = some y) := by
    intro y hy
    rw [hd.procs] at hy
    exact mem_set_cases hy
  have hnd2 : (s.p.map Process.pid).Nodup := pid_nodup_of_static h.static hnd
  have hxrun := h.run x hxm
  have hbx : 1 ≤ x.burst := by
    have := forall_of_static_perm (fun st => 1 ≤ st.2.2.1) (List.Perm.of_eq h.static) hb
    exact this x hxm
  have htime : t.time = s.time + rr_run quantum x := hd.time
  refine
    { static := ?_
      qwf := hd.qwf
      qnodup := hd.qnodup
      qready := ?_
      qall := ?_
      run := ?_
      count := ?_
      slen := ?_
      ssum := ?_ }
  · rw [hd.procs, ← h.static]
    apply map_static_set
    intro x2 hx2
    rw [hx] at hx2
    cases hx2
    exact rr_after_static quantum s.time x
  · intro j hj
    rw [hd.queue] at hj
    rcases List.mem_append.mp hj with hj | hj
    · rcases List.mem_append.mp hj with hj | hj
      · have hji : j ≠ i := by
          intro hji
          have := h.qnodup
          rw [hL] at this
          exact (List.nodup_cons.mp this).1 (hji ▸ hj)
        obtain ⟨y, hy, hyr, hya⟩ := h.qready j (by rw [hL]; exact List.mem_cons_of_mem _ hj)
        refine ⟨y, ?_, hyr, by omega⟩
        rw [htp, if_neg (fun h' => hji h'.symm)]
        exact hy
      · obtain ⟨y, hy, hc⟩ := (mem_where_idx _ _ j).mp hj
        rw [rr_arrived_iff] at hc
        exact ⟨y, hy, hc.1, hc.2.2⟩
    · split_ifs at hj with h0
      · simp at hj
      · simp only [List.mem_singleton] at hj
        subst hj
        refine ⟨rr_after quantum s.time x, ?_, by omega, by omega⟩
        rw [htp, if_pos rfl]
  · intro j y hy hyr hya
    rw [hd.queue]
    rw [htp] at hy
    split_ifs at hy with hij
    · cases hy
      subst hij
      have h0 : ¬ x.remaining - rr_run quantum x = 0 := by omega
      rw [if_neg h0]
      simp
    · by_cases hold : y.arrival ≤ s.time
      · have := h.qall j y hy hyr hold
        rw [hL] at this
        rcases List.mem_cons.mp this with hji | hjr
        · exact absurd hji.symm hij
        · simp [hjr]
      · have : j ∈ where_idx (rr_arrived s.time t.time) t.p 0 := by
          rw [mem_where_idx]
          refine ⟨y, ?_, ?_⟩
          · rw [htp, if_neg hij]; exact hy
          · rw [rr_arrived_iff]; omega
        simp [this]
  · intro y hy
    rcases hmem y hy with rfl | ⟨hy2, -⟩
    · refine ⟨by omega, by omega, ?_, ?_⟩
      · intro _
        have := hxrun.2.2.1
        rw [hrem3, harr3, hburst3, htime]
        by_cases hlt : x.remaining < x.burst
        · have := this hlt; omega
        · omega
      · intro h0
        rw [hrem3] at h0
        rw [rr_after_completion quantum s.time x h0, harr3, hburst3]
        have := hxrun.2.2.1
        by_cases hlt : x.remaining < x.burst
        · have := this hlt; omega
        · omega
    · obtain ⟨h1, h2, h3, h4⟩ := h.run y hy2
      exact ⟨h1, h2, fun hlt => by have := h3 hlt; omega, h4⟩
  · rw [hd.completed, hd.procs]
    by_cases h0 : x.remaining - rr_run quantum x = 0
    · rw [if_pos h0, countP_set_finish s.p i x _ hx
        (by simp [finished]; omega) (by simp [finished, hrem3, h0]), h.count]
    · rw [if_neg h0, countP_set_same s.p i x _ hx
        (by simp only [finished, hrem3]; simp [h0]; omega), h.count]
      rfl
  · intro e hemem
    rw [hd.slices] at hemem
    rcases List.mem_append.mp hemem with hemem | hemem
    · exact h.slen e hemem
    · simp only [List.mem_singleton] at hemem
      subst hemem
      show 1 ≤ t.time - s.time ∧ t.time - s.time ≤ quantum
      omega
  · intro y hy
    rw [hd.slices, slice_total_append]
    show _ + (if x.pid = y.pid then t.time - s.time else 0) = _
    rcases hmem y hy with rfl | ⟨hy2, j, hji, hj⟩
    · rw [if_pos hpid3.symm, hpid3, h.ssum x hxm, hrem3, hburst3]
      omega
    · have hne : x.pid ≠ y.pid := pid_ne_of_index_ne hnd2 hx hj (fun h' => hji h'.symm)
      rw [if_neg hne, h.ssum y hy2]
      omega

theorem rr_inv_idle (p0 : List Process) (hlen : p0.length ≤ MAXP)
    (hr : ∀ x ∈ p0, x.arrival < INT_MAX) (quantum : Int) (s : RRState)
    (h : RRInv p0 quantum s) (he : q_empty s.q = true) :
    RRInv p0 quantum (rr_body quantum s) ∧
      (rr_body quantum s).q.toList = where_idx
        (fun x => decide (x.arrival = next_arrival_time s.p s.time ∧ x.remaining > 0)) s.p 0 ∧
      (rr_body quantum s).p = s.p := by
  have hL : s.q.toList = [] := (q_empty_iff s.q h.qwf).mp he
  have hn : s.p.length ≤ MAXP := by rw [length_of_static h.static]; exact hlen
  have hge := next_arrival_time_ge s.p s.time
  have hcap : (where_idx
      (fun x => decide (x.arrival = next_arrival_time s.p s.time ∧ x.remaining > 0))
      s.p 0).length ≤ MAXP := by
    refine le_trans (length_le_of_nodup_lt _ s.p.length (where_idx_nodup _ _) ?_) hn
    intro j hj
    obtain ⟨y, hy, -⟩ := (mem_where_idx _ _ j).mp hj
    exact (List.getElem?_eq_some.mp hy).1
  obtain ⟨hQ, hwf⟩ := enqueue_where_toList
    (fun x => decide (x.arrival = next_arrival_time s.p s.time ∧ x.remaining > 0))
    s.p 0 s.q h.qwf (by rw [hL]; simpa using hcap)
  rw [hL, List.nil_append] at hQ
  rw [rr_body_idle he]
  refine ⟨?_, hQ, rfl⟩
  refine
    { static := h.static
      qwf := hwf
      qnodup := ?_
      qready := ?_
      qall := ?_
      run := ?_
      count := h.count
      slen := h.slen
      ssum := h.ssum }
  · show (enqueue_where _ s.p 0 s.q).toList.Nodup
    rw [hQ]; exact where_idx_nodup _ _
  · intro j hj
    have hj2 : j ∈ (enqueue_where
        (fun x => decide (x.arrival = next_arrival_time s.p s.time ∧ x.remaining > 0))
        s.p 0 s.q).toList := hj
    rw [hQ, mem_where_idx] at hj2
    obtain ⟨y, hy, hc⟩ := hj2
    simp only [decide_eq_true_eq] at hc
    exact ⟨y, hy, hc.2, le_of_eq hc.1⟩
  · intro j y hy hyr hya
    show j ∈ (enqueue_where _ s.p 0 s.q).toList
    rw [hQ, mem_where_idx]
    refine ⟨y, hy, ?_⟩
    simp only [decide_eq_true_eq]
    have hya2 : y.arrival ≤ next_arrival_time s.p s.time := hya
    have hlate : s.time < y.arrival := by
      by_contra hcon
      have := h.qall j y hy hyr (by omega)
      rw [hL] at this
      simp at this
    have hr2 : ∀ x ∈ s.p, x.arrival < INT_MAX :=
      forall_of_static_perm (fun st => st.2.1 < INT_MAX) (List.Perm.of_eq h.static) hr
    obtain ⟨-, -, hleast⟩ := next_arrival_time_least s.p s.time hr2
      ⟨y, List.getElem?_mem hy, hyr, hlate⟩
    have := hleast y (List.getElem?_mem hy) hyr hlate
    exact ⟨by omega, hyr⟩
  · intro y hy
    obtain ⟨h1, h2, h3, h4⟩ := h.run y hy
    refine ⟨h1, h2, fun hlt => ?_, h4⟩
    have := h3 hlt
    show _ ≤ next_arrival_time s.p s.time
    omega

theorem rr_inv_step (p0 : List Process) (hv : ValidWorkload p0) (quantum : Int)
    (hq : 1 ≤ quantum) (s : RRState) (h : RRInv p0 quantum s) :
    RRInv p0 quantum (rr_body quantum s) := by
  obtain ⟨-, hlen, hnd, hr⟩ := hv
  cases he : q_empty s.q with
  | true =>
    exact (rr_inv_idle p0 hlen (fun x hx => (input_range_bounds (hr x hx)).2.1)
      quantum s h he).1
  | false =>
    obtain ⟨i, rest, x, hL, hx, hxr, hxa, hd⟩ := rr_dispatch_post p0 hlen quantum hq s h he
    exact rr_inv_of_dispatch p0 hnd (fun x hx => (input_range_bounds (hr x hx)).2.2.1)
      quantum hq s _ h i rest x hL hx hxr hxa hd

theorem rr_inv_init (p0 : List Process) (hv : ValidWorkload p0) (quantum : Int) :
    RRInv p0 quantum (rr_init p0) := by
  obtain ⟨-, hlen, hnd, hr⟩ := hv
  have hrun : ∀ x ∈ reset_stats p0, x.remaining = x.burst ∧ 1 ≤ x.burst := by
    intro x hx
    unfold reset_stats at hx
    obtain ⟨y, hy, rfl⟩ := List.mem_map.mp hx
    exact ⟨rfl, (input_range_bounds (hr y hy)).2.2.1⟩
  have hn : (reset_stats p0).length ≤ MAXP := by rw [length_reset_stats]; exact hlen
  have hwf0 : QWF q_init := ⟨by simp [q_init], le_rfl⟩
  have hL0 : q_init.toList = [] := by simp [Queue.toList, q_init]
  have hcap : (where_idx (fun x => decide (x.arrival = earliest_arrival (reset_stats p0)))
      (reset_stats p0) 0).length ≤ MAXP := by
    refine le_trans (length_le_of_nodup_lt _ (reset_stats p0).length (where_idx_nodup _ _) ?_) hn
    intro j hj
    obtain ⟨y, hy, -⟩ := (mem_where_idx _ _ j).mp hj
    exact (List.getElem?_eq_some.mp hy).1
  obtain ⟨hQ, hwf⟩ := enqueue_where_toList
    (fun x => decide (x.arrival = earliest_arrival (reset_stats p0)))
    (reset_stats p0) 0 q_init hwf0 (by rw [hL0]; simpa using hcap)
  rw [hL0, List.nil_append] at hQ
  have hmin := (earliest_scan_spec (reset_stats p0) INT_MAX).2.1
  refine
    { static := static_reset_stats p0
      qwf := hwf
      qnodup := ?_
      qready := ?_
      qall := ?_
      run := ?_
      count := ?_
      slen := fun e he => absurd he (List.not_mem_nil e)
      ssum := ?_ }
  · show (enqueue_where _ (reset_stats p0) 0 q_init).toList.Nodup
    rw [hQ]; exact where_idx_nodup _ _
  · intro j hj
    have hj2 : j ∈ (enqueue_where
        (fun x => decide (x.arrival = earliest_arrival (reset_stats p0)))
        (reset_stats p0) 0 q_init).toList := hj
    rw [hQ, mem_where_idx] at hj2
    obtain ⟨y, hy, hc⟩ := hj2
    simp only [decide_eq_true_eq] at hc
    have := hrun y (List.getElem?_mem hy)
    exact ⟨y, hy, by omega, le_of_eq hc⟩
  · intro j y hy hyr hya
    show j ∈ (enqueue_where _ (reset_stats p0) 0 q_init).toList
    rw [hQ, mem_where_idx]
    refine ⟨y, hy, ?_⟩
    simp only [decide_eq_true_eq]
    have h1 : earliest_arrival (reset_stats p0) ≤ y.arrival := hmin y (List.getElem?_mem hy)
    have h2 : y.arrival ≤ earliest_arrival (reset_stats p0) := hya
    omega
  · intro y hy
    have := hrun y hy
    exact ⟨by omega, by omega, fun hlt => by omega, fun h0 => by omega⟩
  · show 0 = (reset_stats p0).countP finished
    symm
    rw [List.countP_eq_zero]
    intro y hy hf
    have := hrun y hy
    rw [finished_iff] at hf
    omega
  · intro y hy
    have := hrun y hy
    show slice_total y.pid [] = _
    simp [slice_total]
    omega

theorem rr_state_inv (p0 : List Process) (hv : ValidWorkload p0) (quantum : Int)
    (hq : 1 ≤ quantum) (k : Nat) : RRInv p0 quantum (rr_state quantum p0 k) := by
  unfold rr_state
  exact iterate_invariant (rr_body quantum) (RRInv p0 quantum)
    (fun s hs => rr_inv_step p0 hv quantum hq s hs) (rr_init p0) (rr_inv_init p0 hv quantum) k

/-! ## Round-Robin: termination -/

theorem sum_map_set (f : Process → Nat) (l : List Process) (i : Nat) (x a : Process)
    (hx : l[i]? = some x) :
    ((l.set i a).map f).sum + f x = (l.map f).sum + f a := by
  induction l generalizing i with
  | nil => simp at hx
  | cons y rest ih =>
    cases i with
    | zero =>
      simp only [List.getElem?_cons_zero, Option.some.injEq] at hx
      subst hx
      simp only [List.set_cons_zero, List.map_cons, List.sum_cons]
      omega
    | succ i =>
      simp only [List.getElem?_cons_succ] at hx
      have := ih i hx
      simp only [List.set_cons_succ, List.map_cons, List.sum_cons]
      omega

theorem rr_exists_unfinished (p0 : List Process) (quantum : Int) (s : RRState)
    (h : RRInv p0 quantum s) (hc : rr_cond s = true) : ∃ z ∈ s.p, 0 < z.remaining := by
  have h1 : s.completed < s.p.length := by simpa [rr_cond] using hc
  by_contra hcon
  push_neg at hcon
  have hall : ∀ z ∈ s.p, finished z = true := by
    intro z hz
    rw [finished_iff]
    have := hcon z hz
    have := (h.run z hz).1
    omega
  have := List.countP_eq_length.mpr hall
  rw [← h.count] at this
  omega

theorem rr_measure_step (p0 : List Process) (hv : ValidWorkload p0) (quantum : Int)
    (hq : 1 ≤ quantum) (s : RRState) (h : RRInv p0 quantum s) (hc : rr_cond s = true) :
    rr_measure (rr_body quantum s) < rr_measure s := by
  obtain ⟨-, hlen, hnd, hr⟩ := hv
  cases he : q_empty s.q with
  | true =>
    have hra : ∀ x ∈ p0, x.arrival < INT_MAX := fun x hx => (input_range_bounds (hr x hx)).2.1
    obtain ⟨hinv, hQ, hp⟩ := rr_inv_idle p0 hlen hra quantum s h he
    have hL : s.q.toList = [] := (q_empty_iff s.q h.qwf).mp he
    obtain ⟨z, hz, hzr⟩ := rr_exists_unfinished p0 quantum s h hc
    obtain ⟨jz, hjz⟩ := List.mem_iff_getElem?.mp hz
    have hlate : s.time < z.arrival := by
      by_contra hcon
      have := h.qall jz z hjz hzr (by omega)
      rw [hL] at this
      simp at this
    have hr2 : ∀ x ∈ s.p, x.arrival < INT_MAX :=
      forall_of_static_perm (fun st => st.2.1 < INT_MAX) (List.Perm.of_eq h.static) hra
    obtain ⟨-, ⟨w, hw, hwr, hwa⟩, -⟩ := next_arrival_time_least s.p s.time hr2
      ⟨z, hz, hzr, hlate⟩
    obtain ⟨jw, hjw⟩ := List.mem_iff_getElem?.mp hw
    have hmem : jw ∈ (rr_body quantum s).q.toList := by
      rw [hQ, mem_where_idx]
      exact ⟨w, hjw, by simp [hwa]; exact hwr⟩
    have hne : q_empty (rr_body quantum s).q = false := by
      cases hcase : q_empty (rr_body quantum s).q with
      | false => rfl
      | true =>
        have := (q_empty_iff _ hinv.qwf).mp hcase
        rw [this] at hmem
        simp at hmem
    unfold rr_measure
    rw [hne, he, hp]
    simp
  | false =>
    obtain ⟨i, rest, x, hL, hx, hxr, hxa, hd⟩ := rr_dispatch_post p0 hlen quantum hq s h he
    obtain ⟨hrun1, hrunq, hrunr⟩ := rr_run_bounds quantum x hq hxr
    have hsum := sum_map_set (fun y => y.remaining.toNat) s.p i x
      (rr_after quantum s.time x) hx
    beta_reduce at hsum
    have hrem3 := rr_after_remaining quantum s.time x
    unfold rr_measure
    rw [hd.procs, he]
    simp only [Bool.false_eq_true, if_false]
    have h3 : (rr_after quantum s.time x).remaining.toNat + 1 ≤ x.remaining.toNat := by
      rw [hrem3]; omega
    split_ifs <;> omega

/-- Every valid workload is run to the end by the main loop of `rr` with a quantum of at
least 1: with `rr_fuel p0` units of fuel or more the loop returns one and the same state,
which satisfies the invariant, has every process finished, and is reached by iterating
the body. -/
theorem rr_terminates (p0 : List Process) (hv : ValidWorkload p0) (quantum : Int)
    (hq : 1 ≤ quantum) :
    ∃ r, (∀ fuel, rr_fuel p0 ≤ fuel → rr_loop quantum fuel (rr_init p0) = some r) ∧
      RRInv p0 quantum r ∧ (∀ x ∈ r.p, x.remaining = 0) ∧
      ∃ k, r = rr_state quantum p0 k := by
  have hinit := rr_inv_init p0 hv quantum
  have hμ : rr_measure (rr_init p0) < rr_fuel p0 := by
    unfold rr_measure rr_fuel
    have : (rr_init p0).p.map (fun x => x.remaining.toNat) =
        p0.map (fun x => x.burst.toNat) := by
      show (reset_stats p0).map _ = _
      simp [reset_stats, Function.comp_def]
    rw [this]
    split_ifs <;> omega
  obtain ⟨r, hloop, hinv, hcond, k, hk, -, -⟩ :=
    while_loop_terminates rr_cond (rr_body quantum) (RRInv p0 quantum) rr_measure
      (fun s hs hc => ⟨rr_inv_step p0 hv quantum hq s hs,
        rr_measure_step p0 hv quantum hq s hs hc⟩)
      (rr_fuel p0) (rr_init p0) hinit hμ
  refine ⟨r, ?_, hinv, ?_, k, hk⟩
  · intro fuel hf
    exact while_loop_mono _ _ _ _ _ hloop fuel hf
  · have hle : r.p.countP finished ≤ r.p.length := List.countP_le_length _
    have hcomp : ¬ r.completed < r.p.length := by simpa [rr_cond] using hcond
    have hcount := hinv.count
    have hall := List.countP_eq_length.mp (by omega : r.p.countP finished = r.p.length)
    exact fun x hx => (finished_iff x).mp (hall x hx)

/-! ## Round-Robin: dispatch lengths, slice sums, queue order -/

theorem rr_run_eq_min (quantum : Int) (x : Process) :
    rr_run quantum x = min x.remaining quantum := by
  unfold rr_run
  rw [min_def]
  split_ifs <;> omega

theorem pid_of_static_eq {l p : List Process}
    (h : l.map Process.static = p.map Process.static) :
    l.map Process.pid = p.map Process.pid := by
  have h1 : l.map Process.pid = (l.map Process.static).map (fun s => s.1) := by
    simp [Function.comp_def, Process.static]
  have h2 : p.map Process.pid = (p.map Process.static).map (fun s => s.1) := by
    simp [Function.comp_def, Process.static]
  rw [h1, h, ← h2]

theorem dispatch_runs (p0 : List Process) (hv : ValidWorkload p0) (quantum : Int)
    (hq : 1 ≤ quantum) (s : RRState) (h : RRInv p0 quantum s) : DispatchRuns quantum s := by
  intro he
  obtain ⟨i, rest, x, hL, hx, hxr, hxa, hd⟩ := rr_dispatch_post p0 hv.2.1 quantum hq s h he
  have hfb : s.q.front < s.q.back := by
    have := h.qwf.2
    unfold q_empty at he
    simp only [beq_eq_false_iff_ne, ne_eq] at he
    omega
  have hi : (q_pop s.q).1 = i := by
    have := (q_pop_toList s.q h.qwf hfb).1
    rw [hL] at this
    exact (List.cons.inj this).1.symm
  obtain ⟨hrun1, hrunq, hrunr⟩ := rr_run_bounds quantum x hq hxr
  rw [hi]
  refine ⟨x, rr_after quantum s.time x, ?_⟩
  rw [← rr_run_eq_min]
  refine ⟨hx, hxr, hrun1, hrunq, hd.time, ?_,
    rr_after_remaining quantum s.time x, ?_, ?_⟩
  · rw [hd.procs, List.getElem?_set, if_pos rfl, if_pos (List.getElem?_eq_some.mp hx).1]
  · rw [hd.slices, hd.time]
  · rw [hd.chart, hd.time]

theorem pairwise_getElem? {α : Type} {R : α → α → Prop} {l : List α} (h : l.Pairwise R)
    {i j : Nat} {a b : α} (hij : i < j) (ha : l[i]? = some a) (hb : l[j]? = some b) :
    R a b := by
  obtain ⟨hi, rfl⟩ := List.getElem?_eq_some.mp ha
  obtain ⟨hj, rfl⟩ := List.getElem?_eq_some.mp hb
  exact List.pairwise_iff_getElem.mp h i j hi hj hij

theorem dispatch_enqueues (p0 : List Process) (hv : ValidWorkload p0) (quantum : Int)
    (hq : 1 ≤ quantum) (s : RRState) (h : RRInv p0 quantum s) :
    DispatchEnqueues quantum s := by
  intro he
  obtain ⟨i, rest, x, hL, hx, hxr, hxa, hd⟩ := rr_dispatch_post p0 hv.2.1 quantum hq s h he
  obtain ⟨hrun1, hrunq, hrunr⟩ := rr_run_bounds quantum x hq hxr
  have hinv2 := rr_inv_step p0 hv quantum hq s h
  have hrem3 := rr_after_remaining quantum s.time x
  refine ⟨i, rest, x, rr_after quantum s.time x,
    where_idx (rr_arrived s.time (rr_body quantum s).time) (rr_body quantum s).p 0,
    hL, hx, hxr, ?_, ?_, where_idx_sorted _ _, ?_, ?_⟩
  · rw [hd.procs, List.getElem?_set, if_pos rfl, if_pos (List.getElem?_eq_some.mp hx).1]
  · rw [hd.queue, hrem3]
    congr 1
    by_cases h0 : x.remaining - rr_run quantum x = 0
    · rw [if_pos h0, if_neg (by omega)]
    · rw [if_neg h0, if_pos (by omega)]
  · intro j
    rw [mem_where_idx]
    constructor
    · rintro ⟨y, hy, hc⟩
      rw [rr_arrived_iff] at hc
      exact ⟨y, hy, hc.1, hc.2.1, hc.2.2⟩
    · rintro ⟨y, hy, h1, h2, h3⟩
      exact ⟨y, hy, (rr_arrived_iff _ _ _).mpr ⟨h1, h2, h3⟩⟩
  · intro hsorted
    have hpids : (rr_body quantum s).p.map Process.pid = s.p.map Process.pid :=
      pid_of_static_eq (hinv2.static.trans h.static.symm)
    have hsorted2 : (rr_body quantum s).p.Pairwise (fun a b => a.pid < b.pid) := by
      have h1 : (s.p.map Process.pid).Pairwise (· < ·) := List.pairwise_map.mpr hsorted
      rw [← hpids] at h1
      exact List.pairwise_map.mp h1
    rw [List.pairwise_map]
    refine List.Pairwise.imp_of_mem ?_ (where_idx_sorted _ _)
    intro a b ha hb hab
    obtain ⟨ya, hya, -⟩ := (mem_where_idx _ _ a).mp ha
    obtain ⟨yb, hyb, -⟩ := (mem_where_idx _ _ b).mp hb
    rw [getD_of_getElem? hya, getD_of_getElem? hyb]
    exact pairwise_getElem? hsorted2 hab hya hyb

/-- C2: on a valid workload with a quantum of at least 1, the loop of `rr` ends (for every
fuel from `rr_fuel p` on, in one and the same state `r`); every slice handed to
`push_event` lasts between 1 and `quantum` time units; for every process the durations of
its slices add up to its burst; and in every iteration that dispatches, the run is
`min(remaining, quantum)`. -/
theorem rr_slices_sum_to_burst (p : List Process) (hv : ValidWorkload p) (quantum : Int)
    (hq : 1 ≤ quantum) :
    (∃ r, (∀ fuel, rr_fuel p ≤ fuel → rr_loop quantum fuel (rr_init p) = some r) ∧
      r.p.map Process.static = p.map Process.static ∧
      (∀ e ∈ r.slices, 1 ≤ e.end_ - e.start ∧ e.end_ - e.start ≤ quantum) ∧
      (∀ x ∈ r.p, slice_total x.pid r.slices = x.burst)) ∧
    (∀ k, DispatchRuns quantum (rr_state quantum p k)) := by
  refine ⟨?_, fun k => dispatch_runs p hv quantum hq _ (rr_state_inv p hv quantum hq k)⟩
  obtain ⟨r, hloop, hinv, hfin, -⟩ := rr_terminates p hv quantum hq
  refine ⟨r, hloop, hinv.static, hinv.slen, ?_⟩
  intro x hx
  rw [hinv.ssum x hx, hfin x hx]
  omega

/-- C2 on the example workload with quantum 2. -/
theorem rr_slices_sum_to_burst_witness :
    ValidWorkload example_workload ∧ (1 : Int) ≤ 2 ∧
    (∃ r, (∀ fuel, rr_fuel example_workload ≤ fuel →
        rr_loop 2 fuel (rr_init example_workload) = some r) ∧
      r.p.map Process.static = example_workload.map Process.static ∧
      (∀ e ∈ r.slices, 1 ≤ e.end_ - e.start ∧ e.end_ - e.start ≤ 2) ∧
      (∀ x ∈ r.p, slice_total x.pid r.slices = x.burst)) ∧
    (∀ k, DispatchRuns 2 (rr_state 2 example_workload k)) :=
  ⟨by decide, by decide, rr_slices_sum_to_burst example_workload (by decide) 2 (by decide)⟩

/-- The arrival scan goes by array index.  On an array that is not stored in pid order
(which `take_input` never builds, it sets `pid = i + 1`) the first dispatch (index 0,
pid 2, clock 0 to 2) appends the indices 1 and 2 of the two arrivals and then index 0;
their pids are 9, 3, 2. -/
theorem rr_enqueues_by_index_not_pid :
    ValidWorkload unordered_workload ∧
    (rr_init unordered_workload).q.toList = [0] ∧
    (rr_init unordered_workload).time = 0 ∧
    (rr_body 2 (rr_init unordered_workload)).time = 2 ∧
    (rr_body 2 (rr_init unordered_workload)).q.toList = [1, 2, 0] ∧
    (rr_body 2 (rr_init unordered_workload)).q.toList.map
      (fun j => ((rr_body 2 (rr_init unordered_workload)).p.getD j default).pid) = [9, 3, 2] ∧
    ¬ ([9, 3] : List Int).Pairwise (· < ·) := by
  decide

/-- Every dispatch step of `rr` on a valid workload with a quantum of at least 1, whatever
the order in which the array is stored: the entries behind the front entry `i` keep their
order, and behind them are appended exactly the unfinished processes that arrived in
`(old clock, new clock]`, in ascending array index order (which is ascending pid order
when the array is stored in ascending pid order), and after them `i` itself exactly when
`i` is still unfinished. -/
theorem rr_dispatch_enqueue_order (p : List Process) (hv : ValidWorkload p) (quantum : Int)
    (hq : 1 ≤ quantum) (k : Nat) : DispatchEnqueues quantum (rr_state quantum p k) :=
  dispatch_enqueues p hv quantum hq _ (rr_state_inv p hv quantum hq k)


/-! ## Completion, turnaround and waiting time under every policy -/

theorem met_table_row (x : Process) (h : x.arrival + x.burst ≤ x.completion_time) :
    Met (table_row x) := by
  unfold Met table_row
  dsimp only
  omega

theorem met_of_table (l : List Process)
    (h : ∀ x ∈ l, x.arrival + x.burst ≤ x.completion_time) :
    ∀ x ∈ (compute_and_print_table l).1, Met x := by
  intro x hx
  obtain ⟨y, hy, rfl⟩ := List.mem_map.mp hx
  exact met_table_row y (h y hy)

theorem fcfs_met (p : List Process) (hb : ∀ x ∈ p, 1 ≤ x.burst) :
    ∀ x ∈ (fcfs p).procs, Met x := by
  have hb2 : ∀ x ∈ fcfs_sort (reset_stats p).length (reset_stats p), 1 ≤ x.burst :=
    forall_of_static_perm (fun s => 1 ≤ s.2.2.1) (fcfs_sorted_static p) hb
  intro x hx
  rw [fcfs_procs_eq] at hx
  obtain ⟨y, hy, rfl⟩ := List.mem_map.mp hx
  exact met_table_row y ((fcfs_run_completion _ hb2 0 []).1 y hy).2

theorem np_met (key : Process → Int) (hkey : ∀ x, InputRange x → key x < INT_MAX)
    (p : List Process) (hv : ValidWorkload p) :
    ∃ r, (∀ fuel, 2 * p.length + 2 ≤ fuel →
        (np_loop key fuel (np_init p)).map np_result = some r) ∧
      r.procs.map Process.static = p.map Process.static ∧ ∀ x ∈ r.procs, Met x := by
  obtain ⟨s, hloop, hinv, -, hfin, -⟩ := np_terminates key hkey p hv
  refine ⟨np_result s, ?_, ?_, ?_⟩
  · intro fuel hf
    rw [hloop fuel hf]; rfl
  · show (s.p.map table_row).map Process.static = _
    rw [static_map_table_row, hinv.static]
  · apply met_of_table
    intro x hx
    have hbx := (input_range_bounds (range_of_static hinv.static hv.2.2.2 x hx)).2.2.1
    have h0 := hfin x hx
    rcases hinv.run x hx with h1 | ⟨-, h2, h3, -⟩
    · omega
    · omega

theorem rr_met (p : List Process) (hv : ValidWorkload p) (quantum : Int) (hq : 1 ≤ quantum) :
    ∃ r, (∀ fuel, rr_fuel p ≤ fuel → rr fuel p quantum = some r) ∧
      r.procs.map Process.static = p.map Process.static ∧ ∀ x ∈ r.procs, Met x := by
  obtain ⟨s, hloop, hinv, hfin, -⟩ := rr_terminates p hv quantum hq
  refine ⟨⟨(compute_and_print_table s.p).1, s.g, (compute_and_print_table s.p).2⟩, ?_, ?_, ?_⟩
  · intro fuel hf
    unfold rr
    rw [hloop fuel hf]; rfl
  · show (s.p.map table_row).map Process.static = _
    rw [static_map_table_row, hinv.static]
  · apply met_of_table
    intro x hx
    exact (hinv.run x hx).2.2.2 (hfin x hx)

/-- C1: on a valid workload, under each of the four policies (Round-Robin with a quantum
of at least 1) the run ends and every process ends with
`completion_time ≥ arrival + burst`, `turnaround_time ≥ burst` and `waiting_time ≥ 0`
in the table `compute_and_print_table` fills in.  The loops of `sjf_np`, `priority_np`
and `rr` return the result for every fuel from the stated bound on. -/
theorem every_policy_meets_arrival_plus_burst (p : List Process) (hv : ValidWorkload p)
    (quantum : Int) (hq : 1 ≤ quantum) :
    (((fcfs p).procs.map Process.static).Perm (p.map Process.static) ∧
      ∀ x ∈ (fcfs p).procs, Met x) ∧
    (∃ r, (∀ fuel, 2 * p.length + 2 ≤ fuel → sjf_np fuel p = some r) ∧
      r.procs.map Process.static = p.map Process.static ∧ ∀ x ∈ r.procs, Met x) ∧
    (∃ r, (∀ fuel, 2 * p.length + 2 ≤ fuel → priority_np fuel p = some r) ∧
      r.procs.map Process.static = p.map Process.static ∧ ∀ x ∈ r.procs, Met x) ∧
    (∃ r, (∀ fuel, rr_fuel p ≤ fuel → rr fuel p quantum = some r) ∧
      r.procs.map Process.static = p.map Process.static ∧ ∀ x ∈ r.procs, Met x) :=
  ⟨⟨by rw [fcfs_procs_static]; exact fcfs_sorted_static p,
      fcfs_met p (fun x hx => (input_range_bounds (hv.2.2.2 x hx)).2.2.1)⟩,
    np_met _ (fun _ hx => (input_range_bounds hx).2.2.2.1) p hv,
    np_met _ (fun _ hx => (input_range_bounds hx).2.2.2.2) p hv,
    rr_met p hv quantum hq⟩

/-- C1 on the example workload with quantum 2: the four runs, evaluated, and the theorem
applied to them. -/
theorem every_policy_meets_arrival_plus_burst_witness :
    ValidWorkload example_workload ∧ (1 : Int) ≤ 2 ∧
    ((fcfs example_workload).procs.map fun x => (x.pid, x.completion_time, x.waiting_time))
      = [(1, 5, 0), (2, 8, 4), (3, 9, 6)] ∧
    ((sjf_np 8 example_workload).map fun r =>
      r.procs.map fun x => (x.pid, x.completion_time, x.waiting_time))
      = some [(1, 5, 0), (2, 9, 5), (3, 6, 3)] ∧
    ((priority_np 8 example_workload).map fun r =>
      r.procs.map fun x => (x.pid, x.completion_time, x.waiting_time))
      = some [(1, 5, 0), (2, 8, 4), (3, 9, 6)] ∧
    ((rr (rr_fuel example_workload) example_workload 2).map fun r =>
      r.procs.map fun x => (x.pid, x.completion_time, x.waiting_time))
      = some [(1, 9, 4), (2, 8, 4), (3, 5, 2)] ∧
    (∀ x ∈ (fcfs example_workload).procs, Met x) ∧
    (∃ r, (∀ fuel, rr_fuel example_workload ≤ fuel → rr fuel example_workload 2 = some r) ∧
      r.procs.map Process.static = example_workload.map Process.static ∧
      ∀ x ∈ r.procs, Met x) :=
  ⟨by decide, by decide, by decide, by decide, by decide, by decide,
    (every_policy_meets_arrival_plus_burst example_workload (by decide) 2 (by decide)).1.2,
    (every_policy_meets_arrival_plus_burst example_workload (by decide) 2 (by decide)).2.2.2⟩

/-! ## `next_arrival_time` -/

/-- Outside the range of the input: `INT_MAX` is the start value of the scan, so an unfinished
process that arrives at `INT_MAX` (an arrival `take_input` does not admit) is not seen,
and `next_arrival_time` returns the current time 0. -/
theorem next_arrival_time_at_int_max :
    (∃ x ∈ late_workload, 0 < x.remaining ∧ 0 < x.arrival) ∧
    (∀ x ∈ late_workload, 0 < x.remaining → 0 < x.arrival → x.arrival = INT_MAX) ∧
    next_arrival_time late_workload 0 = 0 ∧ next_arrival_time late_workload 0 ≠ INT_MAX := by
  decide

/-- The two results of `next_arrival_time` on any array: when some unfinished process
arrives after `current_time` and before `INT_MAX`, it returns the least arrival among the
unfinished processes that arrive after `current_time`; when there is none (no unfinished
process arrives later, or all that do arrive at `INT_MAX` or beyond), it returns
`current_time`. -/
theorem next_arrival_time_cases (p : List Process) (current_time : Int) :
    ((∃ x ∈ p, 0 < x.remaining ∧ current_time < x.arrival ∧ x.arrival < INT_MAX) →
      (∃ x ∈ p, 0 < x.remaining ∧ current_time < x.arrival ∧
        next_arrival_time p current_time = x.arrival) ∧
      ∀ y ∈ p, 0 < y.remaining → current_time < y.arrival →
        next_arrival_time p current_time ≤ y.arrival) ∧
    ((∀ x ∈ p, 0 < x.remaining → current_time < x.arrival → INT_MAX ≤ x.arrival) →
      next_arrival_time p current_time = current_time) := by
  obtain ⟨h1, h2, h3⟩ := next_arrival_scan_spec current_time p INT_MAX
  constructor
  · rintro ⟨z, hz, hzr, hza, hzm⟩
    have hlt : next_arrival_scan current_time p INT_MAX < INT_MAX :=
      lt_of_le_of_lt (h2 z hz hzr hza) hzm
    have heq : next_arrival_time p current_time = next_arrival_scan current_time p INT_MAX := by
      unfold next_arrival_time
      dsimp only
      rw [if_neg (ne_of_lt hlt)]
    rw [heq]
    refine ⟨?_, fun y hy hyr hya => h2 y hy hyr hya⟩
    rcases h3 with h3 | ⟨x, hx, hxr, hxa, he⟩
    · exact absurd h3 (ne_of_lt hlt)
    · exact ⟨x, hx, hxr, hxa, he⟩
  · intro hall
    have hscan : next_arrival_scan current_time p INT_MAX = INT_MAX := by
      rcases h3 with h3 | ⟨x, hx, hxr, hxa, he⟩
      · exact h3
      · have := hall x hx hxr hxa
        omega
    unfold next_arrival_time
    dsimp only
    rw [if_pos hscan]

/-! ## Round-Robin with a quantum that is not positive -/

theorem rr_body_stale {quantum : Int} {s : RRState} (he : q_empty s.q = false)
    (hr : (s.p.getD (q_pop s.q).1 default).remaining ≤ 0) :
    rr_body quantum s = { s with q := (q_pop s.q).2 } := by
  unfold rr_body
  have hne : ¬ (q_empty s.q = true) := by simp [he]
  rw [if_neg hne]
  simp only [hr, if_true]

theorem rr_stuck_step (quantum : Int) (hq : quantum ≤ 0) (s : RRState)
    (h : s.completed = 0 ∧ 1 ≤ s.p.length ∧ ∀ x ∈ s.p, 1 ≤ x.remaining) :
    (rr_body quantum s).completed = 0 ∧ 1 ≤ (rr_body quantum s).p.length ∧
      ∀ x ∈ (rr_body quantum s).p, 1 ≤ x.remaining := by
  obtain ⟨hc, hn, hr⟩ := h
  cases he : q_empty s.q with
  | true =>
    rw [rr_body_idle he]
    exact ⟨hc, hn, hr⟩
  | false =>
    cases hget : s.p[(q_pop s.q).1]? with
    | none =>
      have hd : (s.p.getD (q_pop s.q).1 default).remaining ≤ 0 := by
        rw [List.getD_eq_getElem?_getD, hget]
        exact le_refl _
      rw [rr_body_stale he hd]
      exact ⟨hc, hn, hr⟩
    | some x =>
      have hx1 : 1 ≤ x.remaining := hr x (List.getElem?_mem hget)
      rw [rr_body_dispatch he hget (by omega)]
      have hrun : rr_run quantum x = quantum := by
        unfold rr_run
        rw [if_neg (by omega)]
      have h0 : ¬ x.remaining - rr_run quantum x = 0 := by rw [hrun]; omega
      refine ⟨?_, ?_, ?_⟩
      · show s.completed + (if x.remaining - rr_run quantum x = 0 then 1 else 0) = 0
        rw [if_neg h0, hc]
      · show 1 ≤ (s.p.set _ _).length
        rw [List.length_set]; exact hn
      · intro y hy
        rcases mem_set_cases hy with rfl | ⟨hy2, -⟩
        · rw [rr_after_remaining, hrun]; omega
        · exact hr y hy2

theorem sjf_np_mono (fuel fuel2 : Nat) (p : List Process) (r : RunResult)
    (h : sjf_np fuel p = some r) (hle : fuel ≤ fuel2) : sjf_np fuel2 p = some r := by
  unfold sjf_np at h ⊢
  cases hl : np_loop Process.burst fuel (np_init p) with
  | none => rw [hl] at h; simp at h
  | some s =>
    rw [hl] at h
    have := while_loop_mono np_cond (np_body Process.burst) fuel (np_init p) s hl fuel2 hle
    unfold np_loop
    rw [this]
    exact h

theorem foldl_add_cast (f : Process → Int) (l : List Process) :
    ∀ a : ℚ, l.foldl (fun s x => s + (f x : ℚ)) a = a + (((l.map f).sum : Int) : ℚ) := by
  induction l with
  | nil => intro a; simp
  | cons x rest ih =>
    intro a
    simp only [List.foldl_cons, List.map_cons, List.sum_cons, ih]
    push_cast
    ring

/-- The average waiting time `compute_and_print_table` returns is the sum of the waiting
times of its rows divided by the number of processes. -/
theorem avg_wait_eq (l : List Process) :
    (compute_and_print_table l).2.avg_wait =
      ((total_waiting (compute_and_print_table l).1 : Int) : ℚ) / (l.length : ℚ) := by
  unfold compute_and_print_table total_waiting
  dsimp only
  rw [foldl_add_cast Process.waiting_time]
  simp

theorem sjf_np_avg (fuel : Nat) (p : List Process) (r : RunResult)
    (h : sjf_np fuel p = some r) :
    r.avg.avg_wait = ((total_waiting r.procs : Int) : ℚ) / (r.procs.length : ℚ) := by
  unfold sjf_np at h
  cases hl : np_loop Process.burst fuel (np_init p) with
  | none => rw [hl] at h; simp at h
  | some s =>
    rw [hl] at h
    simp only [Option.map_some', Option.some.injEq] at h
    subst h
    have hlen : (np_result s).procs.length = s.p.length := by
      show (s.p.map table_row).length = _
      simp
    rw [hlen]
    exact avg_wait_eq s.p

theorem sjf_np_example_values :
    ∃ r, sjf_np 8 example_workload = some r ∧
      r.chart = [⟨1, 0, 5⟩, ⟨3, 5, 6⟩, ⟨2, 6, 9⟩] ∧
      (r.procs.map fun x => (x.pid, x.completion_time, x.waiting_time)) =
        [(1, 5, 0), (2, 9, 5), (3, 6, 3)] ∧
      r.avg.avg_wait = 8 / 3 := by
  cases h : sjf_np 8 example_workload with
  | none => exact absurd h (by decide)
  | some r =>
    have h1 : (sjf_np 8 example_workload).map (fun r => r.chart) =
        some [⟨1, 0, 5⟩, ⟨3, 5, 6⟩, ⟨2, 6, 9⟩] := by decide
    have h2 : (sjf_np 8 example_workload).map
        (fun r => r.procs.map fun x => (x.pid, x.completion_time, x.waiting_time)) =
        some [(1, 5, 0), (2, 9, 5), (3, 6, 3)] := by decide
    have h3 : (sjf_np 8 example_workload).map (fun r => total_waiting r.procs) = some 8 := by
      decide
    have h4 : (sjf_np 8 example_workload).map (fun r => r.procs.length) = some 3 := by
      decide
    have havg := sjf_np_avg 8 example_workload r h
    rw [h] at h1 h2 h3 h4
    simp only [Option.map_some', Option.some.injEq] at h1 h2 h3 h4
    rw [h3, h4] at havg
    refine ⟨r, rfl, h1, h2, ?_⟩
    rw [havg]
    norm_num

/-- C14, as stated, fails in its average: on the example workload `sjf_np` returns the
average waiting time 8/3, not 3; the waiting times are 0 for P1, 5 for P2 and 3 for P3. -/
theorem sjf_np_example_average_is_not_three :
    (sjf_np 8 example_workload).map (fun r => r.avg.avg_wait) = some (8 / 3) ∧
    (sjf_np 8 example_workload).map (fun r => r.avg.avg_wait) ≠ some 3 ∧
    (sjf_np 8 example_workload).map
      (fun r => r.procs.map fun x => (x.pid, x.waiting_time)) = some [(1, 0), (2, 5), (3, 3)] := by
  obtain ⟨r, h, -, -, havg⟩ := sjf_np_example_values
  refine ⟨?_, ?_, by decide⟩
  · rw [h]; simp [havg]
  · rw [h]
    simp only [Option.map_some', ne_eq, Option.some.injEq, havg]
    norm_num

/-- C14 (amended): on the example workload `sjf_np` (with 8 units of fuel or more)
dispatches in the order P1, P3, P2, over [0, 5], [5, 6], [6, 9]; the completion times
are 5 for P1, 6 for P3 and 9 for P2, the waiting times 0, 3 and 5, and the average
waiting time it returns is (0 + 3 + 5) / 3 = 8/3. -/
theorem sjf_np_example :
    ∃ r, (∀ fuel, 8 ≤ fuel → sjf_np fuel example_workload = some r) ∧
      r.chart = [⟨1, 0, 5⟩, ⟨3, 5, 6⟩, ⟨2, 6, 9⟩] ∧
      (r.procs.map fun x => (x.pid, x.completion_time, x.waiting_time)) =
        [(1, 5, 0), (2, 9, 5), (3, 6, 3)] ∧
      r.avg.avg_wait = 8 / 3 := by
  obtain ⟨r, h, h1, h2, h3⟩ := sjf_np_example_values
  exact ⟨r, fun fuel hf => sjf_np_mono 8 fuel _ r h hf, h1, h2, h3⟩

/-- C15, as stated, fails: on the example workload with quantum 2 the ready queue after
the first dispatch holds the indices 1, 2, 0, that is P2, P3, P1, and not P2, P1. -/
theorem rr_example_queue_is_not_p2_p1 :
    (rr_body 2 (rr_init example_workload)).q.toList.map
      (fun j => ((rr_body 2 (rr_init example_workload)).p.getD j default).pid) = [2, 3, 1] ∧
    (rr_body 2 (rr_init example_workload)).q.toList.map
      (fun j => ((rr_body 2 (rr_init example_workload)).p.getD j default).pid) ≠ [2, 1] := by
  decide

/-- C15 (amended): on the example workload with quantum 2, `rr` starts at clock 0 with P1
alone in the queue, first dispatches P1 over [0, 2], and at clock 2 the ready queue is
exactly P2, P3, P1: P3 arrives at 2, inside (0, 2], so it is enqueued in the same step,
behind P2 and before P1 is put back. -/
theorem rr_example_first_dispatch :
    (rr_init example_workload).time = 0 ∧
    (rr_init example_workload).q.toList = [0] ∧
    (rr_body 2 (rr_init example_workload)).slices = [⟨1, 0, 2⟩] ∧
    (rr_body 2 (rr_init example_workload)).g = [⟨1, 0, 2⟩] ∧
    (rr_body 2 (rr_init example_workload)).time = 2 ∧
    (rr_body 2 (rr_init example_workload)).q.toList = [1, 2, 0] ∧
    (rr_body 2 (rr_init example_workload)).p.map (fun x => (x.pid, x.arrival, x.remaining))
      = [(1, 0, 3), (2, 1, 3), (3, 2, 1)] := by
  decide

/-! ## The ready queue at every iteration -/

theorem queue_sound (p0 : List Process) (hv : ValidWorkload p0) (quantum : Int)
    (hq : 1 ≤ quantum) (s : RRState) (h : RRInv p0 quantum s) : QueueSound quantum s := by
  have hn : s.p.length ≤ MAXP := by rw [length_of_static h.static]; exact hv.2.1
  have hlen : s.q.toList.length ≤ s.p.length :=
    length_le_of_nodup_lt _ _ h.qnodup (fun j hj => by
      obtain ⟨x, hx, -⟩ := h.qready j hj
      exact (List.getElem?_eq_some.mp hx).1)
  rw [toList_length] at hlen
  refine ⟨h.qnodup, h.qready, h.qwf.1, h.qwf.2, hlen, hn, ?_, ?_⟩
  · intro he
    have hfb : s.q.front < s.q.back := by
      have := h.qwf.2
      unfold q_empty at he
      simp only [beq_eq_false_iff_ne, ne_eq] at he
      omega
    have hL := (q_pop_toList s.q h.qwf hfb).1
    obtain ⟨x, hx, hxr, -⟩ := h.qready (q_pop s.q).1 (by rw [hL]; simp)
    rw [getD_of_getElem? hx]
    omega
  · cases he : q_empty s.q with
    | true =>
      have hL : s.q.toList = [] := (q_empty_iff s.q h.qwf).mp he
      exact ⟨(rr_body quantum s).q.toList, by rw [hL]; rfl⟩
    | false =>
      obtain ⟨i, rest, x, hL, hx, hxr, hxa, hd⟩ :=
        rr_dispatch_post p0 hv.2.1 quantum hq s h he
      refine ⟨where_idx (rr_arrived s.time (rr_body quantum s).time) (rr_body quantum s).p 0 ++
        (if x.remaining - rr_run quantum x = 0 then [] else [i]), ?_⟩
      rw [hd.queue, hL, List.tail_cons, List.append_assoc]

/-- C18: on a valid workload with a quantum of at least 1, at every iteration of the loop
of `rr` the ready queue holds pairwise distinct indices of unfinished processes that have
arrived; `back - front` is at most `n ≤ MAXP`; the process popped by a dispatch is never
finished, so the guard `p[i].remaining <= 0` is not taken; and the body leaves the
entries behind the front in place (no live entry is overwritten). -/
theorem rr_queue_sound_at_every_iteration (p : List Process) (hv : ValidWorkload p)
    (quantum : Int) (hq : 1 ≤ quantum) (k : Nat) :
    QueueSound quantum (rr_state quantum p k) :=
  queue_sound p hv quantum hq _ (rr_state_inv p hv quantum hq k)

/-- C18 on the example workload with quantum 2, after three iterations. -/
theorem rr_queue_sound_at_every_iteration_witness :
    ValidWorkload example_workload ∧ (1 : Int) ≤ 2 ∧
      QueueSound 2 (rr_state 2 example_workload 3) :=
  ⟨by decide, by decide,
    rr_queue_sound_at_every_iteration example_workload (by decide) 2 (by decide) 3⟩

/-! ## Termination and progress of the three loops -/

theorem sum_map_set_int (f : Process → Int) (l : List Process) (i : Nat) (x a : Process)
    (hx : l[i]? = some x) :
    ((l.set i a).map f).sum = (l.map f).sum - f x + f a := by
  induction l generalizing i with
  | nil => simp at hx
  | cons y rest ih =>
    cases i with
    | zero =>
      simp only [List.getElem?_cons_zero, Option.some.injEq] at hx
      subst hx
      simp only [List.set_cons_zero, List.map_cons, List.sum_cons]
      omega
    | succ i =>
      simp only [List.getElem?_cons_succ] at hx
      have := ih i hx
      simp only [List.set_cons_succ, List.map_cons, List.sum_cons]
      omega

/-- The invariant of `sjf_np` / `priority_np` is kept by the body in every state, also
after the loop has ended. -/
theorem np_inv_step_any (key : Process → Int) (p0 : List Process)
    (hnd : (p0.map Process.pid).Nodup) (hlen : p0.length ≤ MAXP)
    (s : NPState) (h : NPInv p0 s) : NPInv p0 (np_body key s) := by
  by_cases hc : np_cond s = true
  · exact np_inv_step key p0 hnd hlen s h hc
  · have hge : ¬ s.completed < s.p.length := by simpa [np_cond] using hc
    have hle : s.p.countP finished ≤ s.p.length := List.countP_le_length _
    have hall := List.countP_eq_length.mp
      (by have := h.count; omega : s.p.countP finished = s.p.length)
    have hsel := np_select_spec key s.p s.time
    cases hs : np_select key s.p s.time with
    | some idx =>
      rw [hs] at hsel
      obtain ⟨x, hx, he, -⟩ := hsel
      have := (finished_iff x).mp (hall x (List.getElem?_mem hx))
      have := he.1
      omega
    | none =>
      rw [np_body_none hs]
      have hge2 := next_arrival_time_ge s.p s.time
      refine
        { static := h.static
          run := ?_
          count := h.count
          glen := h.glen
          gev := h.gev
          gchain := h.gchain
          gend := fun e he => le_trans (h.gend e he) hge2
          gnodup := h.gnodup }
      intro x hx
      rcases h.run x hx with h1 | ⟨h1, h2, h3, h4⟩
      · exact Or.inl h1
      · exact Or.inr ⟨h1, h2, h3, le_trans h4 hge2⟩

theorem np_state_inv (key : Process → Int) (p : List Process) (hv : ValidWorkload p)
    (k : Nat) : NPInv p (np_state key p k) := by
  unfold np_state
  exact iterate_invariant (np_body key) (NPInv p)
    (fun s hs => np_inv_step_any key p hv.2.2.1 hv.2.1 s hs) (np_init p)
    (np_inv_init p (fun x hx => (input_range_bounds (hv.2.2.2 x hx)).2.2.1)) k

theorem np_progress (key : Process → Int) (hkey : ∀ x, InputRange x → key x < INT_MAX)
    (p0 : List Process) (hr : ∀ x ∈ p0, InputRange x) (s : NPState) (h : NPInv p0 s) :
    NPProgress key s := by
  constructor
  · intro idx hs
    have hsel := np_select_spec key s.p s.time
    rw [hs] at hsel
    obtain ⟨x, hx, he, -⟩ := hsel
    rw [np_body_some hs hx]
    unfold total_remaining
    dsimp only
    rw [sum_map_set_int Process.remaining s.p idx x _ hx]
    have h1 : (np_finish s.time x).remaining = 0 := rfl
    have h2 := he.1
    omega
  · intro hc hs
    have hr2 := range_of_static h.static hr
    obtain ⟨z, hz, hzr⟩ := np_exists_unfinished p0 hr s h hc
    have hne := np_select_none_no_eligible key hkey s.p hr2 s.time hs
    have hza : z.arrival > s.time := by
      have := hne z hz
      unfold eligible at this
      omega
    obtain ⟨hlt, ⟨w, hw, hwr, hwa⟩, -⟩ := next_arrival_time_least s.p s.time
      (fun x hx => (input_range_bounds (hr2 x hx)).2.1) ⟨z, hz, hzr, hza⟩
    rw [np_body_none hs]
    exact ⟨rfl, hlt, w, hw, hwr, hwa⟩

theorem rr_progress (p0 : List Process) (hv : ValidWorkload p0) (quantum : Int)
    (hq : 1 ≤ quantum) (s : RRState) (h : RRInv p0 quantum s) : RRProgress quantum s := by
  obtain ⟨-, hlen, hnd, hr⟩ := hv
  constructor
  · intro he
    obtain ⟨i, rest, x, hL, hx, hxr, hxa, hd⟩ := rr_dispatch_post p0 hlen quantum hq s h he
    obtain ⟨hrun1, hrunq, hrunr⟩ := rr_run_bounds quantum x hq hxr
    unfold total_remaining
    rw [hd.procs, sum_map_set_int Process.remaining s.p i x _ hx, rr_after_remaining]
    omega
  · intro hc he
    have hra : ∀ x ∈ p0, x.arrival < INT_MAX := fun x hx => (input_range_bounds (hr x hx)).2.1
    have hL : s.q.toList = [] := (q_empty_iff s.q h.qwf).mp he
    obtain ⟨z, hz, hzr⟩ := rr_exists_unfinished p0 quantum s h hc
    obtain ⟨jz, hjz⟩ := List.mem_iff_getElem?.mp hz
    have hlate : s.time < z.arrival := by
      by_contra hcon
      have := h.qall jz z hjz hzr (by omega)
      rw [hL] at this
      simp at this
    have hr2 : ∀ x ∈ s.p, x.arrival < INT_MAX :=
      forall_of_static_perm (fun st => st.2.1 < INT_MAX) (List.Perm.of_eq h.static) hra
    obtain ⟨hlt, ⟨w, hw, hwr, hwa⟩, -⟩ := next_arrival_time_least s.p s.time hr2
      ⟨z, hz, hzr, hlate⟩
    rw [rr_body_idle he]
    exact ⟨rfl, hlt, w, hw, hwr, hwa⟩

theorem np_all_done (key : Process → Int) (hkey : ∀ x, InputRange x → key x < INT_MAX)
    (p : List Process) (hv : ValidWorkload p) :
    ∃ s, (∀ fuel, 2 * p.length + 2 ≤ fuel → np_loop key fuel (np_init p) = some s) ∧
      s.p.map Process.static = p.map Process.static ∧ AllDone s.p := by
  obtain ⟨s, hloop, hinv, -, hfin, -⟩ := np_terminates key hkey p hv
  refine ⟨s, hloop, hinv.static, ?_⟩
  intro x hx
  have hb := input_range_bounds (range_of_static hinv.static hv.2.2.2 x hx)
  have h0 := hfin x hx
  rcases hinv.run x hx with h1 | ⟨-, h2, h3, -⟩
  · omega
  · exact ⟨h0, by omega, by omega⟩

theorem rr_all_done (p : List Process) (hv : ValidWorkload p) (quantum : Int)
    (hq : 1 ≤ quantum) :
    ∃ s, (∀ fuel, rr_fuel p ≤ fuel → rr_loop quantum fuel (rr_init p) = some s) ∧
      s.p.map Process.static = p.map Process.static ∧ AllDone s.p := by
  obtain ⟨s, hloop, hinv, hfin, -⟩ := rr_terminates p hv quantum hq
  refine ⟨s, hloop, hinv.static, ?_⟩
  intro x hx
  have hb := input_range_bounds (range_of_static hinv.static hv.2.2.2 x hx)
  have h0 := hfin x hx
  have := (hinv.run x hx).2.2.2 h0
  exact ⟨h0, this, by omega⟩

/-- C12: on a valid workload, with a quantum of at least 1, the main loops of `sjf_np`,
`priority_np` and `rr` end (for every fuel from `2 n + 2`, resp. `rr_fuel p`, on, in one
and the same state) with every process at `remaining = 0` and its completion time
written; in every iteration a dispatch strictly decreases the total remaining work, and
an idle branch taken while the loop runs moves the clock strictly forward to the arrival
of an unfinished process. -/
theorem main_loops_terminate (p : List Process) (hv : ValidWorkload p) (quantum : Int)
    (hq : 1 ≤ quantum) :
    (∃ s, (∀ fuel, 2 * p.length + 2 ≤ fuel →
        np_loop Process.burst fuel (np_init p) = some s) ∧
      s.p.map Process.static = p.map Process.static ∧ AllDone s.p) ∧
    (∃ s, (∀ fuel, 2 * p.length + 2 ≤ fuel →
        np_loop Process.priority fuel (np_init p) = some s) ∧
      s.p.map Process.static = p.map Process.static ∧ AllDone s.p) ∧
    (∃ s, (∀ fuel, rr_fuel p ≤ fuel → rr_loop quantum fuel (rr_init p) = some s) ∧
      s.p.map Process.static = p.map Process.static ∧ AllDone s.p) ∧
    (∀ k, NPProgress Process.burst (np_state Process.burst p k)) ∧
    (∀ k, NPProgress Process.priority (np_state Process.priority p k)) ∧
    (∀ k, RRProgress quantum (rr_state quantum p k)) :=
  ⟨np_all_done _ (fun _ hx => (input_range_bounds hx).2.2.2.1) p hv,
    np_all_done _ (fun _ hx => (input_range_bounds hx).2.2.2.2) p hv,
    rr_all_done p hv quantum hq,
    fun k => np_progress _ (fun _ hx => (input_range_bounds hx).2.2.2.1) p hv.2.2.2 _
      (np_state_inv _ p hv k),
    fun k => np_progress _ (fun _ hx => (input_range_bounds hx).2.2.2.2) p hv.2.2.2 _
      (np_state_inv _ p hv k),
    fun k => rr_progress p hv quantum hq _ (rr_state_inv p hv quantum hq k)⟩

/-- C12 on a workload with an idle gap (P1 at 0 for 2, P2 at 5 for 1), quantum 2: the
three loops end, and the theorem applies. -/
theorem main_loops_terminate_witness :
    ValidWorkload [mkProcess 1 0 2 1, mkProcess 2 5 1 1] ∧ (1 : Int) ≤ 2 ∧
    ((sjf_np 6 [mkProcess 1 0 2 1, mkProcess 2 5 1 1]).map fun r => r.chart) =
      some [⟨1, 0, 2⟩, ⟨2, 5, 6⟩] ∧
    ((rr 6 [mkProcess 1 0 2 1, mkProcess 2 5 1 1] 2).map fun r => r.chart) =
      some [⟨1, 0, 2⟩, ⟨2, 5, 6⟩] ∧
    (∀ k, RRProgress 2 (rr_state 2 [mkProcess 1 0 2 1, mkProcess 2 5 1 1] k)) :=
  ⟨by decide, by decide, by decide, by decide,
    (main_loops_terminate [mkProcess 1 0 2 1, mkProcess 2 5 1 1] (by decide) 2
      (by decide)).2.2.2.2.2⟩

/-! ## What the ledger accounts for -/

theorem chart_total_append (g : List GanttEvent) (e : GanttEvent) :
    chart_total (g ++ [e]) = chart_total g + (e.end_ - e.start) := by
  simp [chart_total]

/-- A call of `push_event` that is not dropped (the chart has room, or the slice is merged
into the last event) with a slice `[s, e]` that starts no earlier than every recorded
end: the total grows by `e - s`, the slices stay disjoint, every end is at most `e`, and
the last slice ends at `e`. -/
theorem push_event_accounts (g : GanttChart) (pid s e lo : Int)
    (hfit : g.length < MAXG ∨ ∃ l ∈ g.getLast?, l.pid = pid ∧ l.end_ = s)
    (hpw : g.Pairwise (fun a b => a.end_ ≤ b.start))
    (hbd : ∀ x ∈ g, lo ≤ x.start ∧ x.start ≤ x.end_ ∧ x.end_ ≤ s) (hlo : lo ≤ s)
    (hse : s ≤ e) :
    chart_total (push_event g pid s e) = chart_total g + (e - s) ∧
    (push_event g pid s e).Pairwise (fun a b => a.end_ ≤ b.start) ∧
    (∀ x ∈ push_event g pid s e, lo ≤ x.start ∧ x.start ≤ x.end_ ∧ x.end_ ≤ e) ∧
    (push_event g pid s e).getLast?.map GanttEvent.end_ = some e ∧
    (push_event g pid s e).length ≤ g.length + 1 := by
  rcases List.eq_nil_or_concat g with rfl | ⟨g1, l, rfl⟩
  · rw [push_event_nil]
    refine ⟨by simp [chart_total], List.pairwise_singleton _ _, ?_, rfl, by simp⟩
    intro x hx
    simp only [List.mem_singleton] at hx
    subst hx
    exact ⟨hlo, hse, le_refl _⟩
  · rw [List.concat_eq_append] at hfit hpw hbd ⊢
    rw [push_event_concat]
    have hl := hbd l (by simp)
    rw [List.pairwise_append] at hpw
    obtain ⟨hp1, -, hp3⟩ := hpw
    by_cases hm : l.pid = pid ∧ l.end_ = s
    · rw [if_pos hm]
      refine ⟨?_, ?_, ?_, by simp, by simp⟩
      · rw [chart_total_append, chart_total_append]
        show _ + (e - l.start) = _
        omega
      · rw [List.pairwise_append]
        refine ⟨hp1, List.pairwise_singleton _ _, ?_⟩
        intro a ha b hb
        simp only [List.mem_singleton] at hb
        subst hb
        exact hp3 a ha l (by simp)
      · intro x hx
        rcases List.mem_append.mp hx with hx | hx
        · have := hbd x (List.mem_append_left _ hx)
          omega
        · simp only [List.mem_singleton] at hx
          subst hx
          exact ⟨hl.1, by show l.start ≤ e; omega, le_refl _⟩
    · rw [if_neg hm]
      have hroom : g1.length + 1 < MAXG := by
        rcases hfit with hfit | ⟨l2, hl2, hl3⟩
        · simpa using hfit
        · simp at hl2
          subst hl2
          exact absurd hl3 hm
      rw [if_pos hroom]
      refine ⟨?_, ?_, ?_, by simp, by simp⟩
      · have : g1 ++ [l, ⟨pid, s, e⟩] = (g1 ++ [l]) ++ [⟨pid, s, e⟩] := by simp
        rw [this, chart_total_append]
      · have : g1 ++ [l, ⟨pid, s, e⟩] = (g1 ++ [l]) ++ [⟨pid, s, e⟩] := by simp
        rw [this, List.pairwise_append]
        refine ⟨?_, List.pairwise_singleton _ _, ?_⟩
        · rw [List.pairwise_append]
          exact ⟨hp1, List.pairwise_singleton _ _, hp3⟩
        · intro a ha b hb
          simp only [List.mem_singleton] at hb
          subst hb
          exact (hbd a ha).2.2
      · intro x hx
        have : g1 ++ [l, ⟨pid, s, e⟩] = (g1 ++ [l]) ++ [⟨pid, s, e⟩] := by simp
        rw [this] at hx
        rcases List.mem_append.mp hx with hx | hx
        · have := hbd x hx
          omega
        · simp only [List.mem_singleton] at hx
          subst hx
          exact ⟨hlo, hse, le_refl _⟩

theorem push_event_length_le (g : GanttChart) (pid s e : Int) (h : g.length ≤ MAXG) :
    (push_event g pid s e).length ≤ MAXG := by
  rcases List.eq_nil_or_concat g with rfl | ⟨g1, l, rfl⟩
  · rw [push_event_nil]; simp [MAXG]
  · rw [List.concat_eq_append] at h ⊢
    rw [push_event_concat]
    split_ifs with h1 h2
    · simpa using h
    · simp only [List.length_append, List.length_cons, List.length_nil]
      omega
    · exact h

/-- The dispatch loop of `fcfs` from a ledger with room for the remaining processes. -/
theorem fcfs_run_accounts (l : List Process) (hb : ∀ x ∈ l, 0 ≤ x.burst) :
    ∀ (t : Int) (g : GanttChart), g.length + l.length ≤ MAXG → 0 ≤ t →
      g.Pairwise (fun a b => a.end_ ≤ b.start) →
      (∀ x ∈ g, 0 ≤ x.start ∧ x.start ≤ x.end_ ∧ x.end_ ≤ t) →
      chart_total (fcfs_run l t g).2.2 = chart_total g + total_burst l ∧
      Disjoint_slices (fcfs_run l t g).2.2 (fcfs_run l t g).2.1 ∧
      t ≤ (fcfs_run l t g).2.1 ∧
      (l ≠ [] → (fcfs_run l t g).2.2.getLast?.map GanttEvent.end_ =
        some (fcfs_run l t g).2.1) ∧
      (l = [] → (fcfs_run l t g).2.2 = g ∧ (fcfs_run l t g).2.1 = t) := by
  induction l with
  | nil =>
    intro t g _ _ hpw hbd
    refine ⟨?_, ⟨?_, ?_⟩, ?_, fun h => absurd rfl h, fun _ => ⟨?_, ?_⟩⟩ <;>
      simp only [fcfs_run]
    · simp [total_burst]
    · exact hpw
    · exact hbd
    · exact le_refl _
  | cons x rest ih =>
    intro t g hcap ht hpw hbd
    have hx : 0 ≤ x.burst := hb x (by simp)
    simp only [List.length_cons] at hcap
    simp only [fcfs_run]
    have hstart : t ≤ (if t < x.arrival then x.arrival else t) := by split_ifs <;> omega
    obtain ⟨h1, h2, h3, h4, h5⟩ := push_event_accounts g x.pid
      (if t < x.arrival then x.arrival else t)
      ((if t < x.arrival then x.arrival else t) + x.burst) 0 (Or.inl (by omega)) hpw
      (fun y hy => by have := hbd y hy; omega) (by omega) (by omega)
    obtain ⟨i1, i2, i3, i4, i5⟩ := ih (fun y hy => hb y (List.mem_cons_of_mem _ hy))
      ((if t < x.arrival then x.arrival else t) + x.burst)
      (push_event g x.pid (if t < x.arrival then x.arrival else t)
        ((if t < x.arrival then x.arrival else t) + x.burst))
      (by omega) (by omega) h2 h3
    refine ⟨?_, i2, by omega, ?_, fun h => absurd h (List.cons_ne_nil _ _)⟩
    · rw [i1, h1]
      simp only [total_burst, List.map_cons, List.sum_cons]
      omega
    · intro _
      by_cases hr : rest = []
      · obtain ⟨e1, e2⟩ := i5 hr
        rw [e1, e2]
        exact h4
      · exact i4 hr

theorem total_burst_of_static {l p : List Process}
    (h : (l.map Process.static).Perm (p.map Process.static)) :
    total_burst l = total_burst p := by
  have h1 : ∀ q : List Process, total_burst q = ((q.map Process.static).map fun s => s.2.2.1).sum := by
    intro q
    simp [total_burst, Function.comp_def, Process.static]
  rw [h1, h1]
  exact (h.map _).sum_eq

theorem fcfs_accounts (p : List Process) (hv : ValidWorkload p) :
    LedgerAccounts (fcfs p).chart (fcfs_clock p) (total_burst p) := by
  have hperm := fcfs_sorted_static p
  rw [← fcfs_sort_loops_eq] at hperm
  have hb : ∀ x ∈ fcfs_sort_outer (reset_stats p).length 0 (reset_stats p), 0 ≤ x.burst := by
    have := forall_of_static_perm (fun s => 0 ≤ s.2.2.1) hperm
      (fun x hx => by have := (input_range_bounds (hv.2.2.2 x hx)).2.2.1; show 0 ≤ x.burst; omega)
    exact this
  have hlen : (fcfs_sort_outer (reset_stats p).length 0 (reset_stats p)).length = p.length := by
    have := hperm.length_eq
    simpa using this
  have hne : fcfs_sort_outer (reset_stats p).length 0 (reset_stats p) ≠ [] := by
    intro h0
    rw [h0] at hlen
    have := hv.1
    simp at hlen
    omega
  obtain ⟨h1, h2, -, h4, -⟩ := fcfs_run_accounts _ hb 0 []
    (by rw [hlen]; have := hv.2.1; simp only [List.length_nil]; unfold MAXP at this; unfold MAXG; omega)
    (le_refl _) List.Pairwise.nil (fun x hx => absurd hx (List.not_mem_nil x))
  refine ⟨h4 hne, ?_, h2⟩
  show chart_total (fcfs_run _ 0 []).2.2 = _
  rw [h1, total_burst_of_static hperm]
  simp [chart_total]

/-- Termination of `sjf_np` / `priority_np` with a further invariant `J` of the loop. -/
theorem np_terminates_with (key : Process → Int)
    (hkey : ∀ x, InputRange x → key x < INT_MAX) (p0 : List Process) (hv : ValidWorkload p0)
    (J : NPState → Prop) (hinit : J (np_init p0))
    (hstep : ∀ s, NPInv p0 s → np_cond s = true → J s → J (np_body key s)) :
    ∃ r, (∀ fuel, 2 * p0.length + 2 ≤ fuel → np_loop key fuel (np_init p0) = some r) ∧
      NPInv p0 r ∧ J r ∧ r.completed = r.p.length ∧ (∀ x ∈ r.p, x.remaining = 0) := by
  obtain ⟨-, hlen, hnd, hr⟩ := hv
  have hinit0 := np_inv_init p0 (fun x hx => (input_range_bounds (hr x hx)).2.2.1)
  have hμ : np_measure key (np_init p0) < 2 * p0.length + 2 := by
    unfold np_measure
    have : (np_init p0).p.length = p0.length := length_of_static hinit0.static
    rw [this]
    split_ifs <;> omega
  obtain ⟨r, hloop, ⟨hinv, hJ⟩, hcond, -⟩ :=
    while_loop_terminates np_cond (np_body key) (fun s => NPInv p0 s ∧ J s) (np_measure key)
      (fun s hs hc => ⟨⟨np_inv_step key p0 hnd hlen s hs.1 hc, hstep s hs.1 hc hs.2⟩,
        np_measure_step key hkey p0 hr s hs.1 hc⟩)
      (2 * p0.length + 2) (np_init p0) ⟨hinit0, hinit⟩ hμ
  have hle : r.p.countP finished ≤ r.p.length := List.countP_le_length _
  have hcomp : r.completed = r.p.length := by
    have : ¬ r.completed < r.p.length := by simpa [np_cond] using hcond
    have := hinv.count
    omega
  refine ⟨r, ?_, hinv, hJ, hcomp, ?_⟩
  · intro fuel hf
    exact while_loop_mono _ _ _ _ _ hloop fuel hf
  · intro x hx
    have hall := List.countP_eq_length.mp (by rw [← hinv.count]; exact hcomp)
    exact (finished_iff x).mp (hall x hx)

/-- Termination of `rr` with a further invariant `J` of the loop. -/
theorem rr_terminates_with (p0 : List Process) (hv : ValidWorkload p0) (quantum : Int)
    (hq : 1 ≤ quantum) (J : RRState → Prop) (hinit : J (rr_init p0))
    (hstep : ∀ s, RRInv p0 quantum s → rr_cond s = true → J s → J (rr_body quantum s)) :
    ∃ r, (∀ fuel, rr_fuel p0 ≤ fuel → rr_loop quantum fuel (rr_init p0) = some r) ∧
      RRInv p0 quantum r ∧ J r ∧ r.completed = r.p.length ∧ (∀ x ∈ r.p, x.remaining = 0) := by
  have hinit0 := rr_inv_init p0 hv quantum
  have hμ : rr_measure (rr_init p0) < rr_fuel p0 := by
    unfold rr_measure rr_fuel
    have : (rr_init p0).p.map (fun x => x.remaining.toNat) =
        p0.map (fun x => x.burst.toNat) := by
      show (reset_stats p0).map _ = _
      simp [reset_stats, Function.comp_def]
    rw [this]
    split_ifs <;> omega
  obtain ⟨r, hloop, ⟨hinv, hJ⟩, hcond, -⟩ :=
    while_loop_terminates rr_cond (rr_body quantum) (fun s => RRInv p0 quantum s ∧ J s)
      rr_measure
      (fun s hs hc => ⟨⟨rr_inv_step p0 hv quantum hq s hs.1, hstep s hs.1 hc hs.2⟩,
        rr_measure_step p0 hv quantum hq s hs.1 hc⟩)
      (rr_fuel p0) (rr_init p0) ⟨hinit0, hinit⟩ hμ
  have hle : r.p.countP finished ≤ r.p.length := List.countP_le_length _
  have hcomp : ¬ r.completed < r.p.length := by simpa [rr_cond] using hcond
  have hcount := hinv.count
  have hall := List.countP_eq_length.mp (by omega : r.p.countP finished = r.p.length)
  refine ⟨r, ?_, hinv, hJ, by omega, fun x hx => (finished_iff x).mp (hall x hx)⟩
  intro fuel hf
  exact while_loop_mono _ _ _ _ _ hloop fuel hf

theorem total_remaining_reset (p : List Process) :
    total_remaining (reset_stats p) = total_burst p := by
  simp [total_remaining, total_burst, reset_stats, Function.comp_def]

theorem total_remaining_zero (p : List Process) (h : ∀ x ∈ p, x.remaining = 0) :
    total_remaining p = 0 := by
  unfold total_remaining
  apply List.sum_eq_zero
  intro a ha
  obtain ⟨x, hx, rfl⟩ := List.mem_map.mp ha
  exact h x hx

theorem earliest_arrival_nonneg (p : List Process) (h : ∀ x ∈ p, 0 ≤ x.arrival) :
    0 ≤ earliest_arrival p := by
  obtain ⟨-, -, h3⟩ := earliest_scan_spec p INT_MAX
  unfold earliest_arrival
  rcases h3 with h3 | ⟨x, hx, he⟩
  · rw [h3]; decide
  · rw [he]; exact h x hx

theorem arrival_reset_nonneg (p0 : List Process) (hr : ∀ x ∈ p0, InputRange x) :
    ∀ x ∈ reset_stats p0, 0 ≤ x.arrival := by
  intro x hx
  unfold reset_stats at hx
  obtain ⟨y, hy, rfl⟩ := List.mem_map.mp hx
  exact (input_range_bounds (hr y hy)).1

/-- An accounted state that has left the loop with nothing remaining: the ledger accounts
for the whole run. -/
theorem ledger_of_accounted {total : Int} {g : List GanttEvent} {time : Int}
    {p : List Process} {completed : Nat} (h : Accounted total g time p completed)
    (hc : completed = p.length) (hz : ∀ x ∈ p, x.remaining = 0) :
    LedgerAccounts g time total := by
  obtain ⟨h1, h2, -, h4⟩ := h
  rw [total_remaining_zero p hz] at h1
  refine ⟨?_, by omega, h2⟩
  rcases h4 with h4 | h4
  · exact h4
  · omega

theorem np_accounted_init (p0 : List Process) (hv : ValidWorkload p0) :
    Accounted (total_burst p0) (np_init p0).g (np_init p0).time (np_init p0).p
      (np_init p0).completed := by
  refine ⟨?_, ⟨List.Pairwise.nil, fun e he => absurd he (List.not_mem_nil e)⟩, ?_, Or.inr ?_⟩
  · show chart_total [] + total_remaining (reset_stats p0) = _
    rw [total_remaining_reset]
    simp [chart_total]
  · show 0 ≤ (if earliest_arrival (reset_stats p0) ≠ INT_MAX then
      earliest_arrival (reset_stats p0) else 0)
    have := earliest_arrival_nonneg _ (arrival_reset_nonneg p0 hv.2.2.2)
    split_ifs <;> omega
  · show 0 < (reset_stats p0).length
    rw [length_reset_stats]
    exact hv.1

theorem np_accounted_step (key : Process → Int) (p0 : List Process) (hlen : p0.length ≤ MAXP)
    (s : NPState) (h : NPInv p0 s) (hc : np_cond s = true)
    (ha : Accounted (total_burst p0) s.g s.time s.p s.completed) :
    Accounted (total_burst p0) (np_body key s).g (np_body key s).time (np_body key s).p
      (np_body key s).completed := by
  obtain ⟨a1, ⟨a2, a3⟩, a4, -⟩ := ha
  have hlt : s.completed < s.p.length := by simpa [np_cond] using hc
  have hsel := np_select_spec key s.p s.time
  cases hs : np_select key s.p s.time with
  | none =>
    rw [np_body_none hs]
    have hge := next_arrival_time_ge s.p s.time
    refine ⟨a1, ⟨a2, fun e he => ?_⟩, ?_, Or.inr hlt⟩
    · have := a3 e he
      dsimp only
      omega
    · dsimp only
      omega
  | some idx =>
    rw [hs] at hsel
    obtain ⟨x, hx, he, -⟩ := hsel
    rw [np_body_some hs hx]
    have hxm : x ∈ s.p := List.getElem?_mem hx
    have hxb : x.remaining = x.burst := by
      rcases h.run x hxm with h1 | ⟨h1, -⟩
      · exact h1
      · have := he.1
        omega
    have hpos : 0 < x.remaining := he.1
    have hn : s.p.length ≤ MAXP := by rw [length_of_static h.static]; exact hlen
    obtain ⟨h1, h2, h3, h4, -⟩ := push_event_accounts s.g x.pid s.time (s.time + x.burst) 0
      (Or.inl (by rw [h.glen]; unfold MAXP at hn; unfold MAXG; omega)) a2 a3 a4 (by omega)
    refine ⟨?_, ⟨h2, h3⟩, by dsimp only; omega, Or.inl h4⟩
    dsimp only
    unfold total_remaining at a1 ⊢
    rw [h1, sum_map_set_int Process.remaining s.p idx x _ hx]
    have : (np_finish s.time x).remaining = 0 := rfl
    omega

theorem np_accounts (key : Process → Int) (hkey : ∀ x, InputRange x → key x < INT_MAX)
    (p0 : List Process) (hv : ValidWorkload p0) :
    ∃ r, (∀ fuel, 2 * p0.length + 2 ≤ fuel → np_loop key fuel (np_init p0) = some r) ∧
      LedgerAccounts r.g r.time (total_burst p0) := by
  obtain ⟨r, h1, -, h3, h4, h5⟩ := np_terminates_with key hkey p0 hv
    (fun s => Accounted (total_burst p0) s.g s.time s.p s.completed)
    (np_accounted_init p0 hv)
    (fun s hs hc hJ => np_accounted_step key p0 hv.2.1 s hs hc hJ)
  exact ⟨r, h1, ledger_of_accounted h3 h4 h5⟩

theorem push_all_append (g : GanttChart) (sl : List GanttEvent) (c : GanttEvent) :
    push_all g (sl ++ [c]) = push_event (push_all g sl) c.pid c.start c.end_ := by
  simp [push_all, List.foldl_append]

/-- Appending a slice `[s, e]` that starts no earlier than every recorded end. -/
theorem append_accounts (g : List GanttEvent) (pid s e : Int)
    (hd : Disjoint_slices g s) (hlo : 0 ≤ s) (hse : s ≤ e) :
    chart_total (g ++ [GanttEvent.mk pid s e]) = chart_total g + (e - s) ∧
    Disjoint_slices (g ++ [GanttEvent.mk pid s e]) e ∧
    (g ++ [GanttEvent.mk pid s e]).getLast?.map GanttEvent.end_ = some e := by
  obtain ⟨hpw, hbd⟩ := hd
  refine ⟨chart_total_append g _, ⟨?_, ?_⟩, by simp⟩
  · rw [List.pairwise_append]
    refine ⟨hpw, List.pairwise_singleton _ _, ?_⟩
    intro a ha b hb
    simp only [List.mem_singleton] at hb
    subst hb
    exact (hbd a ha).2.2
  · intro x hx
    rcases List.mem_append.mp hx with hx | hx
    · have := hbd x hx
      omega
    · simp only [List.mem_singleton] at hx
      subst hx
      exact ⟨hlo, hse, le_refl _⟩

theorem total_remaining_nonneg (p0 : List Process) (quantum : Int) (s : RRState)
    (h : RRInv p0 quantum s) : 0 ≤ total_remaining s.p := by
  unfold total_remaining
  apply List.sum_nonneg
  intro a ha
  obtain ⟨x, hx, rfl⟩ := List.mem_map.mp ha
  exact (h.run x hx).1

theorem rr_accounted_init (p0 : List Process) (hv : ValidWorkload p0) :
    RRAccounted (total_burst p0) (rr_init p0) := by
  have hacc : ∀ g : List GanttEvent, g = [] →
      Accounted (total_burst p0) g (rr_init p0).time (rr_init p0).p (rr_init p0).completed := by
    intro g hg
    subst hg
    refine ⟨?_, ⟨List.Pairwise.nil, fun e he => absurd he (List.not_mem_nil e)⟩, ?_, Or.inr ?_⟩
    · show chart_total [] + total_remaining (reset_stats p0) = _
      rw [total_remaining_reset]
      simp [chart_total]
    · exact earliest_arrival_nonneg _ (arrival_reset_nonneg p0 hv.2.2.2)
    · show 0 < (reset_stats p0).length
      rw [length_reset_stats]
      exact hv.1
  refine ⟨hacc _ rfl, rfl, fun _ => ⟨?_, hacc _ rfl⟩⟩
  show ((0 : Nat) : Int) + total_remaining (reset_stats p0) ≤ _
  rw [total_remaining_reset]
  omega

theorem rr_accounted_step (p0 : List Process) (hv : ValidWorkload p0) (quantum : Int)
    (hq : 1 ≤ quantum) (s : RRState) (h : RRInv p0 quantum s) (hc : rr_cond s = true)
    (ha : RRAccounted (total_burst p0) s) :
    RRAccounted (total_burst p0) (rr_body quantum s) := by
  obtain ⟨-, hlen, hnd, hr⟩ := hv
  obtain ⟨⟨a1, a2, a3, -⟩, hg, hcap⟩ := ha
  have hlt : s.completed < s.p.length := by simpa [rr_cond] using hc
  cases he : q_empty s.q with
  | true =>
    have hge := next_arrival_time_ge s.p s.time
    rw [rr_body_idle he]
    have hmono : ∀ g : List GanttEvent, Disjoint_slices g s.time →
        Disjoint_slices g (next_arrival_time s.p s.time) := by
      intro g hd
      refine ⟨hd.1, fun e he => ?_⟩
      have := hd.2 e he
      omega
    refine ⟨⟨a1, hmono _ a2, by dsimp only; omega, Or.inr hlt⟩, hg, fun ht => ?_⟩
    obtain ⟨c1, c2, c3, -, -⟩ := hcap ht
    exact ⟨c1, c2, hmono _ c3, by dsimp only; omega, Or.inr hlt⟩
  | false =>
    obtain ⟨i, rest, x, hL, hx, hxr, hxa, hd⟩ := rr_dispatch_post p0 hlen quantum hq s h he
    have hinv2 := rr_inv_of_dispatch p0 hnd (fun x hx => (input_range_bounds (hr x hx)).2.2.1)
      quantum hq s _ h i rest x hL hx hxr hxa hd
    obtain ⟨hrun1, hrunq, hrunr⟩ := rr_run_bounds quantum x hq hxr
    have hnn := total_remaining_nonneg p0 quantum _ hinv2
    have hrem : total_remaining (rr_body quantum s).p =
        total_remaining s.p - rr_run quantum x := by
      unfold total_remaining
      rw [hd.procs, sum_map_set_int Process.remaining s.p i x _ hx, rr_after_remaining]
      omega
    have ht := hd.time
    obtain ⟨b1, b2, b3⟩ := append_accounts s.slices x.pid s.time (rr_body quantum s).time
      a2 a3 (by omega)
    refine ⟨⟨?_, ?_, by omega, Or.inl ?_⟩, ?_, fun htot => ?_⟩
    · rw [hd.slices, b1, hrem]; omega
    · rw [hd.slices]; exact b2
    · rw [hd.slices]; exact b3
    · rw [hd.chart, hd.slices, push_all_append, hg]
    · obtain ⟨c1, c2, ⟨c3, c4⟩, -, -⟩ := hcap htot
      have hroom : s.g.length < MAXG := by
        have : (s.g.length : Int) < (MAXG : Int) := by omega
        exact_mod_cast this
      obtain ⟨e1, e2, e3, e4, e5⟩ := push_event_accounts s.g x.pid s.time
        (rr_body quantum s).time 0 (Or.inl hroom) c3 c4 a3 (by omega)
      rw [hd.chart]
      refine ⟨?_, ?_, ⟨e2, e3⟩, by omega, Or.inl e4⟩
      · rw [hrem]
        have : ((push_event s.g x.pid s.time (rr_body quantum s).time).length : Int) ≤
            (s.g.length : Int) + 1 := by exact_mod_cast e5
        omega
      · rw [e1, hrem]; omega

theorem rr_accounts (p0 : List Process) (hv : ValidWorkload p0) (quantum : Int)
    (hq : 1 ≤ quantum) :
    ∃ r, (∀ fuel, rr_fuel p0 ≤ fuel → rr_loop quantum fuel (rr_init p0) = some r) ∧
      LedgerAccounts r.slices r.time (total_burst p0) ∧ r.g = push_all [] r.slices ∧
      (total_burst p0 ≤ MAXG → LedgerAccounts r.g r.time (total_burst p0)) := by
  obtain ⟨r, h1, -, ⟨h3, h4, h5⟩, h6, h7⟩ := rr_terminates_with p0 hv quantum hq
    (RRAccounted (total_burst p0)) (rr_accounted_init p0 hv)
    (fun s hs hc hJ => rr_accounted_step p0 hv quantum hq s hs hc hJ)
  exact ⟨r, h1, ledger_of_accounted h3 h6 h7, h4,
    fun ht => ledger_of_accounted (h5 ht).2 h6 h7⟩

/-! ## The ledger of `rr` beyond `MAXG` entries -/

theorem push_event_drop (g : GanttChart) (pid s e : Int)
    (hlast : ∀ l ∈ g.getLast?, ¬ (l.pid = pid ∧ l.end_ = s)) (hlen : MAXG ≤ g.length) :
    push_event g pid s e = g := by
  rcases List.eq_nil_or_concat g with rfl | ⟨g1, l, rfl⟩
  · simp [MAXG] at hlen
  · rw [List.concat_eq_append] at hlast hlen ⊢
    have h1 : ¬ (l.pid = pid ∧ l.end_ = s) := hlast l (by simp)
    have h2 : ¬ g1.length + 1 < MAXG := by
      simp only [List.length_append, List.length_singleton] at hlen
      omega
    rw [push_event_concat, if_neg h1, if_neg h2]

theorem chart_total_unit (g : List GanttEvent) (h : ∀ e ∈ g, e.end_ - e.start = 1) :
    chart_total g = g.length := by
  induction g with
  | nil => rfl
  | cons a rest ih =>
    have h1 := h a (by simp)
    have h2 := ih (fun e he => h e (List.mem_cons_of_mem _ he))
    unfold chart_total at h2 ⊢
    simp only [List.map_cons, List.sum_cons, List.length_cons, Nat.cast_add, Nat.cast_one]
    omega

/-- One unmerged unit slice pushed at clock `t` onto a ledger with one entry per time unit
up to `MAXG` entries. -/
theorem capped_push (g : GanttChart) (pid t : Int) (ht : 0 ≤ t)
    (hlen : (g.length : Int) = min t 10000)
    (hends : ∀ e ∈ g, e.end_ - e.start = 1 ∧ e.end_ ≤ min t 10000)
    (hnm : ∀ l ∈ g.getLast?, ¬ (l.pid = pid ∧ l.end_ = t)) :
    ((push_event g pid t (t + 1)).length : Int) = min (t + 1) 10000 ∧
    (∀ e ∈ push_event g pid t (t + 1), e.end_ - e.start = 1 ∧ e.end_ ≤ min (t + 1) 10000) ∧
    (t < 10000 → ∀ l ∈ (push_event g pid t (t + 1)).getLast?, l.pid = pid) := by
  by_cases hlt : t < 10000
  · have hroom : g.length < MAXG := by
      have : (g.length : Int) < 10000 := by omega
      unfold MAXG
      exact_mod_cast this
    rw [push_event_append g pid t (t + 1) hnm hroom]
    refine ⟨?_, ?_, fun _ l hl => ?_⟩
    · simp only [List.length_append, List.length_singleton, Nat.cast_add, Nat.cast_one]
      omega
    · intro e he
      rcases List.mem_append.mp he with he | he
      · have := hends e he
        omega
      · simp only [List.mem_singleton] at he
        subst he
        dsimp only
        omega
    · simp at hl
      subst hl
      rfl
  · have hfull : MAXG ≤ g.length := by
      have : (10000 : Int) ≤ (g.length : Int) := by omega
      unfold MAXG
      exact_mod_cast this
    rw [push_event_drop g pid t (t + 1) hnm hfull]
    refine ⟨by omega, fun e he => ?_, fun h => absurd h hlt⟩
    have := hends e he
    omega

theorem capped_valid : ValidWorkload capped_workload := by
  refine ⟨by decide, by decide, by decide, ?_⟩
  intro x hx
  simp only [capped_workload, List.mem_cons, List.mem_singleton, List.not_mem_nil,
    or_false] at hx
  rcases hx with rfl | rfl <;> decide

/-- One dispatch of `rr` with quantum 1 on `capped_workload`: nobody arrives later, so the
queue only loses its front entry and gets it back when the process is unfinished. -/
theorem capped_dispatch (s : RRState) (h : RRInv capped_workload 1 s) (i : Nat)
    (rest : List Nat) (hq : s.q.toList = i :: rest) (ht : 0 ≤ s.time) :
    ∃ x, s.p[i]? = some x ∧ 0 < x.remaining ∧
      (rr_body 1 s).time = s.time + 1 ∧
      (rr_body 1 s).p = s.p.set i (rr_after 1 s.time x) ∧
      (rr_after 1 s.time x).remaining = x.remaining - 1 ∧
      (rr_after 1 s.time x).pid = x.pid ∧ (rr_after 1 s.time x).arrival = x.arrival ∧
      (rr_body 1 s).q.toList = rest ++ (if x.remaining - 1 = 0 then [] else [i]) ∧
      (rr_body 1 s).g = push_event s.g x.pid s.time (s.time + 1) := by
  have he : q_empty s.q = false := by
    cases hE : q_empty s.q with
    | false => rfl
    | true =>
      have := (q_empty_iff s.q h.qwf).mp hE
      rw [hq] at this
      exact absurd this (List.cons_ne_nil _ _)
  obtain ⟨i2, rest2, x, hL, hx, hxr, hxa, hd⟩ :=
    rr_dispatch_post capped_workload (by decide) 1 (le_refl _) s h he
  rw [hq] at hL
  obtain ⟨rfl, rfl⟩ := List.cons.inj hL
  have hinv2 := rr_inv_step capped_workload capped_valid 1 (le_refl _) s h
  have hrun : rr_run 1 x = 1 := by
    unfold rr_run
    split_ifs <;> omega
  have htime : (rr_body 1 s).time = s.time + 1 := by rw [hd.time, hrun]
  obtain ⟨hpid3, harr3, -, -⟩ := static_fields (rr_after_static 1 s.time x)
  have hrem3 := rr_after_remaining 1 s.time x
  rw [hrun] at hrem3
  have harr : ∀ y ∈ (rr_body 1 s).p, y.arrival = 0 := by
    have := forall_of_static_perm (fun t => t.2.1 = 0) (List.Perm.of_eq hinv2.static)
      (by
        intro y hy
        simp only [capped_workload, List.mem_cons, List.mem_singleton, List.not_mem_nil,
          or_false] at hy
        rcases hy with rfl | rfl <;> rfl)
    exact this
  have hnone : where_idx (rr_arrived s.time (rr_body 1 s).time) (rr_body 1 s).p 0 = [] := by
    rw [List.eq_nil_iff_forall_not_mem]
    intro j hj
    obtain ⟨y, hy, hc⟩ := (mem_where_idx _ _ j).mp hj
    have := harr y (List.getElem?_mem hy)
    simp only [rr_arrived, decide_eq_true_eq] at hc
    omega
  refine ⟨x, hx, hxr, htime, hd.procs, hrem3, hpid3, harr3, ?_, ?_⟩
  · rw [hd.queue, hnone, hrun, List.append_nil]
  · rw [hd.chart, htime]

theorem capped_step (s : RRState) (h : RRInv capped_workload 1 s) (hc : rr_cond s = true)
    (hJ : CappedInv s) : CappedInv (rr_body 1 s) := by
  obtain ⟨x0, x1, hp, ⟨hp0, ha0⟩, ⟨hp1, ha1⟩, ht, hsum, hphase, hlen, hends⟩ := hJ
  have hnm_end : s.time = 10001 → ∀ pid, ∀ l ∈ s.g.getLast?, ¬ (l.pid = pid ∧ l.end_ = s.time) := by
    intro h1 pid l hl hcon
    have := hends l (List.mem_of_mem_getLast? hl)
    omega
  rcases hphase with ⟨hq, hr, hr1, hlast⟩ | ⟨hq, hr, hr1, hlast⟩ | ⟨hq, hr0, hr1⟩ | ⟨hq, hr0, hr1⟩
  · obtain ⟨x, hx, hxr, d1, d2, d3, d4, d5, d6, d7⟩ := capped_dispatch s h 0 [1] hq ht
    rw [hp] at hx d2
    simp only [List.getElem?_cons_zero, Option.some.injEq] at hx
    subst hx
    simp only [List.set_cons_zero] at d2
    obtain ⟨g1, g2, g3⟩ := capped_push s.g x0.pid s.time ht hlen hends
      (fun l hl hcon => by have := hlast l hl; omega)
    rw [← d7] at g1 g2 g3
    rw [← d1] at g1 g2
    refine ⟨_, x1, d2, ⟨by omega, by omega⟩, ⟨hp1, ha1⟩, by omega, by omega, ?_, g1, g2⟩
    by_cases hz : x0.remaining - 1 = 0
    · rw [if_pos hz] at d6
      exact Or.inr (Or.inr (Or.inl ⟨d6, by omega, by omega⟩))
    · rw [if_neg hz] at d6
      refine Or.inr (Or.inl ⟨d6, by omega, by omega, ?_⟩)
      intro l hl
      have := g3 (by omega) l hl
      omega
  · obtain ⟨x, hx, hxr, d1, d2, d3, d4, d5, d6, d7⟩ := capped_dispatch s h 1 [0] hq ht
    rw [hp] at hx d2
    simp only [List.getElem?_cons_succ, List.getElem?_cons_zero, Option.some.injEq] at hx
    subst hx
    simp only [List.set_cons_succ, List.set_cons_zero] at d2
    obtain ⟨g1, g2, g3⟩ := capped_push s.g x1.pid s.time ht hlen hends
      (fun l hl hcon => by have := hlast l hl; omega)
    rw [← d7] at g1 g2 g3
    rw [← d1] at g1 g2
    have hz : ¬ x1.remaining - 1 = 0 := by omega
    rw [if_neg hz] at d6
    refine ⟨x0, _, d2, ⟨hp0, ha0⟩, ⟨by omega, by omega⟩, by omega, by omega, ?_, g1, g2⟩
    refine Or.inl ⟨d6, by omega, hr1, ?_⟩
    intro l hl
    have := g3 (by omega) l hl
    omega
  · obtain ⟨x, hx, hxr, d1, d2, d3, d4, d5, d6, d7⟩ := capped_dispatch s h 1 [] hq ht
    rw [hp] at hx d2
    simp only [List.getElem?_cons_succ, List.getElem?_cons_zero, Option.some.injEq] at hx
    subst hx
    simp only [List.set_cons_succ, List.set_cons_zero] at d2
    obtain ⟨g1, g2, -⟩ := capped_push s.g x1.pid s.time ht hlen hends
      (hnm_end (by omega) x1.pid)
    rw [← d7] at g1 g2
    rw [← d1] at g1 g2
    have hz : x1.remaining - 1 = 0 := by omega
    rw [if_pos hz] at d6
    refine ⟨x0, _, d2, ⟨hp0, ha0⟩, ⟨by omega, by omega⟩, by omega, by omega, ?_, g1, g2⟩
    exact Or.inr (Or.inr (Or.inr ⟨d6, hr0, by omega⟩))
  · exfalso
    obtain ⟨z, hz, hzr⟩ := rr_exists_unfinished capped_workload 1 s h hc
    rw [hp] at hz
    simp only [List.mem_cons, List.mem_singleton, List.not_mem_nil, or_false] at hz
    rcases hz with rfl | rfl <;> omega

set_option maxRecDepth 100000 in
theorem capped_init : CappedInv (rr_init capped_workload) := by
  refine ⟨_, _, rfl, ⟨rfl, rfl⟩, ⟨rfl, rfl⟩, by decide, by decide, Or.inl ⟨by decide, by decide, by decide, ?_⟩,
    by decide, ?_⟩
  · intro l hl
    have hg : (rr_init capped_workload).g = [] := rfl
    rw [hg] at hl
    simp at hl
  · intro e he
    exact absurd he (List.not_mem_nil e)

/-- C17, as stated, fails for `rr`: on the valid workload of two processes that arrive at 0
with burst 5001 each, with quantum 1, `rr` returns with the clock at 10002, the sum of
the bursts, while its ledger holds `MAXG` = 10000 slices of length 1, the last of which
ends at 10000 at the latest: the last recorded slice does not end at the final clock and
the recorded durations sum to 10000, not to the sum of the bursts. -/
theorem rr_ledger_stops_at_maxg :
    ValidWorkload capped_workload ∧ total_burst capped_workload = 10002 ∧
    ∃ s, (∀ fuel, rr_fuel capped_workload ≤ fuel →
        rr_loop 1 fuel (rr_init capped_workload) = some s ∧
        (rr fuel capped_workload 1).map RunResult.chart = some s.g) ∧
      s.time = 10002 ∧ s.g.length = MAXG ∧
      s.g.getLast?.map GanttEvent.end_ ≠ some s.time ∧
      chart_total s.g = 10000 ∧ chart_total s.g ≠ total_burst capped_workload := by
  refine ⟨capped_valid, by decide, ?_⟩
  obtain ⟨r, h1, -, hJ, -, h5⟩ := rr_terminates_with capped_workload capped_valid 1
    (le_refl _) CappedInv capped_init (fun s hs hc hJ => capped_step s hs hc hJ)
  obtain ⟨x0, x1, hp, -, -, ht, hsum, -, hlen, hends⟩ := hJ
  have h0 : x0.remaining = 0 := h5 x0 (by rw [hp]; simp)
  have h1r : x1.remaining = 0 := h5 x1 (by rw [hp]; simp)
  have htime : r.time = 10002 := by omega
  have hlen2 : r.g.length = 10000 := by
    have : (r.g.length : Int) = 10000 := by omega
    exact_mod_cast this
  have htot : chart_total r.g = 10000 := by
    rw [chart_total_unit r.g (fun e he => (hends e he).1), hlen2]
    rfl
  refine ⟨r, ?_, htime, hlen2, ?_, htot, ?_⟩
  · intro fuel hf
    refine ⟨h1 fuel hf, ?_⟩
    unfold rr
    rw [h1 fuel hf]
    rfl
  · intro hcon
    cases hl : r.g.getLast? with
    | none => rw [hl] at hcon; simp at hcon
    | some l =>
      rw [hl] at hcon
      simp only [Option.map_some', Option.some.injEq] at hcon
      have := hends l (List.mem_of_mem_getLast? hl)
      omega
  · rw [htot]
    decide

/-! ## Simulation of `fcfs` by the other loops -/

theorem fcfs_chart_eq (p : List Process) :
    (fcfs p).chart = (fcfs_run (fcfs_order p) 0 []).2.2 := rfl

/-- The dispatch loop of `fcfs` depends on the clock only through the start of the first
process. -/
theorem fcfs_run_clock (h : Process) (rest : List Process) (t t2 : Int) (g : GanttChart)
    (ht : (if t < h.arrival then h.arrival else t) =
      (if t2 < h.arrival then h.arrival else t2)) :
    (fcfs_run (h :: rest) t g).2.2 = (fcfs_run (h :: rest) t2 g).2.2 := by
  simp only [fcfs_run, ht]

theorem pid_perm_of_static {l p : List Process}
    (h : (l.map Process.static).Perm (p.map Process.static)) :
    (l.map Process.pid).Perm (p.map Process.pid) := by
  have h1 : ∀ q : List Process, q.map Process.pid = (q.map Process.static).map (fun s => s.1) := by
    intro q
    simp [Function.comp_def, Process.static]
  rw [h1, h1]
  exact h.map _

theorem exists_static_of_perm {l p : List Process}
    (h : (l.map Process.static).Perm (p.map Process.static)) {x : Process} (hx : x ∈ l) :
    ∃ y ∈ p, y.static = x.static := by
  have : x.static ∈ p.map Process.static := h.mem_iff.mp (List.mem_map_of_mem _ hx)
  obtain ⟨y, hy, hxy⟩ := List.mem_map.mp this
  exact ⟨y, hy, hxy⟩

theorem fcfs_order_ctx (p0 : List Process) (hv : ValidWorkload p0)
    (ho : PidOrderIsArrivalOrder p0) : SimCtx p0 (fcfs_order p0) := by
  have hperm := fcfs_sorted_static p0
  have hsorted := fcfs_sort_sorted (reset_stats p0).length (reset_stats p0) (le_refl _)
  rw [← fcfs_sort_loops_eq] at hperm hsorted
  have hnd : ((fcfs_order p0).map Process.pid).Nodup :=
    (pid_perm_of_static hperm).nodup_iff.mpr hv.2.2.1
  refine ⟨hperm, ?_, hv.2.2.1, hv.2.2.2⟩
  have hboth : (fcfs_order p0).Pairwise (fun a b => (¬ fcfs_before b a) ∧ a.pid ≠ b.pid) :=
    hsorted.and (List.pairwise_map.mp hnd)
  refine List.Pairwise.imp_of_mem ?_ hboth
  intro a b ha hb ⟨h1, h2⟩
  obtain ⟨a2, ha2, hsa⟩ := exists_static_of_perm hperm ha
  obtain ⟨b2, hb2, hsb⟩ := exists_static_of_perm hperm hb
  obtain ⟨pa, aa, -, -⟩ := static_fields hsa
  obtain ⟨pb, ab, -, -⟩ := static_fields hsb
  unfold fcfs_before at h1
  have hlt : a.pid < b.pid := by
    by_contra hcon
    have hlt2 : b2.pid < a2.pid := by omega
    have := ho b2 hb2 a2 ha2 hlt2
    apply h1
    by_cases he : b.arrival = a.arrival
    · exact Or.inr ⟨he, by omega⟩
    · exact Or.inl (by omega)
  refine ⟨?_, hlt⟩
  by_contra hcon
  exact h1 (Or.inl (by omega))

/-- The head of the part of `L` that `fcfs` has yet to dispatch: it is an unfinished
process of the array, and of all unfinished processes it arrives first and has the
least pid. -/
theorem sim_head {p0 L : List Process} (ctx : SimCtx p0 L) (P : List Process)
    (hP : P.map Process.static = p0.map Process.static) (hrun : ∀ x ∈ P, 0 ≤ x.remaining)
    (pre suf : List Process) (hL : L = pre ++ suf)
    (hfin : ∀ x ∈ P, x.remaining = 0 ↔ x.pid ∈ pre.map Process.pid)
    (z : Process) (hz : z ∈ P) (hzr : 0 < z.remaining) :
    ∃ h rest, suf = h :: rest ∧ (∃ y ∈ P, y.static = h.static ∧ 0 < y.remaining) ∧
      ∀ w ∈ P, 0 < w.remaining →
        h.arrival ≤ w.arrival ∧ h.pid ≤ w.pid ∧ (w.pid = h.pid → w.static = h.static) := by
  have hPL : (P.map Process.static).Perm (L.map Process.static) := by
    rw [hP]; exact ctx.perm.symm
  have hndL : (L.map Process.pid).Nodup := (pid_perm_of_static ctx.perm).nodup_iff.mpr ctx.nodup
  have hA : ∀ w ∈ P, 0 < w.remaining → ∃ h2 ∈ suf, h2.static = w.static := by
    intro w hw hwr
    obtain ⟨h2, hh2, hs⟩ := exists_static_of_perm hPL hw
    rw [hL] at hh2
    rcases List.mem_append.mp hh2 with hin | hin
    · exfalso
      have hpid := (static_fields hs).1
      have : w.remaining = 0 := (hfin w hw).mpr (by rw [← hpid]; exact List.mem_map_of_mem _ hin)
      omega
    · exact ⟨h2, hin, hs⟩
  obtain ⟨h0, hh0, -⟩ := hA z hz hzr
  cases suf with
  | nil => exact absurd hh0 (List.not_mem_nil _)
  | cons h rest =>
    refine ⟨h, rest, rfl, ?_, ?_⟩
    · have hhL : h ∈ L := by rw [hL]; simp
      obtain ⟨y, hy, hs⟩ := exists_static_of_perm hPL.symm hhL
      refine ⟨y, hy, hs, ?_⟩
      have hne : y.remaining ≠ 0 := by
        intro h0r
        have hin := (hfin y hy).mp h0r
        rw [(static_fields hs).1] at hin
        rw [hL, List.map_append, List.map_cons] at hndL
        have := (List.nodup_append.mp hndL).2.2
        exact this hin (by simp)
      have := hrun y hy
      omega
    · intro w hw hwr
      obtain ⟨h2, hh2, hs⟩ := hA w hw hwr
      obtain ⟨hp, ha, -, -⟩ := static_fields hs
      rcases List.mem_cons.mp hh2 with rfl | hin
      · exact ⟨by omega, by omega, fun _ => hs.symm⟩
      · have hsorted := ctx.sorted
        rw [hL, List.pairwise_append] at hsorted
        have := (List.pairwise_cons.mp hsorted.2.1).1 h2 hin
        exact ⟨by omega, by omega, fun he => by omega⟩

theorem sim_done {p0 L : List Process} (ctx : SimCtx p0 L) (P : List Process)
    (hP : P.map Process.static = p0.map Process.static) (hz : ∀ x ∈ P, x.remaining = 0)
    (target : GanttChart) (time : Int) (g : GanttChart) (h : SimFcfs L target P time g) :
    g = target := by
  obtain ⟨pre, suf, hL, hfin, hchart⟩ := h
  have hndL : (L.map Process.pid).Nodup := (pid_perm_of_static ctx.perm).nodup_iff.mpr ctx.nodup
  cases suf with
  | nil => simpa [fcfs_run] using hchart
  | cons h rest =>
    exfalso
    have hPL : (L.map Process.static).Perm (P.map Process.static) := by
      rw [hP]; exact ctx.perm
    have hhL : h ∈ L := by rw [hL]; simp
    obtain ⟨y, hy, hs⟩ := exists_static_of_perm hPL hhL
    have hin := (hfin y hy).mp (hz y hy)
    rw [(static_fields hs).1] at hin
    rw [hL, List.map_append, List.map_cons] at hndL
    exact (List.nodup_append.mp hndL).2.2 hin (by simp)

theorem sim_init {p0 L : List Process} (ctx : SimCtx p0 L) (t : Int)
    (ht : 0 ≤ t) (hle : ∀ x ∈ p0, t ≤ x.arrival) :
    SimFcfs L (fcfs_run L 0 []).2.2 (reset_stats p0) t [] := by
  refine ⟨[], L, rfl, ?_, ?_⟩
  · intro x hx
    unfold reset_stats at hx
    obtain ⟨y, hy, rfl⟩ := List.mem_map.mp hx
    have := (input_range_bounds (ctx.range y hy)).2.2.1
    simp only [List.map_nil, List.not_mem_nil, iff_false]
    show ¬ y.burst = 0
    omega
  · cases hL : L with
    | nil => rfl
    | cons h rest =>
      have hhL : h ∈ L := by rw [hL]; simp
      obtain ⟨y, hy, hs⟩ := exists_static_of_perm ctx.perm hhL
      have := hle y hy
      have ha := (static_fields hs).2.1
      apply fcfs_run_clock
      split_ifs <;> omega

/-- One iteration of `priority_np` on a workload of equal priorities keeps simulating
`fcfs`. -/
theorem np_sim_step {p0 L : List Process} (ctx : SimCtx p0 L)
    (c : Int) (hc : ∀ x ∈ p0, x.priority = c) (target : GanttChart) (s : NPState)
    (h : NPInv p0 s) (hcond : np_cond s = true) (hJ : SimFcfs L target s.p s.time s.g) :
    SimFcfs L target (np_body Process.priority s).p (np_body Process.priority s).time
      (np_body Process.priority s).g := by
  obtain ⟨pre, suf, hL, hfin, hchart⟩ := hJ
  have hr2 := range_of_static h.static ctx.range
  have hrun : ∀ x ∈ s.p, 0 ≤ x.remaining := by
    intro x hx
    have := (input_range_bounds (hr2 x hx)).2.2.1
    rcases h.run x hx with h1 | ⟨h1, -⟩ <;> omega
  have hprio : ∀ x ∈ s.p, x.priority = c := by
    have := forall_of_static_perm (fun t => t.2.2.2 = c) (List.Perm.of_eq h.static) hc
    exact this
  have hsel := np_select_spec Process.priority s.p s.time
  cases hs : np_select Process.priority s.p s.time with
  | none =>
    rw [np_body_none hs]
    obtain ⟨z, hz, hzr⟩ := np_exists_unfinished p0 ctx.range s h hcond
    have hne := np_select_none_no_eligible Process.priority
      (fun x hx => (input_range_bounds hx).2.2.2.2) s.p hr2 s.time hs
    have hlate : ∀ w ∈ s.p, 0 < w.remaining → s.time < w.arrival := by
      intro w hw hwr
      have := hne w hw
      unfold eligible at this
      omega
    obtain ⟨n1, ⟨w, hw, hwr, hwa⟩, n3⟩ := next_arrival_time_least s.p s.time
      (fun x hx => (input_range_bounds (hr2 x hx)).2.1) ⟨z, hz, hzr, hlate z hz hzr⟩
    obtain ⟨hd, rest, rfl, ⟨y, hy, hys, hyr⟩, hmin⟩ :=
      sim_head ctx s.p h.static hrun pre suf hL hfin z hz hzr
    have hya := (static_fields hys).2.1
    have h1 := n3 y hy hyr (hlate y hy hyr)
    have h2 := (hmin w hw hwr).1
    refine ⟨pre, hd :: rest, hL, hfin, ?_⟩
    rw [← hchart]
    apply fcfs_run_clock
    have := hlate y hy hyr
    dsimp only
    split_ifs <;> omega
  | some idx =>
    rw [hs] at hsel
    obtain ⟨x, hx, he, hmin0⟩ := hsel
    rw [np_body_some hs hx]
    have hxm : x ∈ s.p := List.getElem?_mem hx
    obtain ⟨hd, rest, rfl, ⟨y, hy, hys, hyr⟩, hmin⟩ :=
      sim_head ctx s.p h.static hrun pre suf hL hfin x hxm he.1
    obtain ⟨hyp, hya, -, -⟩ := static_fields hys
    have hx1 := hmin x hxm he.1
    have hye : eligible s.time y := ⟨hyr, by have := he.2; omega⟩
    have hle := hmin0 y hy hye
    unfold lex_le at hle
    have hpx := hprio x hxm
    have hpy := hprio y hy
    have hxs : x.static = hd.static := hx1.2.2 (by omega)
    obtain ⟨hxp, hxa, hxb, -⟩ := static_fields hxs
    have hnd2 : ((s.p.set idx (np_finish s.time x)).map Process.pid).Nodup := by
      have : (s.p.set idx (np_finish s.time x)).map Process.static = p0.map Process.static := by
        rw [map_static_set s.p idx _ (fun x2 hx2 => by
          rw [hx] at hx2
          cases hx2
          rfl)]
        exact h.static
      exact pid_nodup_of_static this ctx.nodup
    have hfm : np_finish s.time x ∈ s.p.set idx (np_finish s.time x) :=
      List.mem_set s.p idx (List.getElem?_eq_some.mp hx).1 _
    refine ⟨pre ++ [hd], rest, by rw [hL]; simp, ?_, ?_⟩
    · intro z hz
      dsimp only at hz
      by_cases hzp : z.pid = x.pid
      · have hzf : z = np_finish s.time x := eq_of_pid_eq hnd2 hz hfm hzp
        constructor
        · intro _
          simp only [List.map_append, List.map_cons, List.map_nil, List.mem_append,
            List.mem_singleton]
          exact Or.inr (by omega)
        · intro _
          rw [hzf]
          rfl
      · rcases mem_set_cases hz with hza | ⟨hzm, -⟩
        · exact absurd (by rw [hza]; rfl) hzp
        · rw [hfin z hzm]
          simp only [List.map_append, List.map_cons, List.map_nil, List.mem_append,
            List.mem_singleton]
          constructor
          · intro h1; exact Or.inl h1
          · rintro (h1 | h1)
            · exact h1
            · exact absurd (by omega) hzp
    · rw [← hchart]
      simp only [fcfs_run]
      have : ¬ s.time < hd.arrival := by have := he.2; omega
      rw [if_neg this, hxp, hxb]

theorem np_init_time (p0 : List Process) (hr : ∀ x ∈ p0, InputRange x) :
    0 ≤ (np_init p0).time ∧ ∀ x ∈ p0, (np_init p0).time ≤ x.arrival := by
  have h0 := earliest_arrival_nonneg _ (arrival_reset_nonneg p0 hr)
  obtain ⟨-, h2, -⟩ := earliest_scan_spec (reset_stats p0) INT_MAX
  show 0 ≤ (if earliest_arrival (reset_stats p0) ≠ INT_MAX then
      earliest_arrival (reset_stats p0) else 0) ∧ ∀ x ∈ p0,
    (if earliest_arrival (reset_stats p0) ≠ INT_MAX then
      earliest_arrival (reset_stats p0) else 0) ≤ x.arrival
  refine ⟨by split_ifs <;> omega, fun x hx => ?_⟩
  have h3 := h2 _ (List.mem_map_of_mem (fun x : Process =>
    { x with remaining := x.burst, start_time := -1, completion_time := -1,
             waiting_time := 0, turnaround_time := 0, started := 0 }) hx)
  have h4 : earliest_arrival (reset_stats p0) ≤ x.arrival := h3
  have := (input_range_bounds (hr x hx)).1
  split_ifs <;> omega

theorem picks_smallest_pid (p0 : List Process) (c : Int) (hc : ∀ x ∈ p0, x.priority = c)
    (s : NPState) (hs : s.p.map Process.static = p0.map Process.static) :
    PicksSmallestPid s := by
  intro idx hsel
  obtain ⟨x, hx, hxr, hxa, hmin, hbody⟩ := selects_minimal Process.priority s idx hsel
  have hprio : ∀ x ∈ s.p, x.priority = c := by
    have := forall_of_static_perm (fun t => t.2.2.2 = c) (List.Perm.of_eq hs) hc
    exact this
  refine ⟨x, hx, hxr, hxa, ?_, hbody⟩
  intro y hy hyr hya
  have h1 := hmin y hy hyr hya
  have h2 := hprio x (List.getElem?_mem hx)
  have h3 := hprio y hy
  omega

/-- C16, as stated, fails: on three processes of equal priority with P1 (arrival 0, burst
5), P2 (arrival 2, burst 1) and P3 (arrival 1, burst 1), `fcfs` dispatches P1, P3, P2 (the
order of arrival) while `priority_np` dispatches P1, P2, P3 (the smaller pid first among
the two that are ready at time 5). -/
theorem priority_np_equal_priorities_is_not_fcfs :
    ValidWorkload crossed_workload ∧ (∀ x ∈ crossed_workload, x.priority = 1) ∧
    (fcfs crossed_workload).chart = [⟨1, 0, 5⟩, ⟨3, 5, 6⟩, ⟨2, 6, 7⟩] ∧
    (priority_np 8 crossed_workload).map RunResult.chart =
      some [⟨1, 0, 5⟩, ⟨2, 5, 6⟩, ⟨3, 6, 7⟩] ∧
    (priority_np 8 crossed_workload).map RunResult.chart ≠
      some (fcfs crossed_workload).chart := by
  decide

/-- C16 (amended): on every valid workload in which all processes have the same priority
value, `priority_np` picks the ready process of smallest pid at every decision point;
and when, in addition, the order of the pids agrees with the order of the arrivals (the
process with the smaller pid arrives no later), it returns and its ledger is the ledger
of `fcfs` on that workload. -/
theorem priority_np_equal_priorities (p : List Process) (hv : ValidWorkload p) (c : Int)
    (hc : ∀ x ∈ p, x.priority = c) :
    (∀ k, PicksSmallestPid (np_state Process.priority p k)) ∧
    (PidOrderIsArrivalOrder p → ∀ fuel, 2 * p.length + 2 ≤ fuel →
      (priority_np fuel p).map RunResult.chart = some (fcfs p).chart) := by
  refine ⟨fun k => picks_smallest_pid p c hc _ (np_state_static Process.priority p k), ?_⟩
  intro ho fuel hf
  have ctx := fcfs_order_ctx p hv ho
  obtain ⟨t0, tle⟩ := np_init_time p hv.2.2.2
  obtain ⟨r, h1, h2, h3, -, h5⟩ := np_terminates_with Process.priority
    (fun x h => (input_range_bounds h).2.2.2.2) p hv
    (fun s => SimFcfs (fcfs_order p) (fcfs p).chart s.p s.time s.g)
    (sim_init ctx (np_init p).time t0 tle)
    (fun s hs hcond hJ => np_sim_step ctx c hc _ s hs hcond hJ)
  have := sim_done ctx r.p h2.static h5 _ _ _ h3
  unfold priority_np
  rw [h1 fuel hf, ← this]
  rfl

theorem priority_np_equal_priorities_witness :
    ValidWorkload example_workload ∧ (∀ x ∈ example_workload, x.priority = 1) ∧
    PidOrderIsArrivalOrder example_workload ∧
    (priority_np 8 example_workload).map RunResult.chart =
      some (fcfs example_workload).chart :=
  ⟨by decide, by decide, by decide,
    (priority_np_equal_priorities example_workload (by decide) 1 (by decide)).2
      (by decide) 8 (by decide)⟩

/-! ## Round-Robin without preemption -/

theorem fcfs_inner_of_sorted (pi : Process) (rest : List Process)
    (h : ∀ pj ∈ rest, ¬ fcfs_before pj pi) : fcfs_inner pi rest = (pi, rest) := by
  induction rest with
  | nil => rfl
  | cons pj rest ih =>
    simp only [fcfs_inner]
    rw [if_neg (h pj (by simp)), ih (fun x hx => h x (List.mem_cons_of_mem _ hx))]

theorem fcfs_sort_of_sorted (k : Nat) :
    ∀ l : List Process, l.Pairwise (fun a b => ¬ fcfs_before b a) → fcfs_sort k l = l := by
  induction k with
  | zero => intro l _; rfl
  | succ k ih =>
    intro l hl
    cases l with
    | nil => rfl
    | cons pi rest =>
      obtain ⟨h1, h2⟩ := List.pairwise_cons.mp hl
      simp only [fcfs_sort]
      rw [fcfs_inner_of_sorted pi rest h1]
      dsimp only
      rw [ih rest h2]

theorem stored_of_static {P p0 : List Process}
    (h : P.map Process.static = p0.map Process.static) (hs : StoredInOrder p0) :
    StoredInOrder P := by
  have key : ∀ q : List Process, StoredInOrder q ↔
      (q.map Process.static).Pairwise (fun a b => a.1 < b.1 ∧ a.2.1 ≤ b.2.1) := by
    intro q
    unfold StoredInOrder
    rw [List.pairwise_map]
    rfl
  rw [key, h, ← key]
  exact hs

theorem fcfs_order_of_stored (p0 : List Process) (hs : StoredInOrder p0) :
    fcfs_order p0 = reset_stats p0 := by
  unfold fcfs_order
  rw [fcfs_sort_loops_eq]
  apply fcfs_sort_of_sorted
  have := stored_of_static (static_reset_stats p0) hs
  refine List.Pairwise.imp ?_ this
  intro a b hab
  unfold fcfs_before
  omega

theorem pid_order_of_stored (p0 : List Process) (hs : StoredInOrder p0) :
    PidOrderIsArrivalOrder p0 := by
  intro x hx y hy hlt
  obtain ⟨i, hi⟩ := List.mem_iff_getElem?.mp hx
  obtain ⟨j, hj⟩ := List.mem_iff_getElem?.mp hy
  rcases Nat.lt_trichotomy i j with hij | hij | hij
  · exact (pairwise_getElem? hs hij hi hj).2
  · subst hij
    rw [hi] at hj
    cases hj
    omega
  · have := (pairwise_getElem? hs hij hj hi).1
    omega

/-- In an array stored in order, a process at a smaller or equal index has a smaller or
equal pid and arrives no later. -/
theorem stored_index_le {P : List Process} (hs : StoredInOrder P) {i j : Nat}
    {a b : Process} (hij : i ≤ j) (ha : P[i]? = some a) (hb : P[j]? = some b) :
    a.pid ≤ b.pid ∧ a.arrival ≤ b.arrival := by
  rcases Nat.lt_or_eq_of_le hij with h | h
  · have := pairwise_getElem? hs h ha hb
    omega
  · subst h
    rw [ha] at hb
    cases hb
    omega

theorem rr_init_queue (p0 : List Process) (hlen : p0.length ≤ MAXP) :
    (rr_init p0).q.toList =
      where_idx (fun x => decide (x.arrival = earliest_arrival (reset_stats p0)))
        (reset_stats p0) 0 := by
  have hn : (reset_stats p0).length ≤ MAXP := by rw [length_reset_stats]; exact hlen
  have hwf0 : QWF q_init := ⟨by simp [q_init], le_rfl⟩
  have hL0 : q_init.toList = [] := by simp [Queue.toList, q_init]
  have hcap : (where_idx (fun x => decide (x.arrival = earliest_arrival (reset_stats p0)))
      (reset_stats p0) 0).length ≤ MAXP := by
    refine le_trans (length_le_of_nodup_lt _ (reset_stats p0).length (where_idx_nodup _ _) ?_) hn
    intro j hj
    obtain ⟨y, hy, -⟩ := (mem_where_idx _ _ j).mp hj
    exact (List.getElem?_eq_some.mp hy).1
  obtain ⟨hQ, -⟩ := enqueue_where_toList
    (fun x => decide (x.arrival = earliest_arrival (reset_stats p0)))
    (reset_stats p0) 0 q_init hwf0 (by rw [hL0]; simpa using hcap)
  rw [hL0, List.nil_append] at hQ
  exact hQ

theorem fcfs_run_clock_all (h : Process) (rest : List Process) (t t2 : Int) (g : GanttChart)
    (ht : (if t < h.arrival then h.arrival else t) =
      (if t2 < h.arrival then h.arrival else t2)) :
    fcfs_run (h :: rest) t g = fcfs_run (h :: rest) t2 g := by
  simp only [fcfs_run, ht]

theorem rr_init_time (p0 : List Process) (hr : ∀ x ∈ p0, InputRange x) :
    0 ≤ (rr_init p0).time ∧ ∀ x ∈ p0, (rr_init p0).time ≤ x.arrival := by
  have h0 := earliest_arrival_nonneg _ (arrival_reset_nonneg p0 hr)
  obtain ⟨-, h2, -⟩ := earliest_scan_spec (reset_stats p0) INT_MAX
  refine ⟨h0, fun x hx => ?_⟩
  have h3 := h2 _ (List.mem_map_of_mem (fun x : Process =>
    { x with remaining := x.burst, start_time := -1, completion_time := -1,
             waiting_time := 0, turnaround_time := 0, started := 0 }) hx)
  exact h3

theorem static_at {P Q : List Process} (h : P.map Process.static = Q.map Process.static)
    {b : Nat} {x : Process} (hb : P[b]? = some x) :
    ∃ y, Q[b]? = some y ∧ y.static = x.static := by
  have h1 : (P.map Process.static)[b]? = some x.static := by
    rw [List.getElem?_map, hb]; rfl
  rw [h, List.getElem?_map] at h1
  cases hq : Q[b]? with
  | none => rw [hq] at h1; simp at h1
  | some y =>
    rw [hq] at h1
    simp only [Option.map_some', Option.some.injEq] at h1
    exact ⟨y, rfl, h1⟩

theorem rr_after_times (quantum time : Int) (x : Process) (h1 : x.started = 0)
    (h2 : x.remaining - rr_run quantum x = 0) :
    (rr_after quantum time x).times = (x.pid, time, time + rr_run quantum x) := by
  unfold rr_after rr_ran Process.times
  rw [if_pos h2]
  simp [h1]

theorem sim_suf_nil {p0 L : List Process} (ctx : SimCtx p0 L) (P : List Process)
    (hP : P.map Process.static = p0.map Process.static) (hz : ∀ x ∈ P, x.remaining = 0)
    (pre suf : List Process) (hL : L = pre ++ suf)
    (hfin : ∀ x ∈ P, x.remaining = 0 ↔ x.pid ∈ pre.map Process.pid) : suf = [] := by
  have hndL : (L.map Process.pid).Nodup := (pid_perm_of_static ctx.perm).nodup_iff.mpr ctx.nodup
  cases suf with
  | nil => rfl
  | cons h rest =>
    exfalso
    have hPL : (L.map Process.static).Perm (P.map Process.static) := by
      rw [hP]; exact ctx.perm
    have hhL : h ∈ L := by rw [hL]; simp
    obtain ⟨y, hy, hs⟩ := exists_static_of_perm hPL hhL
    have hin := (hfin y hy).mp (hz y hy)
    rw [(static_fields hs).1] at hin
    rw [hL, List.map_append, List.map_cons] at hndL
    exact (List.nodup_append.mp hndL).2.2 hin (by simp)

theorem rr_sim_init {p0 L : List Process} (ctx : SimCtx p0 L) (hlen : p0.length ≤ MAXP) :
    RRSim L (fcfs_run L 0 []).1 (fcfs_run L 0 []).2.2 (rr_init p0) := by
  obtain ⟨t0, tle⟩ := rr_init_time p0 ctx.range
  have hrun : (fcfs_run L (rr_init p0).time []).1 = (fcfs_run L 0 []).1 ∧
      (fcfs_run L (rr_init p0).time []).2.2 = (fcfs_run L 0 []).2.2 := by
    cases hL : L with
    | nil => exact ⟨rfl, rfl⟩
    | cons h rest =>
      have hhL : h ∈ L := by rw [hL]; simp
      obtain ⟨y, hy, hs⟩ := exists_static_of_perm ctx.perm hhL
      have := tle y hy
      have ha := (static_fields hs).2.1
      rw [fcfs_run_clock_all h rest (rr_init p0).time 0 [] (by split_ifs <;> omega)]
      exact ⟨rfl, rfl⟩
  have hreset : ∀ x ∈ (rr_init p0).p, x.remaining = x.burst ∧ x.started = 0 ∧ 1 ≤ x.burst := by
    intro x hx
    have hx2 : x ∈ reset_stats p0 := hx
    unfold reset_stats at hx2
    obtain ⟨y, hy, rfl⟩ := List.mem_map.mp hx2
    exact ⟨rfl, rfl, (input_range_bounds (ctx.range y hy)).2.2.1⟩
  refine ⟨?_, fun x hx => Or.inl ⟨(hreset x hx).1, (hreset x hx).2.1⟩, [], L, [], rfl, ?_, ?_, ?_,
    ?_⟩
  · rw [rr_init_queue p0 hlen]
    exact where_idx_sorted _ _
  · intro x hx
    have := hreset x hx
    simp only [List.map_nil, List.not_mem_nil, iff_false]
    omega
  · exact hrun.2
  · show _ = [] ++ (fcfs_run L (rr_init p0).time []).1
    rw [hrun.1]
    rfl
  · intro x hx h0
    have := hreset x hx
    omega

/-- One iteration of `rr` with a quantum no smaller than any burst, on an array stored in
order, keeps simulating `fcfs`. -/
theorem rr_sim_step {p0 L : List Process} (ctx : SimCtx p0 L) (hlen : p0.length ≤ MAXP)
    (hs : StoredInOrder p0) (quantum : Int) (hq1 : 1 ≤ quantum)
    (hq : ∀ x ∈ p0, x.burst ≤ quantum) (recs : List Process) (target : GanttChart)
    (s : RRState) (h : RRInv p0 quantum s) (hcond : rr_cond s = true)
    (hJ : RRSim L recs target s) : RRSim L recs target (rr_body quantum s) := by
  obtain ⟨hqs, hU, pre, suf, done, hL, hfin, hchart, hrecs, hdone⟩ := hJ
  have hr2 := range_of_static h.static ctx.range
  have hra : ∀ x ∈ p0, x.arrival < INT_MAX := fun x hx => (input_range_bounds (ctx.range x hx)).2.1
  have hrun0 : ∀ x ∈ s.p, 0 ≤ x.remaining := fun x hx => (h.run x hx).1
  have hstored := stored_of_static h.static hs
  cases he : q_empty s.q with
  | true =>
    obtain ⟨hinv2, hQ, hp⟩ := rr_inv_idle p0 hlen hra quantum s h he
    have e1 : (rr_body quantum s).time = next_arrival_time s.p s.time := by
      rw [rr_body_idle he]
    have e2 : (rr_body quantum s).g = s.g := by rw [rr_body_idle he]
    have hLq : s.q.toList = [] := (q_empty_iff s.q h.qwf).mp he
    obtain ⟨z, hz, hzr⟩ := rr_exists_unfinished p0 quantum s h hcond
    have hlate : ∀ w ∈ s.p, 0 < w.remaining → s.time < w.arrival := by
      intro w hw hwr
      by_contra hcon
      obtain ⟨j, hj⟩ := List.mem_iff_getElem?.mp hw
      have := h.qall j w hj hwr (by omega)
      rw [hLq] at this
      exact absurd this (List.not_mem_nil _)
    obtain ⟨n1, ⟨w, hw, hwr, hwa⟩, n3⟩ := next_arrival_time_least s.p s.time
      (fun x hx => (input_range_bounds (hr2 x hx)).2.1) ⟨z, hz, hzr, hlate z hz hzr⟩
    obtain ⟨hd, rest, rfl, ⟨y, hy, hys, hyr⟩, hmin⟩ :=
      sim_head ctx s.p h.static hrun0 pre suf hL hfin z hz hzr
    have hya := (static_fields hys).2.1
    have h1 := n3 y hy hyr (hlate y hy hyr)
    have h2 := (hmin w hw hwr).1
    have h3 := hlate y hy hyr
    have hclock : fcfs_run (hd :: rest) (rr_body quantum s).time (rr_body quantum s).g =
        fcfs_run (hd :: rest) s.time s.g := by
      rw [e1, e2]
      apply fcfs_run_clock_all
      split_ifs <;> omega
    refine ⟨?_, ?_, pre, hd :: rest, done, hL, ?_, ?_, ?_, ?_⟩
    · rw [hQ]; exact where_idx_sorted _ _
    · rw [hp]; exact hU
    · rw [hp]; exact hfin
    · rw [hclock]; exact hchart
    · rw [hclock]; exact hrecs
    · rw [hp]; exact hdone
  | false =>
    obtain ⟨i, rest, x, hLq, hx, hxr, hxa, hd⟩ := rr_dispatch_post p0 hlen quantum hq1 s h he
    have hinv2 := rr_inv_of_dispatch p0 ctx.nodup
      (fun x hx => (input_range_bounds (ctx.range x hx)).2.2.1)
      quantum hq1 s _ h i rest x hLq hx hxr hxa hd
    have hxm : x ∈ s.p := List.getElem?_mem hx
    have hxU : x.remaining = x.burst ∧ x.started = 0 := by
      rcases hU x hxm with h1 | h1
      · exact h1
      · omega
    have hxq : x.burst ≤ quantum := by
      have := forall_of_static_perm (fun t => t.2.2.1 ≤ quantum) (List.Perm.of_eq h.static) hq
      exact this x hxm
    have hrun : rr_run quantum x = x.burst := by
      unfold rr_run
      split_ifs <;> omega
    have hzero : x.remaining - rr_run quantum x = 0 := by omega
    obtain ⟨hh, rest2, rfl, ⟨y, hy, hys, hyr⟩, hmin⟩ :=
      sim_head ctx s.p h.static hrun0 pre suf hL hfin x hxm hxr
    obtain ⟨hyp, hya, -, -⟩ := static_fields hys
    have hx1 := hmin x hxm hxr
    obtain ⟨j, hj⟩ := List.mem_iff_getElem?.mp hy
    have hjq := h.qall j y hj hyr (by omega)
    rw [hLq] at hjq hqs
    obtain ⟨hq_i, hq_rest⟩ := List.pairwise_cons.mp hqs
    have hij : i ≤ j := by
      rcases List.mem_cons.mp hjq with h1 | h1
      · omega
      · exact Nat.le_of_lt (hq_i j h1)
    have hpidle := (stored_index_le hstored hij hx hj).1
    have hxs : x.static = hh.static := hx1.2.2 (by omega)
    obtain ⟨hxp, hxa2, hxb, -⟩ := static_fields hxs
    have hnd2 : ((rr_body quantum s).p.map Process.pid).Nodup :=
      pid_nodup_of_static hinv2.static ctx.nodup
    have hfm : rr_after quantum s.time x ∈ (rr_body quantum s).p := by
      rw [hd.procs]
      exact List.mem_set s.p i (List.getElem?_eq_some.mp hx).1 _
    have hrem3 : (rr_after quantum s.time x).remaining = 0 := by
      rw [rr_after_remaining]; exact hzero
    have hpid3 : (rr_after quantum s.time x).pid = x.pid :=
      (static_fields (rr_after_static quantum s.time x)).1
    have htimes := rr_after_times quantum s.time x hxU.2 hzero
    have hnlt : ¬ s.time < hh.arrival := by omega
    have hstep : fcfs_run (hh :: rest2) s.time s.g =
        ({ hh with start_time := s.time, remaining := 0,
                   completion_time := s.time + hh.burst } ::
          (fcfs_run rest2 (rr_body quantum s).time (rr_body quantum s).g).1,
          (fcfs_run rest2 (rr_body quantum s).time (rr_body quantum s).g).2.1,
          (fcfs_run rest2 (rr_body quantum s).time (rr_body quantum s).g).2.2) := by
      rw [hd.chart, hd.time, hrun, hxp, hxb]
      simp only [fcfs_run]
      rw [if_neg hnlt]
    rw [hstep] at hchart hrecs
    refine ⟨?_, ?_, pre ++ [hh], rest2,
      done ++ [{ hh with start_time := s.time, remaining := 0,
                         completion_time := s.time + hh.burst }],
      by rw [hL]; simp, ?_, hchart, by rw [hrecs]; simp, ?_⟩
    · rw [hd.queue, if_pos hzero, List.append_nil, List.pairwise_append]
      refine ⟨hq_rest, where_idx_sorted _ _, ?_⟩
      intro a ha b hb
      obtain ⟨xa, hxa3, -, hxaa⟩ := h.qready a (by rw [hLq]; exact List.mem_cons_of_mem _ ha)
      obtain ⟨xb, hxb3, hcb⟩ := (mem_where_idx _ _ b).mp hb
      simp only [rr_arrived, decide_eq_true_eq] at hcb
      by_contra hcon
      obtain ⟨xb2, hxb4, hsb⟩ := static_at (hinv2.static.trans h.static.symm) hxb3
      have := (stored_index_le hstored (by omega : b ≤ a) hxb4 hxa3).2
      have := (static_fields hsb).2.1
      omega
    · intro z hz
      rw [hd.procs] at hz
      rcases mem_set_cases hz with hza | ⟨hzm, -⟩
      · exact Or.inr (by rw [hza]; exact hrem3)
      · exact hU z hzm
    · intro z hz
      by_cases hzp : z.pid = x.pid
      · have hzf : z = rr_after quantum s.time x :=
          eq_of_pid_eq hnd2 hz hfm (by rw [hpid3]; exact hzp)
        constructor
        · intro _
          simp only [List.map_append, List.map_cons, List.map_nil, List.mem_append,
            List.mem_singleton]
          exact Or.inr (by omega)
        · intro _
          rw [hzf]
          exact hrem3
      · rw [hd.procs] at hz
        rcases mem_set_cases hz with hza | ⟨hzm, -⟩
        · exact absurd (by rw [hza]; exact hpid3) hzp
        · rw [hfin z hzm]
          simp only [List.map_append, List.map_cons, List.map_nil, List.mem_append,
            List.mem_singleton]
          constructor
          · intro h1; exact Or.inl h1
          · rintro (h1 | h1)
            · exact h1
            · exact absurd (by omega) hzp
    · intro z hz hz0
      by_cases hzp : z.pid = x.pid
      · have hzf : z = rr_after quantum s.time x :=
          eq_of_pid_eq hnd2 hz hfm (by rw [hpid3]; exact hzp)
        refine ⟨_, List.mem_append_right _ (List.mem_singleton_self _), ?_⟩
        rw [hzf, htimes, hrun, hxp, hxb]
        rfl
      · rw [hd.procs] at hz
        rcases mem_set_cases hz with hza | ⟨hzm, -⟩
        · exact absurd (by rw [hza]; exact hpid3) hzp
        · obtain ⟨d, hdm, hdt⟩ := hdone z hzm hz0
          exact ⟨d, List.mem_append_left _ hdm, hdt⟩

theorem fcfs_procs_order (p : List Process) :
    (fcfs p).procs = (fcfs_run (fcfs_order p) 0 []).1.map table_row := rfl

theorem times_table_row (l : List Process) :
    (l.map table_row).map Process.times = l.map Process.times := by
  rw [List.map_map]
  rfl

/-- Two arrays with the same pids at the same indices, distinct in the second, such that
every process of the first has the times of some process of the second: the times agree
index by index. -/
theorem times_eq_of_match (P R : List Process) (hpid : P.map Process.pid = R.map Process.pid)
    (hnd : (R.map Process.pid).Nodup) (hm : ∀ x ∈ P, ∃ d ∈ R, d.times = x.times) :
    P.map Process.times = R.map Process.times := by
  have hlen : P.length = R.length := by
    have := congrArg List.length hpid
    simpa using this
  apply List.ext_getElem
  · simp [hlen]
  · intro n h1 h2
    rw [List.length_map] at h1 h2
    rw [List.getElem_map, List.getElem_map]
    obtain ⟨d, hd, hdt⟩ := hm P[n] (List.getElem_mem _)
    have hpn : P[n].pid = R[n].pid := by
      have h3 : (P.map Process.pid)[n]? = (R.map Process.pid)[n]? := by rw [hpid]
      rw [List.getElem?_map, List.getElem?_map, List.getElem?_eq_getElem h1,
        List.getElem?_eq_getElem h2] at h3
      simpa using h3
    have hdp : d.pid = P[n].pid := congrArg (fun t => t.1) hdt
    have : d = R[n] := eq_of_pid_eq hnd hd (List.getElem_mem _) (by omega)
    rw [← this, hdt]

/-- C19: for every valid workload stored in ascending pid order whose arrivals do not
decrease in that order, `rr` with a quantum no smaller than any burst returns, and its
ledger and the pid, start time and completion time of every process (listed in array
order) are those of `fcfs` on the same workload. -/
theorem rr_without_preemption_is_fcfs (p : List Process) (hv : ValidWorkload p)
    (hs : StoredInOrder p) (quantum : Int) (hq : ∀ x ∈ p, x.burst ≤ quantum) :
    ∃ r, (∀ fuel, rr_fuel p ≤ fuel → rr fuel p quantum = some r) ∧
      r.chart = (fcfs p).chart ∧
      r.procs.map Process.times = (fcfs p).procs.map Process.times := by
  have hq1 : 1 ≤ quantum := by
    obtain ⟨x, hx⟩ := List.exists_mem_of_length_pos (by have := hv.1; omega : 0 < p.length)
    have := (input_range_bounds (hv.2.2.2 x hx)).2.2.1
    have := hq x hx
    omega
  have ctx := fcfs_order_ctx p hv (pid_order_of_stored p hs)
  obtain ⟨r, h1, h2, h3, -, h5⟩ := rr_terminates_with p hv quantum hq1
    (RRSim (fcfs_order p) (fcfs_run (fcfs_order p) 0 []).1 (fcfs_run (fcfs_order p) 0 []).2.2)
    (rr_sim_init ctx hv.2.1)
    (fun s hs2 hcond hJ => rr_sim_step ctx hv.2.1 hs quantum hq1 hq _ _ s hs2 hcond hJ)
  obtain ⟨-, -, pre, suf, done, hL, hfin, hchart, hrecs, hdone⟩ := h3
  have hnil := sim_suf_nil ctx r.p h2.static h5 pre suf hL hfin
  subst hnil
  simp only [fcfs_run, List.append_nil] at hchart hrecs
  refine ⟨{ procs := (compute_and_print_table r.p).1, chart := r.g,
            avg := (compute_and_print_table r.p).2 }, fun fuel hf => ?_, ?_, ?_⟩
  · unfold rr
    rw [h1 fuel hf]
    rfl
  · exact hchart
  · show (r.p.map table_row).map Process.times = _
    rw [fcfs_procs_order, times_table_row, times_table_row]
    have hstat : (fcfs_run (fcfs_order p) 0 []).1.map Process.static = p.map Process.static := by
      rw [fcfs_run_static, fcfs_order_of_stored p hs, static_reset_stats]
    apply times_eq_of_match
    · rw [pid_of_static_eq h2.static, pid_of_static_eq hstat]
    · exact pid_nodup_of_static hstat hv.2.2.1
    · intro x hx
      rw [hrecs]
      exact hdone x hx (h5 x hx)

set_option maxRecDepth 100000 in
theorem rr_without_preemption_is_fcfs_witness :
    ValidWorkload example_workload ∧ StoredInOrder example_workload ∧
    (∀ x ∈ example_workload, x.burst ≤ 5) ∧
    ∃ r, (∀ fuel, rr_fuel example_workload ≤ fuel → rr fuel example_workload 5 = some r) ∧
      r.chart = (fcfs example_workload).chart ∧
      r.procs.map Process.times = (fcfs example_workload).procs.map Process.times :=
  ⟨by decide, by simp [StoredInOrder, example_workload, mkProcess], by decide,
    rr_without_preemption_is_fcfs example_workload (by decide)
      (by simp [StoredInOrder, example_workload, mkProcess]) 5 (by decide)⟩

/-! ## Shortest job first and the total waiting time -/

theorem pairmin_perm {l1 l2 : List Int} (h : l1.Perm l2) : pairmin l1 = pairmin l2 := by
  induction h with
  | nil => rfl
  | cons x h ih =>
    simp only [pairmin]
    rw [ih, (h.map (min x)).sum_eq]
  | swap x y l =>
    simp only [pairmin, List.map_cons, List.sum_cons]
    rw [min_comm y x]
    omega
  | trans _ _ ih1 ih2 => rw [ih1, ih2]

theorem sum_min_le (b : Int) (l : List Int) : (l.map (min b)).sum ≤ l.sum := by
  induction l with
  | nil => simp
  | cons y rest ih =>
    simp only [List.map_cons, List.sum_cons]
    have := min_le_right b y
    omega

theorem sum_min_eq (b : Int) (l : List Int) (h : ∀ y ∈ l, y ≤ b) :
    (l.map (min b)).sum = l.sum := by
  induction l with
  | nil => simp
  | cons y rest ih =>
    simp only [List.map_cons, List.sum_cons]
    rw [ih (fun z hz => h z (List.mem_cons_of_mem _ hz)), min_eq_right (h y (by simp))]

theorem wait_from_shift (l : List Int) :
    ∀ c d : Int, wait_from c l + (l.map (min d)).sum ≤ wait_from (c + d) l := by
  induction l with
  | nil => intro c d; simp [wait_from]
  | cons y rest ih =>
    intro c d
    simp only [wait_from, List.map_cons, List.sum_cons]
    have h1 := ih (c + y) d
    have h2 := min_le_left d y
    have : c + d + y = c + y + d := by omega
    rw [this]
    omega

theorem pairmin_le_wait_from (l : List Int) :
    ∀ c : Int, 0 ≤ c → pairmin l ≤ wait_from c l := by
  induction l with
  | nil => intro c _; simp [pairmin, wait_from]
  | cons x rest ih =>
    intro c hc
    simp only [pairmin, wait_from]
    have h1 := ih c hc
    have h2 := wait_from_shift rest c x
    omega

theorem filter_set_perm (P : List Process) :
    ∀ (idx : Nat) (x y : Process), P[idx]? = some x → finished x = false →
      finished y = true → ((P.set idx y).filter finished).Perm (y :: P.filter finished) := by
  induction P with
  | nil => intro idx x y hx; simp at hx
  | cons z rest ih =>
    intro idx x y hx hxf hyf
    cases idx with
    | zero =>
      simp only [List.getElem?_cons_zero, Option.some.injEq] at hx
      subst hx
      simp only [List.set_cons_zero]
      rw [List.filter_cons_of_pos hyf, List.filter_cons_of_neg (by simp [hxf])]
    | succ idx =>
      simp only [List.getElem?_cons_succ] at hx
      simp only [List.set_cons_succ]
      have := ih idx x y hx hxf hyf
      cases hz : finished z with
      | true =>
        rw [List.filter_cons_of_pos hz, List.filter_cons_of_pos hz]
        exact (this.cons z).trans (List.Perm.swap y z _)
      | false =>
        rw [List.filter_cons_of_neg (by simp [hz]), List.filter_cons_of_neg (by simp [hz])]
        exact this

/-- The waiting times of the records of the dispatch loop of `fcfs` on processes that all
arrive at `a`, from a clock `t` that has reached `a`. -/
theorem fcfs_run_waits (a : Int) (l : List Process) (ha : ∀ x ∈ l, x.arrival = a)
    (hb : ∀ x ∈ l, 0 ≤ x.burst) :
    ∀ (t : Int) (g : GanttChart), a ≤ t →
      total_waiting ((fcfs_run l t g).1.map table_row) =
        wait_from (t - a) (l.map Process.burst) := by
  induction l with
  | nil => intro t g _; rfl
  | cons x rest ih =>
    intro t g hat
    have hxa := ha x (by simp)
    have hxb := hb x (by simp)
    simp only [fcfs_run, List.map_cons, wait_from]
    have hnlt : ¬ t < x.arrival := by omega
    rw [if_neg hnlt]
    have h1 := ih (fun y hy => ha y (List.mem_cons_of_mem _ hy))
      (fun y hy => hb y (List.mem_cons_of_mem _ hy)) (t + x.burst)
      (push_event g x.pid t (t + x.burst)) (by omega)
    have h2 : t + x.burst - a = t - a + x.burst := by omega
    rw [h2] at h1
    unfold total_waiting at h1 ⊢
    simp only [List.map_cons, List.sum_cons]
    rw [h1]
    simp only [table_row]
    omega

theorem finished_false_of_pos {x : Process} (h : 0 < x.remaining) : finished x = false := by
  cases hf : finished x with
  | false => rfl
  | true =>
    have := (finished_iff x).mp hf
    omega

theorem done_after_dispatch (a : Int) (P : List Process) (idx : Nat) (x : Process)
    (t : Int) (hx : P[idx]? = some x) (hxr : 0 < x.remaining) :
    (done_bursts (P.set idx (np_finish t x))).Perm (x.burst :: done_bursts P) ∧
    (done_waits a (P.set idx (np_finish t x))).Perm ((t - a) :: done_waits a P) := by
  have h := filter_set_perm P idx x (np_finish t x) hx (finished_false_of_pos hxr) rfl
  exact ⟨h.map Process.burst, h.map (fun z : Process => z.start_time - a)⟩

theorem done_bursts_nonneg (P : List Process) (hr : ∀ x ∈ P, InputRange x) :
    0 ≤ (done_bursts P).sum := by
  apply List.sum_nonneg
  intro b hb
  obtain ⟨x, hx, rfl⟩ := List.mem_map.mp hb
  have := (input_range_bounds (hr x (List.mem_filter.mp hx).1)).2.2.1
  omega

/-- On a workload whose processes all arrive at `a`, an iteration of the loop from a clock
that has reached `a` is a dispatch. -/
theorem np_dispatches (key : Process → Int) (hkey : ∀ x, InputRange x → key x < INT_MAX)
    (p0 : List Process) (hr : ∀ x ∈ p0, InputRange x) (a : Int) (ha : ∀ x ∈ p0, x.arrival = a)
    (s : NPState) (h : NPInv p0 s) (hc : np_cond s = true) (hat : a ≤ s.time) :
    ∃ idx x, np_select key s.p s.time = some idx ∧ s.p[idx]? = some x ∧ 0 < x.remaining ∧
      (∀ y ∈ s.p, 0 < y.remaining → lex_le (key x) x.pid (key y) y.pid) ∧
      ∀ y ∈ s.p, y.arrival = a := by
  have hr2 := range_of_static h.static hr
  have harr : ∀ y ∈ s.p, y.arrival = a := by
    have := forall_of_static_perm (fun t => t.2.1 = a) (List.Perm.of_eq h.static) ha
    exact this
  have hsel := np_select_spec key s.p s.time
  cases hs : np_select key s.p s.time with
  | none =>
    exfalso
    obtain ⟨z, hz, hzr⟩ := np_exists_unfinished p0 hr s h hc
    have hne := np_select_none_no_eligible key hkey s.p hr2 s.time hs
    have := harr z hz
    exact hne z hz ⟨hzr, by omega⟩
  | some idx =>
    rw [hs] at hsel
    obtain ⟨x, hx, he, hmin⟩ := hsel
    refine ⟨idx, x, rfl, hx, he.1, ?_, harr⟩
    intro y hy hyr
    have := harr y hy
    exact hmin y hy ⟨hyr, by omega⟩

theorem np_wait_step (key : Process → Int) (hkey : ∀ x, InputRange x → key x < INT_MAX)
    (p0 : List Process) (hr : ∀ x ∈ p0, InputRange x) (a : Int) (ha : ∀ x ∈ p0, x.arrival = a)
    (s : NPState) (h : NPInv p0 s) (hc : np_cond s = true) (hJ : NPWait a s) :
    NPWait a (np_body key s) := by
  obtain ⟨j1, j2⟩ := hJ
  have hr2 := range_of_static h.static hr
  have hat : a ≤ s.time := by have := done_bursts_nonneg s.p hr2; omega
  obtain ⟨idx, x, hs, hx, hxr, -, -⟩ := np_dispatches key hkey p0 hr a ha s h hc hat
  rw [np_body_some hs hx]
  obtain ⟨d1, d2⟩ := done_after_dispatch a s.p idx x s.time hx hxr
  refine ⟨?_, ?_⟩
  · dsimp only
    rw [d1.sum_eq, List.sum_cons]
    omega
  · dsimp only
    rw [pairmin_perm d1, d2.sum_eq]
    simp only [pairmin, List.sum_cons]
    have := sum_min_le x.burst (done_bursts s.p)
    omega

theorem sjf_wait_step (p0 : List Process) (hr : ∀ x ∈ p0, InputRange x) (a : Int)
    (ha : ∀ x ∈ p0, x.arrival = a)
    (s : NPState) (h : NPInv p0 s) (hc : np_cond s = true) (hJ : SJFWait a s) :
    SJFWait a (np_body Process.burst s) := by
  obtain ⟨j1, j2, j3⟩ := hJ
  have hr2 := range_of_static h.static hr
  have hat : a ≤ s.time := by have := done_bursts_nonneg s.p hr2; omega
  obtain ⟨idx, x, hs, hx, hxr, hmin, -⟩ := np_dispatches Process.burst
    (fun x hx => (input_range_bounds hx).2.2.2.1) p0 hr a ha s h hc hat
  rw [np_body_some hs hx]
  have hxm : x ∈ s.p := List.getElem?_mem hx
  obtain ⟨d1, d2⟩ := done_after_dispatch a s.p idx x s.time hx hxr
  have hle : ∀ y ∈ s.p, 0 < y.remaining → x.burst ≤ y.burst := by
    intro y hy hyr
    have := hmin y hy hyr
    unfold lex_le at this
    omega
  refine ⟨?_, ?_, ?_⟩
  · dsimp only
    rw [d1.sum_eq, List.sum_cons]
    omega
  · dsimp only
    rw [pairmin_perm d1, d2.sum_eq]
    simp only [pairmin, List.sum_cons]
    rw [sum_min_eq x.burst (done_bursts s.p) (fun b hb => by
      obtain ⟨y, hy, rfl⟩ := List.mem_map.mp hb
      obtain ⟨hy1, hy2⟩ := List.mem_filter.mp hy
      exact j3 y hy1 x hxm ((finished_iff y).mp hy2) hxr)]
    omega
  · intro y hy z hz hy0 hzr
    dsimp only at hy hz
    have hzs : z ∈ s.p := by
      rcases mem_set_cases hz with hza | ⟨hzm, -⟩
      · rw [hza] at hzr
        exact absurd hzr (by show ¬ (0 : Int) < 0; omega)
      · exact hzm
    rcases mem_set_cases hy with hya | ⟨hym, -⟩
    · rw [hya]
      exact hle z hzs hzr
    · exact j3 y hym z hzs hy0 hzr

theorem np_wait_init (p0 : List Process) (hv : ValidWorkload p0) (a : Int)
    (ha : ∀ x ∈ p0, x.arrival = a) :
    (np_init p0).time = a ∧ done_bursts (np_init p0).p = [] ∧
      done_waits a (np_init p0).p = [] := by
  have hnone : (reset_stats p0).filter finished = [] := by
    rw [List.filter_eq_nil_iff]
    intro x hx
    unfold reset_stats at hx
    obtain ⟨y, hy, rfl⟩ := List.mem_map.mp hx
    have := (input_range_bounds (hv.2.2.2 y hy)).2.2.1
    simp only [finished, decide_eq_true_eq]
    omega
  have harr : ∀ x ∈ reset_stats p0, x.arrival = a ∧ x.arrival < INT_MAX := by
    intro x hx
    unfold reset_stats at hx
    obtain ⟨y, hy, rfl⟩ := List.mem_map.mp hx
    exact ⟨ha y hy, (input_range_bounds (hv.2.2.2 y hy)).2.1⟩
  have hne : reset_stats p0 ≠ [] := by
    intro h0
    have h1 := congrArg List.length h0
    rw [length_reset_stats] at h1
    have h2 := hv.1
    rw [List.length_nil] at h1
    omega
  obtain ⟨⟨x, hx, hxe⟩, -, hne2⟩ := earliest_arrival_least (reset_stats p0) hne
    (fun x hx => (harr x hx).2)
  refine ⟨?_, ?_, ?_⟩
  · show (if earliest_arrival (reset_stats p0) ≠ INT_MAX then
      earliest_arrival (reset_stats p0) else 0) = a
    rw [if_pos hne2, ← hxe]
    exact (harr x hx).1
  · show ((reset_stats p0).filter finished).map _ = []
    rw [hnone]; rfl
  · show ((reset_stats p0).filter finished).map _ = []
    rw [hnone]; rfl

/-- At the end of the loop all processes are finished: the total waiting time of the table
is the sum of the waits of the finished processes. -/
theorem total_waiting_done (p0 : List Process) (hr : ∀ x ∈ p0, InputRange x) (a : Int)
    (ha : ∀ x ∈ p0, x.arrival = a) (r : NPState) (h : NPInv p0 r) (hz : ∀ x ∈ r.p, x.remaining = 0) :
    total_waiting (np_result r).procs = (done_waits a r.p).sum ∧
    done_bursts r.p = p0.map Process.burst := by
  have hall : r.p.filter finished = r.p := by
    rw [List.filter_eq_self]
    intro x hx
    exact (finished_iff x).mpr (hz x hx)
  have harr : ∀ y ∈ r.p, y.arrival = a := by
    have := forall_of_static_perm (fun t => t.2.1 = a) (List.Perm.of_eq h.static) ha
    exact this
  constructor
  · show total_waiting (r.p.map table_row) = _
    unfold total_waiting done_waits
    rw [hall, List.map_map]
    congr 1
    apply List.map_congr_left
    intro x hx
    have h1 := harr x hx
    have h2 := hz x hx
    have hb := (h.run x hx)
    simp only [Function.comp_apply, table_row]
    have h5 := (input_range_bounds (range_of_static h.static hr x hx)).2.2.1
    rcases hb with h3 | ⟨-, -, h4, -⟩
    · omega
    · omega
  · unfold done_bursts
    rw [hall]
    have h1 : ∀ q : List Process, q.map Process.burst =
        (q.map Process.static).map (fun s => s.2.2.1) := by
      intro q
      simp [Function.comp_def, Process.static]
    rw [h1, h.static, ← h1]

theorem burst_perm_of_static {l p : List Process}
    (h : (l.map Process.static).Perm (p.map Process.static)) :
    (l.map Process.burst).Perm (p.map Process.burst) := by
  have h1 : ∀ q : List Process, q.map Process.burst =
      (q.map Process.static).map (fun s => s.2.2.1) := by
    intro q
    simp [Function.comp_def, Process.static]
  rw [h1, h1]
  exact h.map _

/-- The total waiting time of `fcfs` on a workload whose processes all arrive at `a`. -/
theorem fcfs_total_waiting (p0 : List Process) (hv : ValidWorkload p0) (a : Int)
    (ha : ∀ x ∈ p0, x.arrival = a) :
    pairmin (p0.map Process.burst) ≤ total_waiting (fcfs p0).procs := by
  have hperm := fcfs_sorted_static p0
  rw [← fcfs_sort_loops_eq] at hperm
  have harr : ∀ x ∈ fcfs_order p0, x.arrival = a := by
    have := forall_of_static_perm (fun t => t.2.1 = a) hperm ha
    exact this
  have hb : ∀ x ∈ fcfs_order p0, 0 ≤ x.burst := by
    have := forall_of_static_perm (fun t => 0 ≤ t.2.2.1) hperm
      (fun x hx => by have := (input_range_bounds (hv.2.2.2 x hx)).2.2.1; show 0 ≤ x.burst; omega)
    exact this
  have ha0 : 0 ≤ a := by
    obtain ⟨x, hx⟩ := List.exists_mem_of_length_pos (by have := hv.1; omega : 0 < p0.length)
    have := (input_range_bounds (hv.2.2.2 x hx)).1
    have := ha x hx
    omega
  have hrun : (fcfs_run (fcfs_order p0) 0 []).1 = (fcfs_run (fcfs_order p0) a []).1 := by
    cases hL : fcfs_order p0 with
    | nil => rfl
    | cons h rest =>
      have := harr h (by rw [hL]; simp)
      rw [fcfs_run_clock_all h rest 0 a [] (by split_ifs <;> omega)]
  rw [fcfs_procs_order, hrun, fcfs_run_waits a (fcfs_order p0) harr hb a [] (le_refl _),
    ← pairmin_perm (burst_perm_of_static hperm)]
  exact pairmin_le_wait_from _ _ (by omega)

theorem best_id_of_le (a1 a2 a3 a4 : ℚ) (h1 : a2 ≤ a1) (h3 : a2 ≤ a3) :
    best_id a1 a2 a3 a4 ≠ 3 ∧ (best_id a1 a2 a3 a4 = 1 → a1 = a2) := by
  unfold best_id
  dsimp only
  split_ifs <;> simp <;> linarith

theorem avg_le_of_total_le (l1 l2 : List Process) (hlen : l1.length = l2.length)
    (h : total_waiting (compute_and_print_table l1).1 ≤
      total_waiting (compute_and_print_table l2).1) :
    (compute_and_print_table l1).2.avg_wait ≤ (compute_and_print_table l2).2.avg_wait := by
  rw [avg_wait_eq, avg_wait_eq, hlen]
  apply div_le_div_of_nonneg_right _ (Nat.cast_nonneg _)
  exact_mod_cast h

/-- C20: for every valid workload whose processes all arrive at the same time, `sjf_np`
and `priority_np` return, and the sum of the waiting times that `sjf_np` produces is at
most the sum `fcfs` produces and at most the sum `priority_np` produces; so are the
average waiting times, and the comparison never selects Priority-NP and selects FCFS
only when its average equals that of SJF-NP (a tie, which FCFS wins by the order). -/
theorem sjf_np_least_total_waiting (p : List Process) (hv : ValidWorkload p) (a : Int)
    (ha : ∀ x ∈ p, x.arrival = a) :
    ∃ rs rp, (∀ fuel, 2 * p.length + 2 ≤ fuel → sjf_np fuel p = some rs) ∧
      (∀ fuel, 2 * p.length + 2 ≤ fuel → priority_np fuel p = some rp) ∧
      total_waiting rs.procs ≤ total_waiting (fcfs p).procs ∧
      total_waiting rs.procs ≤ total_waiting rp.procs ∧
      rs.avg.avg_wait ≤ (fcfs p).avg.avg_wait ∧ rs.avg.avg_wait ≤ rp.avg.avg_wait ∧
      ∀ a4, best_id (fcfs p).avg.avg_wait rs.avg.avg_wait rp.avg.avg_wait a4 ≠ 3 ∧
        (best_id (fcfs p).avg.avg_wait rs.avg.avg_wait rp.avg.avg_wait a4 = 1 →
          (fcfs p).avg.avg_wait = rs.avg.avg_wait) := by
  obtain ⟨i1, i2, i3⟩ := np_wait_init p hv a ha
  obtain ⟨s, s1, s2, ⟨-, s4, -⟩, -, s6⟩ := np_terminates_with Process.burst
    (fun x h => (input_range_bounds h).2.2.2.1) p hv (SJFWait a)
    ⟨by rw [i1, i2]; simp, by rw [i2, i3]; rfl, fun y hy x hx hy0 hxr => by
      exfalso
      have h1 : finished y = true := (finished_iff y).mpr hy0
      have h2 : y ∈ (np_init p).p.filter finished := List.mem_filter.mpr ⟨hy, h1⟩
      have h3 : done_bursts (np_init p).p = [] := i2
      unfold done_bursts at h3
      rw [List.map_eq_nil_iff] at h3
      rw [h3] at h2
      exact absurd h2 (List.not_mem_nil _)⟩
    (fun s hs hc hJ => sjf_wait_step p hv.2.2.2 a ha s hs hc hJ)
  obtain ⟨r, r1, r2, ⟨-, r4⟩, -, r6⟩ := np_terminates_with Process.priority
    (fun x h => (input_range_bounds h).2.2.2.2) p hv (NPWait a)
    ⟨by rw [i1, i2]; simp, by rw [i2, i3]; rfl⟩
    (fun s hs hc hJ => np_wait_step Process.priority
      (fun x h => (input_range_bounds h).2.2.2.2) p hv.2.2.2 a ha s hs hc hJ)
  obtain ⟨ts, bs⟩ := total_waiting_done p hv.2.2.2 a ha s s2 s6
  obtain ⟨tr, br⟩ := total_waiting_done p hv.2.2.2 a ha r r2 r6
  have hf := fcfs_total_waiting p hv a ha
  rw [bs] at s4
  rw [br] at r4
  have hT1 : total_waiting (np_result s).procs ≤ total_waiting (fcfs p).procs := by omega
  have hT2 : total_waiting (np_result s).procs ≤ total_waiting (np_result r).procs := by omega
  have hlen_s : s.p.length = p.length := length_of_static s2.static
  have hlen_r : r.p.length = p.length := length_of_static r2.static
  have hlen_f : (fcfs_run (fcfs_order p) 0 []).1.length = p.length := by
    have h1 := length_of_static (fcfs_run_static (fcfs_order p) 0 [])
    have h2 := fcfs_sorted_static p
    rw [← fcfs_sort_loops_eq] at h2
    have h3 := h2.length_eq
    simp only [List.length_map] at h3
    rw [h1]
    exact h3
  have hA1 : (np_result s).avg.avg_wait ≤ (fcfs p).avg.avg_wait :=
    avg_le_of_total_le s.p (fcfs_run (fcfs_order p) 0 []).1 (by omega) hT1
  have hA2 : (np_result s).avg.avg_wait ≤ (np_result r).avg.avg_wait :=
    avg_le_of_total_le s.p r.p (by omega) hT2
  refine ⟨np_result s, np_result r, ?_, ?_, hT1, hT2, hA1, hA2,
    fun a4 => best_id_of_le _ _ _ a4 hA1 hA2⟩
  · intro fuel hf2
    unfold sjf_np
    rw [s1 fuel hf2]
    rfl
  · intro fuel hf2
    unfold priority_np
    rw [r1 fuel hf2]
    rfl

theorem sjf_np_least_total_waiting_witness :
    ValidWorkload [mkProcess 1 0 3 1, mkProcess 2 0 1 2] ∧
    (∀ x ∈ [mkProcess 1 0 3 1, mkProcess 2 0 1 2], x.arrival = 0) ∧
    ∃ rs rp, (∀ fuel, 2 * 2 + 2 ≤ fuel →
        sjf_np fuel [mkProcess 1 0 3 1, mkProcess 2 0 1 2] = some rs) ∧
      (∀ fuel, 2 * 2 + 2 ≤ fuel →
        priority_np fuel [mkProcess 1 0 3 1, mkProcess 2 0 1 2] = some rp) ∧
      total_waiting rs.procs ≤
        total_waiting (fcfs [mkProcess 1 0 3 1, mkProcess 2 0 1 2]).procs ∧
      total_waiting rs.procs ≤ total_waiting rp.procs :=
  ⟨by decide, by decide,
    (sjf_np_least_total_waiting [mkProcess 1 0 3 1, mkProcess 2 0 1 2] (by decide) 0
      (by decide)).imp fun rs h => h.imp fun rp h2 => ⟨h2.1, h2.2.1, h2.2.2.1, h2.2.2.2.1⟩⟩

/-! ## What `take_input` hands to the policies -/

/-- An input on which `take_input` builds the example workload: three processes, and for
the quantum the lines 0, a line that is no integer, and -4 are passed over before 2 is
accepted. -/
theorem take_input_example :
    take_input [some 3, some 0, some 5, some 1, some 1, some 3, some 1, some 2, some 1,
      some 1, some 0, none, some (-4), some 2] = some (example_workload, 2) := by
  decide

/-! ## `next_arrival_time` on the arrays of the program -/

/-- C11: for every process array whose arrivals are below `INT_MAX` (every array the program
builds: `take_input` admits arrivals up to `INT_MAX / 2` and nothing else writes the
field) and every `current_time`, `next_arrival_time` returns the least arrival among the
unfinished processes that arrive after `current_time` when there is such a process, and
`current_time` unchanged when there is none. -/
theorem next_arrival_time_min_or_unchanged (p : List Process)
    (hr : ∀ x ∈ p, x.arrival < INT_MAX) (current_time : Int) :
    NextArrivalSpec p current_time := by
  obtain ⟨h1, h2⟩ := next_arrival_time_cases p current_time
  constructor
  · rintro ⟨x, hx, hxr, hxa⟩
    exact h1 ⟨x, hx, hxr, hxa, hr x hx⟩
  · intro hnone
    apply h2
    intro x hx hxr hxa
    exact absurd ⟨x, hx, hxr, hxa⟩ hnone

theorem next_arrival_time_min_or_unchanged_witness :
    (∀ x ∈ example_workload, x.arrival < INT_MAX) ∧ NextArrivalSpec example_workload 0 ∧
    next_arrival_time example_workload 0 = 1 :=
  ⟨by decide, next_arrival_time_min_or_unchanged example_workload (by decide) 0, by decide⟩

/-! ## The order of the arrivals in the queue of `rr` -/

theorem ascending_of_static {P p0 : List Process}
    (h : P.map Process.static = p0.map Process.static) (hs : AscendingPids p0) :
    AscendingPids P := by
  have key : ∀ q : List Process, AscendingPids q ↔
      (q.map Process.static).Pairwise (fun a b => a.1 < b.1) := by
    intro q
    unfold AscendingPids
    rw [List.pairwise_map]
    rfl
  rw [key, h, ← key]
  exact hs

/-- C3: in every dispatch step of `rr` on a valid workload stored in ascending pid order
(as every array `rr` receives is: `take_input` sets `pid = i + 1` and `rr` runs on a copy
of that array), with a quantum of at least 1, the entries behind the front entry `i` keep
their order, behind them are appended exactly the unfinished processes that arrived in
`(old clock, new clock]`, in ascending id order, and after them `i` itself exactly when
`i` is still unfinished. -/
theorem rr_dispatch_enqueues_in_id_order (p : List Process) (hv : ValidWorkload p)
    (hs : AscendingPids p) (quantum : Int) (hq : 1 ≤ quantum) (k : Nat) :
    EnqueuesInIdOrder quantum (rr_state quantum p k) := by
  intro he
  have hinv := rr_state_inv p hv quantum hq k
  obtain ⟨i, rest, x, x2, A, h1, h2, h3, h4, h5, -, h7, h8⟩ :=
    dispatch_enqueues p hv quantum hq _ hinv he
  exact ⟨i, rest, x, x2, A, h1, h2, h3, h4, h5, h7, h8 (ascending_of_static hinv.static hs)⟩

set_option maxRecDepth 100000 in
theorem rr_dispatch_enqueues_in_id_order_witness :
    ValidWorkload example_workload ∧ AscendingPids example_workload ∧ (1 : Int) ≤ 2 ∧
      EnqueuesInIdOrder 2 (rr_state 2 example_workload 0) :=
  ⟨by decide, by simp [AscendingPids, example_workload, mkProcess], by decide,
    rr_dispatch_enqueues_in_id_order example_workload (by decide)
      (by simp [AscendingPids, example_workload, mkProcess]) 2 (by decide) 0⟩

/-! ## The ledger of `rr` when no slice is dropped -/

theorem no_slice_dropped_append (sl : List GanttEvent) (c : GanttEvent) :
    ∀ g : GanttChart, NoSliceDropped g (sl ++ [c]) ↔
      NoSliceDropped g sl ∧ Kept (push_all g sl) c := by
  induction sl with
  | nil =>
    intro g
    simp [NoSliceDropped, push_all]
  | cons a rest ih =>
    intro g
    have h1 : NoSliceDropped g (a :: rest ++ [c]) ↔
        Kept g a ∧ NoSliceDropped (push_event g a.pid a.start a.end_) (rest ++ [c]) :=
      Iff.rfl
    have h2 : NoSliceDropped g (a :: rest) ↔
        Kept g a ∧ NoSliceDropped (push_event g a.pid a.start a.end_) rest := Iff.rfl
    have h3 : push_all g (a :: rest) = push_all (push_event g a.pid a.start a.end_) rest := rfl
    rw [h1, h2, h3, ih]
    exact ⟨fun h => ⟨⟨h.1, h.2.1⟩, h.2.2⟩, fun h => ⟨h.1.1, h.1.2, h.2⟩⟩

/-- A kept slice adds its duration to the total of the ledger; a dropped one leaves the
ledger as it was. -/
theorem push_event_total (g : GanttChart) (c : GanttEvent) :
    (Kept g c → chart_total (push_event g c.pid c.start c.end_) =
      chart_total g + (c.end_ - c.start)) ∧
    (¬ Kept g c → push_event g c.pid c.start c.end_ = g) := by
  rcases List.eq_nil_or_concat g with rfl | ⟨g1, l, rfl⟩
  · rw [push_event_nil]
    refine ⟨fun _ => by simp [chart_total], fun h => absurd (Or.inl (by simp [MAXG])) h⟩
  · rw [List.concat_eq_append, push_event_concat]
    by_cases hm : l.pid = c.pid ∧ l.end_ = c.start
    · rw [if_pos hm]
      refine ⟨fun _ => ?_, fun h => absurd (Or.inr ⟨l, by simp, hm⟩) h⟩
      rw [chart_total_append, chart_total_append]
      show _ + (c.end_ - l.start) = _
      omega
    · rw [if_neg hm]
      by_cases hroom : g1.length + 1 < MAXG
      · rw [if_pos hroom]
        refine ⟨fun _ => ?_, fun h => absurd (Or.inl (by simpa using hroom)) h⟩
        have : g1 ++ [l, ⟨c.pid, c.start, c.end_⟩] = (g1 ++ [l]) ++ [⟨c.pid, c.start, c.end_⟩] := by
          simp
        rw [this, chart_total_append]
      · rw [if_neg hroom]
        refine ⟨fun h => ?_, fun _ => rfl⟩
        exfalso
        rcases h with h | ⟨l2, hl2, hl3⟩
        · simp only [List.length_append, List.length_singleton] at h
          exact hroom h
        · simp at hl2
          subst hl2
          exact hm hl3

/-- The total of the ledger after a sequence of calls of `push_event` with slices of
positive duration: at most the total before plus the durations, with equality only when
no slice is dropped. -/
theorem push_all_total (sl : List GanttEvent) (hd : ∀ c ∈ sl, 1 ≤ c.end_ - c.start) :
    ∀ g : GanttChart, chart_total (push_all g sl) ≤ chart_total g + chart_total sl ∧
      (chart_total (push_all g sl) = chart_total g + chart_total sl →
        NoSliceDropped g sl) := by
  induction sl with
  | nil =>
    intro g
    simp [push_all, chart_total, NoSliceDropped]
  | cons a rest ih =>
    intro g
    have hstep : push_all g (a :: rest) = push_all (push_event g a.pid a.start a.end_) rest := rfl
    have hcons : chart_total (a :: rest) = (a.end_ - a.start) + chart_total rest := by
      simp [chart_total]
    have ha := hd a (by simp)
    obtain ⟨i1, i2⟩ := ih (fun c hc => hd c (List.mem_cons_of_mem _ hc))
      (push_event g a.pid a.start a.end_)
    obtain ⟨k1, k2⟩ := push_event_total g a
    rw [hstep, hcons]
    by_cases hk : Kept g a
    · have := k1 hk
      refine ⟨by omega, fun heq => ⟨hk, i2 (by omega)⟩⟩
    · have := k2 hk
      rw [this] at i1 ⊢
      refine ⟨by omega, fun heq => ?_⟩
      omega

theorem rr_kept_init (p0 : List Process) (hv : ValidWorkload p0) :
    RRKept (total_burst p0) (rr_init p0) := by
  have h := rr_accounted_init p0 hv
  exact ⟨h, fun _ => h.1⟩

theorem rr_kept_step (p0 : List Process) (hv : ValidWorkload p0) (quantum : Int)
    (hq : 1 ≤ quantum) (s : RRState) (h : RRInv p0 quantum s) (hc : rr_cond s = true)
    (ha : RRKept (total_burst p0) s) :
    RRKept (total_burst p0) (rr_body quantum s) := by
  obtain ⟨hacc, hkept⟩ := ha
  refine ⟨rr_accounted_step p0 hv quantum hq s h hc hacc, ?_⟩
  obtain ⟨-, hlen, hnd, hr⟩ := hv
  obtain ⟨⟨a1, a2, a3, -⟩, hg, -⟩ := hacc
  have hlt : s.completed < s.p.length := by simpa [rr_cond] using hc
  cases he : q_empty s.q with
  | true =>
    have hge := next_arrival_time_ge s.p s.time
    rw [rr_body_idle he]
    intro hno
    obtain ⟨c1, ⟨c2, c3⟩, c4, -⟩ := hkept hno
    refine ⟨c1, ⟨c2, fun e he2 => ?_⟩, by dsimp only; omega, Or.inr hlt⟩
    have := c3 e he2
    dsimp only
    omega
  | false =>
    obtain ⟨i, rest, x, hL, hx, hxr, hxa, hd⟩ := rr_dispatch_post p0 hlen quantum hq s h he
    obtain ⟨hrun1, hrunq, hrunr⟩ := rr_run_bounds quantum x hq hxr
    have hrem : total_remaining (rr_body quantum s).p =
        total_remaining s.p - rr_run quantum x := by
      unfold total_remaining
      rw [hd.procs, sum_map_set_int Process.remaining s.p i x _ hx, rr_after_remaining]
      omega
    have ht := hd.time
    intro hno
    rw [hd.slices, no_slice_dropped_append, ← hg] at hno
    obtain ⟨hno1, hk⟩ := hno
    obtain ⟨c1, ⟨c3, c4⟩, -, -⟩ := hkept hno1
    obtain ⟨e1, e2, e3, e4, -⟩ := push_event_accounts s.g x.pid s.time
      (rr_body quantum s).time 0 hk c3 c4 a3 (by omega)
    rw [hd.chart]
    refine ⟨?_, ⟨e2, e3⟩, by omega, Or.inl e4⟩
    rw [e1, hrem]
    omega

/-- The run of `rr` on a valid workload with a quantum of at least 1: the slices as
dispatched account for the run, the ledger is their merged record, and the ledger
accounts for the run exactly when no slice is dropped, which is so in particular when the
sum of the bursts is at most `MAXG`. -/
theorem rr_accounts_kept (p0 : List Process) (hv : ValidWorkload p0) (quantum : Int)
    (hq : 1 ≤ quantum) :
    ∃ r, (∀ fuel, rr_fuel p0 ≤ fuel → rr_loop quantum fuel (rr_init p0) = some r) ∧
      LedgerAccounts r.slices r.time (total_burst p0) ∧ r.g = push_all [] r.slices ∧
      (LedgerAccounts r.g r.time (total_burst p0) ↔ NoSliceDropped [] r.slices) ∧
      (total_burst p0 ≤ MAXG → LedgerAccounts r.g r.time (total_burst p0)) := by
  obtain ⟨r, h1, hinv, ⟨⟨h3, h4, h5⟩, hk⟩, h6, h7⟩ := rr_terminates_with p0 hv quantum hq
    (RRKept (total_burst p0)) (rr_kept_init p0 hv)
    (fun s hs hc hJ => rr_kept_step p0 hv quantum hq s hs hc hJ)
  have hsl := ledger_of_accounted h3 h6 h7
  refine ⟨r, h1, hsl, h4, ⟨fun hled => ?_, fun hno => ledger_of_accounted (hk hno) h6 h7⟩,
    fun ht => ledger_of_accounted (h5 ht).2 h6 h7⟩
  have htot := (push_all_total r.slices (fun c hc => (hinv.slen c hc).1) []).2
  apply htot
  rw [← h4, hled.2.1, hsl.2.1]
  simp [chart_total]

set_option maxRecDepth 100000 in
/-- A run of `rr` whose total burst exceeds `MAXG` and in which no slice is dropped: on two
processes of burst 6000 with quantum 3000 the loop ends after four dispatches, the ledger
holds the four slices and they end at the final clock 12000. -/
theorem rr_long_run_kept :
    ValidWorkload long_workload ∧ total_burst long_workload = 12000 ∧
    ¬ total_burst long_workload ≤ MAXG ∧
    rr_cond (rr_state 3000 long_workload 4) = false ∧
    (rr_state 3000 long_workload 4).time = 12000 ∧
    (rr_state 3000 long_workload 4).slices =
      [⟨1, 0, 3000⟩, ⟨2, 3000, 6000⟩, ⟨1, 6000, 9000⟩, ⟨2, 9000, 12000⟩] ∧
    (rr_state 3000 long_workload 4).g =
      [⟨1, 0, 3000⟩, ⟨2, 3000, 6000⟩, ⟨1, 6000, 9000⟩, ⟨2, 9000, 12000⟩] ∧
    NoSliceDropped [] (rr_state 3000 long_workload 4).slices := by
  have hs : (rr_state 3000 long_workload 4).slices =
      [⟨1, 0, 3000⟩, ⟨2, 3000, 6000⟩, ⟨1, 6000, 9000⟩, ⟨2, 9000, 12000⟩] := by decide
  refine ⟨by decide, by decide, by decide, by decide, by decide, hs, by decide, ?_⟩
  rw [hs]
  simp [NoSliceDropped, Kept, push_event, MAXG]

/-! ## Round-Robin with a quantum that is not positive: the counters of the queue -/

/-- C17 (amended): for every valid workload, the ledger of `fcfs`, of `sjf_np` and of
`priority_np` accounts for the run: the final clock is the end of the last recorded
slice, the durations of the recorded slices add up to the sum of the bursts (so the sum
of the bursts is the final clock minus the idle time), and the slices never overlap.  For
`rr` with quantum at least 1 the same holds of the slices as dispatched (the calls of
`push_event`), of which the ledger is the merged record, and it holds of the ledger
itself exactly when no call of `push_event` drops its slice (each slice is merged or
finds `count < MAXG`), as is the case whenever the sum of the bursts is at most `MAXG`. -/
theorem ledger_accounts_for_bursts (p : List Process) (hv : ValidWorkload p) (quantum : Int)
    (hq : 1 ≤ quantum) :
    LedgerAccounts (fcfs p).chart (fcfs_clock p) (total_burst p) ∧
    (∃ s, (∀ fuel, 2 * p.length + 2 ≤ fuel →
        np_loop Process.burst fuel (np_init p) = some s ∧
        (sjf_np fuel p).map RunResult.chart = some s.g) ∧
      LedgerAccounts s.g s.time (total_burst p)) ∧
    (∃ s, (∀ fuel, 2 * p.length + 2 ≤ fuel →
        np_loop Process.priority fuel (np_init p) = some s ∧
        (priority_np fuel p).map RunResult.chart = some s.g) ∧
      LedgerAccounts s.g s.time (total_burst p)) ∧
    (∃ s, (∀ fuel, rr_fuel p ≤ fuel →
        rr_loop quantum fuel (rr_init p) = some s ∧
        (rr fuel p quantum).map RunResult.chart = some s.g) ∧
      LedgerAccounts s.slices s.time (total_burst p) ∧ s.g = push_all [] s.slices ∧
      (LedgerAccounts s.g s.time (total_burst p) ↔ NoSliceDropped [] s.slices) ∧
      (total_burst p ≤ MAXG → LedgerAccounts s.g s.time (total_burst p))) := by
  refine ⟨fcfs_accounts p hv, ?_, ?_, ?_⟩
  · obtain ⟨r, h1, h2⟩ := np_accounts Process.burst
      (fun x h => (input_range_bounds h).2.2.2.1) p hv
    refine ⟨r, fun fuel hf => ⟨h1 fuel hf, ?_⟩, h2⟩
    unfold sjf_np
    rw [h1 fuel hf]
    rfl
  · obtain ⟨r, h1, h2⟩ := np_accounts Process.priority
      (fun x h => (input_range_bounds h).2.2.2.2) p hv
    refine ⟨r, fun fuel hf => ⟨h1 fuel hf, ?_⟩, h2⟩
    unfold priority_np
    rw [h1 fuel hf]
    rfl
  · obtain ⟨r, h1, h2, h3, h4, h5⟩ := rr_accounts_kept p hv quantum hq
    refine ⟨r, fun fuel hf => ⟨h1 fuel hf, ?_⟩, h2, h3, h4, h5⟩
    unfold rr
    rw [h1 fuel hf]
    rfl

theorem ledger_accounts_for_bursts_witness :
    ValidWorkload example_workload ∧ (1 : Int) ≤ 2 ∧
    LedgerAccounts (fcfs example_workload).chart (fcfs_clock example_workload)
      (total_burst example_workload) :=
  ⟨by decide, by decide,
    (ledger_accounts_for_bursts example_workload (by decide) 2 (by decide)).1⟩

end Sched
